import Mathlib

/-!
# Optimization rules of the analyzer (`sql/analyzer/optimization_rules.go`)

A shallow embedding of the rewrite rules `eraseProjection`,
`optimizeDistinct`, `moveJoinConditionsToFilter`, `removeUnnecessaryConverts`
and `evalFilter` together with the helpers they call (`isTrue`, `isFalse`,
`containsSources`, `nodeSources`, `expressionSources`).

Expression and plan trees are closed inductive types.  Every expression kind
that the rules do not inspect by name is a `Call` node: it has a name, a static
type and operands, and its value is computed from the values of its operands by
a function supplied in `Builtins`.
-/

namespace GMS

/-- An error value, as carried by the second result of a Go function. -/
abbrev Error := String

/-- Static SQL types.  `Boolean` is the type of boolean literals; it is also the
type of the narrow-integer boolean encoding. -/
inductive Typ where
  | Boolean
  | Int64
  | Uint64
  | Text
  | Tuple (arity : Nat)
  deriving DecidableEq, Repr

/-- Run-time values: the Go `interface{}` held by a literal or a row cell.
`null` is Go `nil`, `bool` a native boolean, `int8` the narrow integer that also
encodes booleans. -/
inductive Value where
  | null
  | bool (b : Bool)
  | int8 (n : Int)
  | int64 (n : Int)
  | tuple (vs : List Value)

/-- A row is the list of its cell values. -/
abbrev Row := List Value

/-- One output column of a plan node: name, type and source table qualifier. -/
structure Column where
  Name : String
  Typ : Typ
  Source : String
  deriving DecidableEq, Repr

/-- The ordered output columns of a plan node. -/
abbrev Schema := List Column

/-- Expression nodes.  `Call` stands for every expression kind other than the
ones named here (comparisons, arithmetic, function calls, ...). -/
inductive Expr where
  | Literal (value : Value) (fieldType : Typ)
  | GetField (fieldIndex : Nat) (fieldType : Typ) (table : String) (name : String)
  | UnresolvedColumn (table : String) (name : String)
  | And (left : Expr) (right : Expr)
  | Or (left : Expr) (right : Expr)
  | Convert (child : Expr) (castToType : Typ)
  | Tuple (exprs : List Expr)
  | Interval (child : Expr) (unit : String)
  | Call (name : String) (typ : Typ) (args : List Expr)

/-- The evaluation environment carried by the context: how the value of a
`Call` is obtained from the values of its operands, and how a value is
converted to a type.  Either may fail. -/
structure Builtins where
  call : String → List Value → Except Error Value
  convert : Typ → Value → Except Error Value

/-- Modelled from the spec: the constant `sql.False`, the distinguished "false"
sentinel of the narrow-integer boolean encoding (its declaration is not part of
the source files). -/
def sqlFalse : Int := 0

/-- Modelled from the spec: the three-valued truth value of a run-time value;
`none` is SQL NULL (unknown).  A native boolean is itself, an integer is true
when it is not zero. -/
def truth : Value → Option Bool
  | .null => none
  | .bool b => some b
  | .int8 n => some (decide (n ≠ 0))
  | .int64 n => some (decide (n ≠ 0))
  | .tuple _ => none

mutual
/-- Modelled from the spec: the static type reported by an expression node. -/
def Expr.staticType : Expr → Typ
  | .Literal _ t => t
  | .GetField _ t _ _ => t
  | .UnresolvedColumn _ _ => Typ.Text
  | .And _ _ => Typ.Boolean
  | .Or _ _ => Typ.Boolean
  | .Convert _ t => t
  | .Tuple [e] => e.staticType
  | .Tuple es => Typ.Tuple (Expr.countList es)
  | .Interval _ _ => Typ.Uint64
  | .Call _ t _ => t
/-- Number of expressions of a list. -/
def Expr.countList : List Expr → Nat
  | [] => 0
  | _ :: es => Expr.countList es + 1
end

mutual
/-- Modelled from the spec: `Resolved()` of an expression, true once every
column reference below it is bound. -/
def Expr.Resolved : Expr → Bool
  | .Literal _ _ => true
  | .GetField _ _ _ _ => true
  | .UnresolvedColumn _ _ => false
  | .And l r => l.Resolved && r.Resolved
  | .Or l r => l.Resolved && r.Resolved
  | .Convert c _ => c.Resolved
  | .Tuple es => Expr.ResolvedList es
  | .Interval c _ => c.Resolved
  | .Call _ _ args => Expr.ResolvedList args
/-- Every expression of the list is resolved. -/
def Expr.ResolvedList : List Expr → Bool
  | [] => true
  | e :: es => e.Resolved && Expr.ResolvedList es
end

mutual
/-- Modelled from the spec: `containsColumns`, whether a column reference
occurs anywhere inside the expression. -/
def containsColumns : Expr → Bool
  | .Literal _ _ => false
  | .GetField _ _ _ _ => true
  | .UnresolvedColumn _ _ => true
  | .And l r => containsColumns l || containsColumns r
  | .Or l r => containsColumns l || containsColumns r
  | .Convert c _ => containsColumns c
  | .Tuple es => containsColumnsList es
  | .Interval c _ => containsColumns c
  | .Call _ _ args => containsColumnsList args
/-- Whether a column reference occurs in one of the expressions. -/
def containsColumnsList : List Expr → Bool
  | [] => false
  | e :: es => containsColumns e || containsColumnsList es
end

/-- Modelled from the spec: an expression is evaluable when it can be computed
without row input, that is when it contains no column reference. -/
def isEvaluable (e : Expr) : Bool := !containsColumns e

/-- Modelled from the spec: logical AND of two evaluated operands in SQL
three-valued logic, for a left operand that is not false. -/
def andValues (lval rval : Value) : Value :=
  if truth rval = some false then .bool false
  else if truth lval = none ∨ truth rval = none then .null
  else .bool true

/-- Modelled from the spec: logical OR of two evaluated operands in SQL
three-valued logic, for a left operand that is not true. -/
def orValues (lval rval : Value) : Value :=
  if truth rval = some true then .bool true
  else if truth lval = none ∨ truth rval = none then .null
  else .bool false

mutual
/-- Modelled from the spec: `Eval` of an expression on a row.  A column
reference reads the cell at its field index; `And` and `Or` follow SQL
three-valued logic and evaluate the left operand first, the right operand only
when the left one does not decide the result; every other node evaluates its
operands from left to right and fails as soon as one of them fails. -/
def Expr.Eval (b : Builtins) (row : Row) : Expr → Except Error Value
  | .Literal v _ => .ok v
  | .GetField i _ _ _ =>
    match row[i]? with
    | some v => .ok v
    | none => .error "index out of bounds"
  | .UnresolvedColumn _ _ => .error "unresolved column"
  | .And l r =>
    match l.Eval b row with
    | .error err => .error err
    | .ok lval =>
      if truth lval = some false then .ok (.bool false)
      else
        match r.Eval b row with
        | .error err => .error err
        | .ok rval => .ok (andValues lval rval)
  | .Or l r =>
    match l.Eval b row with
    | .error err => .error err
    | .ok lval =>
      if truth lval = some true then .ok (.bool true)
      else
        match r.Eval b row with
        | .error err => .error err
        | .ok rval => .ok (orValues lval rval)
  | .Convert c t =>
    match c.Eval b row with
    | .error err => .error err
    | .ok v => b.convert t v
  | .Tuple [e] => e.Eval b row
  | .Tuple es =>
    match Expr.EvalList b row es with
    | .error err => .error err
    | .ok vs => .ok (.tuple vs)
  | .Interval _ _ => .error "interval is not evaluated directly"
  | .Call name _ args =>
    match Expr.EvalList b row args with
    | .error err => .error err
    | .ok vs => b.call name vs
/-- Values of a list of expressions, left to right; the first failure is the
failure of the whole list. -/
def Expr.EvalList (b : Builtins) (row : Row) : List Expr → Except Error (List Value)
  | [] => .ok []
  | e :: es =>
    match e.Eval b row with
    | .error err => .error err
    | .ok v =>
      match Expr.EvalList b row es with
      | .error err => .error err
      | .ok vs => .ok (v :: vs)
end

mutual
/-- Modelled from the spec: `expression.TransformUp`, the bottom-up rewrite of
an expression.  The operands are rewritten first, from left to right, the node
is rebuilt over the rewritten operands and `f` is applied to the rebuilt node;
the first error aborts the rewrite. -/
def Expr.TransformUp (f : Expr → Except Error Expr) : Expr → Except Error Expr
  | .Literal v t => f (.Literal v t)
  | .GetField i t tbl n => f (.GetField i t tbl n)
  | .UnresolvedColumn tbl n => f (.UnresolvedColumn tbl n)
  | .And l r =>
    match l.TransformUp f with
    | .error err => .error err
    | .ok l' =>
      match r.TransformUp f with
      | .error err => .error err
      | .ok r' => f (.And l' r')
  | .Or l r =>
    match l.TransformUp f with
    | .error err => .error err
    | .ok l' =>
      match r.TransformUp f with
      | .error err => .error err
      | .ok r' => f (.Or l' r')
  | .Convert c t =>
    match c.TransformUp f with
    | .error err => .error err
    | .ok c' => f (.Convert c' t)
  | .Tuple es =>
    match Expr.TransformUpList f es with
    | .error err => .error err
    | .ok es' => f (.Tuple es')
  | .Interval c u =>
    match c.TransformUp f with
    | .error err => .error err
    | .ok c' => f (.Interval c' u)
  | .Call n t args =>
    match Expr.TransformUpList f args with
    | .error err => .error err
    | .ok args' => f (.Call n t args')
/-- Bottom-up rewrite of each expression of a list, left to right. -/
def Expr.TransformUpList (f : Expr → Except Error Expr) : List Expr → Except Error (List Expr)
  | [] => .ok []
  | e :: es =>
    match e.TransformUp f with
    | .error err => .error err
    | .ok e' =>
      match Expr.TransformUpList f es with
      | .error err => .error err
      | .ok es' => .ok (e' :: es')
end

/-- The function `isFalse`: a non-NULL literal of type Boolean holding the
native boolean false or the narrow integer `sql.False`. -/
def isFalse (e : Expr) : Bool :=
  match e with
  | .Literal (.bool v) Typ.Boolean => !v
  | .Literal (.int8 v) Typ.Boolean => decide (v = sqlFalse)
  | _ => false

/-- The function `isTrue`: a non-NULL literal of type Boolean holding the
native boolean true or a narrow integer other than `sql.False`. -/
def isTrue (e : Expr) : Bool :=
  match e with
  | .Literal (.bool v) Typ.Boolean => v
  | .Literal (.int8 v) Typ.Boolean => decide (v ≠ sqlFalse)
  | _ => false

/-- The function literal that `evalFilter` passes to `expression.TransformUp`:
the rewrite of one expression node whose operands are already rewritten. -/
def evalFilterExprFunc (b : Builtins) (e : Expr) : Except Error Expr :=
  match e with
  | .Or left right =>
    if isTrue left then .ok left
    else if isTrue right then .ok right
    else if isFalse left then .ok right
    else if isFalse right then .ok left
    else .ok e
  | .And left right =>
    if isFalse left then .ok left
    else if isFalse right then .ok right
    else if isTrue left then .ok right
    else if isTrue right then .ok left
    else .ok e
  | .Literal _ _ => .ok e
  | .Tuple _ => .ok e
  | .Interval _ _ => .ok e
  | _ =>
    if !isEvaluable e then .ok e
    else
      match e.Eval b [] with
      | .error _ => .ok e
      | .ok val => .ok (.Literal val e.staticType)

/-- One key of a `Sort` node: the expression sorted on and the direction. -/
structure SortField where
  Column : Expr
  Descending : Bool

/-- Plan nodes. -/
inductive Node where
  | ResolvedTable (name : String) (schema : Schema)
  | UnresolvedTable (name : String)
  | EmptyTable
  | Filter (expression : Expr) (child : Node)
  | Project (projections : List Expr) (child : Node)
  | InnerJoin (left : Node) (right : Node) (cond : Expr)
  | CrossJoin (left : Node) (right : Node)
  | Distinct (child : Node)
  | OrderedDistinct (child : Node)
  | Sort (sortFields : List SortField) (child : Node)

/-- Modelled from the spec: the text of a run-time value, used to name a
projected column that has no name of its own. -/
def Value.String : Value → String
  | .null => "NULL"
  | .bool true => "true"
  | .bool false => "false"
  | .int8 n => toString n
  | .int64 n => toString n
  | .tuple _ => "(...)"

mutual
/-- Modelled from the spec: the text of an expression (`String()`), used to
name a projected column that has no name of its own. -/
def Expr.String : Expr → String
  | .Literal v _ => v.String
  | .GetField _ _ tbl n => if tbl = "" then n else tbl ++ "." ++ n
  | .UnresolvedColumn tbl n => if tbl = "" then n else tbl ++ "." ++ n
  | .And l r => "(" ++ l.String ++ " AND " ++ r.String ++ ")"
  | .Or l r => "(" ++ l.String ++ " OR " ++ r.String ++ ")"
  | .Convert c _ => "convert(" ++ c.String ++ ")"
  | .Tuple es => "(" ++ Expr.StringList es ++ ")"
  | .Interval c u => "INTERVAL " ++ c.String ++ " " ++ u
  | .Call n _ args => n ++ "(" ++ Expr.StringList args ++ ")"
/-- The texts of the expressions of a list, separated by commas. -/
def Expr.StringList : List Expr → String
  | [] => ""
  | e :: es => e.String ++ ", " ++ Expr.StringList es
end

/-- Modelled from the spec: the output column of a projected expression.  A
column reference gives its own name and table qualifier; any other expression
is named by its text and has no source. -/
def ExpressionToColumn (e : Expr) : Column :=
  match e with
  | .GetField _ t tbl n => { Name := n, Typ := t, Source := tbl }
  | .UnresolvedColumn tbl n => { Name := n, Typ := Typ.Text, Source := tbl }
  | _ => { Name := e.String, Typ := e.staticType, Source := "" }

/-- Modelled from the spec: `Schema()` of a plan node.  A table scan has the
schema of its table, a projection one column per projected expression, a join
the columns of its left child followed by those of its right child; the other
nodes have the schema of their child.  `EmptyTable` has a fixed schema, the
one without columns. -/
def Node.Schema : Node → Schema
  | .ResolvedTable _ s => s
  | .UnresolvedTable _ => []
  | .EmptyTable => []
  | .Filter _ c => c.Schema
  | .Project es _ => es.map ExpressionToColumn
  | .InnerJoin l r _ => l.Schema ++ r.Schema
  | .CrossJoin l r => l.Schema ++ r.Schema
  | .Distinct c => c.Schema
  | .OrderedDistinct c => c.Schema
  | .Sort _ c => c.Schema

/-- Modelled from the spec: `Resolved()` of a plan node, true once the node's
own expressions and all its children are resolved. -/
def Node.Resolved : Node → Bool
  | .ResolvedTable _ _ => true
  | .UnresolvedTable _ => false
  | .EmptyTable => true
  | .Filter e c => e.Resolved && c.Resolved
  | .Project es c => Expr.ResolvedList es && c.Resolved
  | .InnerJoin l r cond => l.Resolved && r.Resolved && cond.Resolved
  | .CrossJoin l r => l.Resolved && r.Resolved
  | .Distinct c => c.Resolved
  | .OrderedDistinct c => c.Resolved
  | .Sort fs c => Expr.ResolvedList (fs.map SortField.Column) && c.Resolved

/-- Modelled from the spec: `plan.TransformUp`, the bottom-up rewrite of a
plan.  The children are rewritten first, from left to right, the node is
rebuilt over the rewritten children and `f` is applied to the rebuilt node;
the first error aborts the rewrite and no plan is returned. -/
def Node.TransformUp (f : Node → Except Error Node) : Node → Except Error Node
  | .ResolvedTable n s => f (.ResolvedTable n s)
  | .UnresolvedTable n => f (.UnresolvedTable n)
  | .EmptyTable => f .EmptyTable
  | .Filter e c =>
    match c.TransformUp f with
    | .error err => .error err
    | .ok c' => f (.Filter e c')
  | .Project es c =>
    match c.TransformUp f with
    | .error err => .error err
    | .ok c' => f (.Project es c')
  | .InnerJoin l r cond =>
    match l.TransformUp f with
    | .error err => .error err
    | .ok l' =>
      match r.TransformUp f with
      | .error err => .error err
      | .ok r' => f (.InnerJoin l' r' cond)
  | .CrossJoin l r =>
    match l.TransformUp f with
    | .error err => .error err
    | .ok l' =>
      match r.TransformUp f with
      | .error err => .error err
      | .ok r' => f (.CrossJoin l' r')
  | .Distinct c =>
    match c.TransformUp f with
    | .error err => .error err
    | .ok c' => f (.Distinct c')
  | .OrderedDistinct c =>
    match c.TransformUp f with
    | .error err => .error err
    | .ok c' => f (.OrderedDistinct c')
  | .Sort fs c =>
    match c.TransformUp f with
    | .error err => .error err
    | .ok c' => f (.Sort fs c')

/-- The function literal that `evalFilter` passes to `plan.TransformUp`: the
rewrite of one plan node whose children are already rewritten. -/
def evalFilterNodeFunc (b : Builtins) (node : Node) : Except Error Node :=
  match node with
  | .Filter expression child =>
    match expression.TransformUp (evalFilterExprFunc b) with
    | .error err => .error err
    | .ok e =>
      if isFalse e then .ok .EmptyTable
      else if isTrue e then .ok child
      else .ok (.Filter e child)
  | _ => .ok node

/-- The rule `evalFilter`. -/
def evalFilter (b : Builtins) (node : Node) : Except Error Node :=
  if !node.Resolved then .ok node
  else node.TransformUp (evalFilterNodeFunc b)

/-- The function `containsSources`: every source of `needle` occurs in
`haystack`. -/
def containsSources (haystack needle : List String) : Bool :=
  match needle with
  | [] => true
  | s :: rest =>
    if haystack.any (fun s2 => decide (s2 = s)) then containsSources haystack rest
    else false

/-- One step of the loops of `nodeSources` and `expressionSources`: a source
not seen before is appended to the result. -/
def addSource (result : List String) (source : String) : List String :=
  if source ∈ result then result else result ++ [source]

/-- The function `nodeSources`: the sources of the columns of the node's
schema. -/
def nodeSources (node : Node) : List String :=
  node.Schema.foldl (fun result col => addSource result col.Source) []

mutual
/-- The visit of `expressionSources`: `sql.Inspect` calls the function on the
node and then on its operands from left to right; a column reference adds its
table to the result. -/
def expressionSourcesVisit (result : List String) : Expr → List String
  | .Literal _ _ => result
  | .GetField _ _ tbl _ => addSource result tbl
  | .UnresolvedColumn _ _ => result
  | .And l r => expressionSourcesVisit (expressionSourcesVisit result l) r
  | .Or l r => expressionSourcesVisit (expressionSourcesVisit result l) r
  | .Convert c _ => expressionSourcesVisit result c
  | .Tuple es => expressionSourcesVisitList result es
  | .Interval c _ => expressionSourcesVisit result c
  | .Call _ _ args => expressionSourcesVisitList result args
/-- The visit of the operands of a node, from left to right. -/
def expressionSourcesVisitList (result : List String) : List Expr → List String
  | [] => result
  | e :: es => expressionSourcesVisitList (expressionSourcesVisit result e) es
end

/-- The function `expressionSources`: the tables of the column references
inside the expression. -/
def expressionSources (expr : Expr) : List String :=
  expressionSourcesVisit [] expr

/-- Modelled from the spec: `splitConjunction`, the top-level AND-separated
terms of a predicate; a predicate with no top-level AND is a single
conjunct. -/
def splitConjunction : Expr → List Expr
  | .And l r => splitConjunction l ++ splitConjunction r
  | e => [e]

/-- Modelled from the spec: `expression.JoinAnd`, the AND of several
expressions; there is no expression for an empty list. -/
def JoinAnd : List Expr → Option Expr
  | [] => none
  | e :: rest => some (rest.foldl Expr.And e)

/-- Position of the first column of the schema with the given table qualifier
and name. -/
def indexOfColumn (table name : String) : Schema → Option Nat
  | [] => none
  | col :: rest =>
    if name = col.Name ∧ table = col.Source then some 0
    else (indexOfColumn table name rest).map (fun i => i + 1)

/-- The rewrite of one expression node by `FixFieldIndexes`. -/
def fixFieldIndex (schema : Schema) (e : Expr) : Except Error Expr :=
  match e with
  | .GetField _ t tbl n =>
    match indexOfColumn tbl n schema with
    | some i => .ok (.GetField i t tbl n)
    | none => .error ("field missing: " ++ n)
  | _ => .ok e

/-- Modelled from the spec: `FixFieldIndexes`, which re-resolves the field
index of every column reference of an expression against the given schema (of
a query that has no enclosing scope) and fails when a referenced column is not
present in that schema. -/
def FixFieldIndexes (schema : Schema) (exp : Expr) : Except Error Expr :=
  exp.TransformUp (fixFieldIndex schema)

/-- The three lists filled by the loop of `moveJoinConditionsToFilter`. -/
structure JoinFilters where
  leftFilters : List Expr
  rightFilters : List Expr
  condFilters : List Expr

/-- The body of the loop of `moveJoinConditionsToFilter` over the conjuncts of
the join condition. -/
def classifyConjunct (leftSources rightSources : List String) (acc : JoinFilters) (e : Expr) :
    JoinFilters :=
  let sources := expressionSources e
  let canMoveLeft := containsSources leftSources sources
  let acc1 := if canMoveLeft then { acc with leftFilters := acc.leftFilters ++ [e] } else acc
  let canMoveRight := containsSources rightSources sources
  let acc2 := if canMoveRight then { acc1 with rightFilters := acc1.rightFilters ++ [e] } else acc1
  if !canMoveLeft && !canMoveRight then { acc2 with condFilters := acc2.condFilters ++ [e] }
  else acc2

/-- The function literal that `moveJoinConditionsToFilter` passes to
`plan.TransformUp`: the rewrite of one plan node whose children are already
rewritten. -/
def moveJoinConditionsToFilterNodeFunc (n : Node) : Except Error Node :=
  match n with
  | .InnerJoin joinLeft joinRight joinCond =>
    let leftSources := nodeSources joinLeft
    let rightSources := nodeSources joinRight
    let fs := (splitConjunction joinCond).foldl (classifyConjunct leftSources rightSources)
      { leftFilters := [], rightFilters := [], condFilters := [] }
    let leftResult : Except Error Node :=
      if fs.leftFilters.length > 0 then
        match JoinAnd fs.leftFilters with
        | none => .error "nil expression"
        | some c =>
          match FixFieldIndexes joinLeft.Schema c with
          | .error err => .error err
          | .ok leftFilters => .ok (.Filter leftFilters joinLeft)
      else .ok joinLeft
    match leftResult with
    | .error err => .error err
    | .ok left =>
      let rightResult : Except Error Node :=
        if fs.rightFilters.length > 0 then
          match JoinAnd fs.rightFilters with
          | none => .error "nil expression"
          | some c =>
            match FixFieldIndexes joinRight.Schema c with
            | .error err => .error err
            | .ok rightFilters => .ok (.Filter rightFilters joinRight)
        else .ok joinRight
      match rightResult with
      | .error err => .error err
      | .ok right =>
        if fs.condFilters.length > 0 then
          match JoinAnd fs.condFilters with
          | none => .error "nil expression"
          | some c => .ok (.InnerJoin left right c)
        else .ok (.CrossJoin left right)
  | _ => .ok n

/-- The rule `moveJoinConditionsToFilter`. -/
def moveJoinConditionsToFilter (n : Node) : Except Error Node :=
  if !n.Resolved then .ok n
  else n.TransformUp moveJoinConditionsToFilterNodeFunc

/-- Modelled from the spec: `Children()` of a plan node. -/
def Node.Children : Node → List Node
  | .ResolvedTable _ _ => []
  | .UnresolvedTable _ => []
  | .EmptyTable => []
  | .Filter _ c => [c]
  | .Project _ c => [c]
  | .InnerJoin l r _ => [l, r]
  | .CrossJoin l r => [l, r]
  | .Distinct c => [c]
  | .OrderedDistinct c => [c]
  | .Sort _ c => [c]

/-- Modelled from the spec: `WithChildren()` of a plan node, the same node over
other children; it fails when the number of children is not the node's own. -/
def Node.WithChildren : Node → List Node → Except Error Node
  | .ResolvedTable n s, [] => .ok (.ResolvedTable n s)
  | .UnresolvedTable n, [] => .ok (.UnresolvedTable n)
  | .EmptyTable, [] => .ok .EmptyTable
  | .Filter e _, [c] => .ok (.Filter e c)
  | .Project es _, [c] => .ok (.Project es c)
  | .InnerJoin _ _ cond, [l, r] => .ok (.InnerJoin l r cond)
  | .CrossJoin _ _, [l, r] => .ok (.CrossJoin l r)
  | .Distinct _, [c] => .ok (.Distinct c)
  | .OrderedDistinct _, [c] => .ok (.OrderedDistinct c)
  | .Sort fs _, [c] => .ok (.Sort fs c)
  | _, _ => .error "invalid children number"

/-- Numeric reading of a value, as used by the sample comparisons: a boolean
is 0 or 1. -/
def sampleNum : Value → Option Int
  | .bool true => some 1
  | .bool false => some 0
  | .int8 n => some n
  | .int64 n => some n
  | _ => none

/-- Modelled from the spec: a sample of the open set of computable
expressions, the comparisons `=`, `>` and `<` on numbers (NULL when an operand
is NULL); any other call fails. -/
def sampleCall (name : String) (args : List Value) : Except Error Value :=
  match name, args with
  | "=", [x, y] =>
    match sampleNum x, sampleNum y with
    | some m, some n => .ok (.bool (decide (m = n)))
    | _, _ => .ok .null
  | ">", [x, y] =>
    match sampleNum x, sampleNum y with
    | some m, some n => .ok (.bool (decide (m > n)))
    | _, _ => .ok .null
  | "<", [x, y] =>
    match sampleNum x, sampleNum y with
    | some m, some n => .ok (.bool (decide (m < n)))
    | _, _ => .ok .null
  | _, _ => .error "unknown function"

/-- A sample evaluation environment: the sample comparisons, and a conversion
that keeps the value. -/
def sampleBuiltins : Builtins :=
  { call := sampleCall, convert := fun _ v => .ok v }

/-- The table `T1(a, b)` of the examples. -/
def tableT1 : Node :=
  .ResolvedTable "T1" [{ Name := "a", Typ := .Int64, Source := "T1" },
    { Name := "b", Typ := .Int64, Source := "T1" }]

/-- The table `T2(c, d)` of the examples. -/
def tableT2 : Node :=
  .ResolvedTable "T2" [{ Name := "c", Typ := .Int64, Source := "T2" },
    { Name := "d", Typ := .Int64, Source := "T2" }]

/-- The integer literal `n`. -/
def intLit (n : Int) : Expr := .Literal (.int64 n) .Int64

/-- The boolean literal `b`. -/
def boolLit (v : Bool) : Expr := .Literal (.bool v) .Boolean

/-- The comparison `x op y`. -/
def compare2 (op : String) (x y : Expr) : Expr := .Call op .Boolean [x, y]

/-- Whether a conjunct may move to a child whose source set is `sources`: the
test `containsSources(sources, expressionSources(e))` of the loop. -/
def canMove (sources : List String) (e : Expr) : Bool :=
  containsSources sources (expressionSources e)

/-- The inner joins of a plan, each given by its children and its condition. -/
def Node.innerJoins : Node → List (Node × Node × Expr)
  | .ResolvedTable _ _ => []
  | .UnresolvedTable _ => []
  | .EmptyTable => []
  | .Filter _ c => c.innerJoins
  | .Project _ c => c.innerJoins
  | .InnerJoin l r cond => (l, r, cond) :: (l.innerJoins ++ r.innerJoins)
  | .CrossJoin l r => l.innerJoins ++ r.innerJoins
  | .Distinct c => c.innerJoins
  | .OrderedDistinct c => c.innerJoins
  | .Sort _ c => c.innerJoins

/-- The error of re-indexing the conjuncts of a list against a schema, if
there is one. -/
def reindexErrorOf (schema : Schema) (filters : List Expr) : Option Error :=
  match JoinAnd filters with
  | none => none
  | some c =>
    match FixFieldIndexes schema c with
    | .error err => some err
    | .ok _ => none

/-- The error of re-indexing the conjuncts pushed to the left child of an
inner join or, when that succeeds, those pushed to its right child. -/
def reindexError (j : Node × Node × Expr) : Option Error :=
  match reindexErrorOf j.1.Schema
      ((splitConjunction j.2.2).filter (canMove (nodeSources j.1))) with
  | some err => some err
  | none =>
    reindexErrorOf j.2.1.Schema ((splitConjunction j.2.2).filter (canMove (nodeSources j.2.1)))

/-- The join condition `T1.a > 5 AND T2.c < 10 AND T1.b = T2.d` of the
examples, indexed against the schema `(a, b, c, d)` of the join. -/
def sampleCond : Expr :=
  .And (.And (compare2 ">" (.GetField 0 .Int64 "T1" "a") (intLit 5))
      (compare2 "<" (.GetField 2 .Int64 "T2" "c") (intLit 10)))
    (compare2 "=" (.GetField 1 .Int64 "T1" "b") (.GetField 3 .Int64 "T2" "d"))

/-- The block of `moveJoinConditionsToFilter` that wraps a child in a `Filter`
holding the re-indexed AND of the conjuncts pushed to it; a child with no
pushed conjunct is left as it is. -/
def wrapFilter (filters : List Expr) (child : Node) : Except Error Node :=
  if filters.length > 0 then
    match JoinAnd filters with
    | none => .error "nil expression"
    | some c =>
      match FixFieldIndexes child.Schema c with
      | .error err => .error err
      | .ok fixed => .ok (.Filter fixed child)
  else .ok child

/-! ## The rows of a plan -/

/-- Modelled from the spec: the content of the underlying tables, the rows
stored under each table name. -/
abbrev Database := String → List Row

/-- Modelled from the spec: a filter or join keeps a row exactly when its
predicate evaluates to true on the row. -/
def keeps (b : Builtins) (e : Expr) (row : Row) : Bool :=
  match e.Eval b row with
  | .ok v => decide (truth v = some true)
  | .error _ => false

mutual
/-- Equality of two values. -/
def Value.beq : Value → Value → Bool
  | .null, .null => true
  | .bool x, .bool y => decide (x = y)
  | .int8 x, .int8 y => decide (x = y)
  | .int64 x, .int64 y => decide (x = y)
  | .tuple xs, .tuple ys => Value.beqList xs ys
  | _, _ => false
/-- Equality of two lists of values, cell by cell. -/
def Value.beqList : List Value → List Value → Bool
  | [], [] => true
  | x :: xs, y :: ys => Value.beq x y && Value.beqList xs ys
  | _, _ => false
end

/-- Modelled from the spec: the rows of `Distinct`, each row once, at its
first occurrence. -/
def distinctRows : List Row → List Row
  | [] => []
  | r :: rs => r :: (distinctRows rs).filter (fun x => !Value.beqList r x)

/-- Modelled from the spec: the rows of `OrderedDistinct`, which compares each
row with its predecessor only. -/
def orderedDistinctRows : List Row → List Row
  | [] => []
  | r :: rs =>
    match rs with
    | [] => [r]
    | s :: _ => if Value.beqList r s then orderedDistinctRows rs else r :: orderedDistinctRows rs

/-- The number a value is sorted by; NULL and tuples have none and sort
first. -/
def sortKey : Value → Option Int
  | .bool true => some 1
  | .bool false => some 0
  | .int8 n => some n
  | .int64 n => some n
  | _ => none

/-- Strict order of two sort keys. -/
def sortKeyLt : Option Int → Option Int → Bool
  | none, some _ => true
  | some m, some n => decide (m < n)
  | _, _ => false

/-- Whether a row may come before another one under the sort fields, compared
from the first field on; a field that cannot be evaluated counts as NULL. -/
def rowLe (b : Builtins) : List SortField → Row → Row → Bool
  | [], _, _ => true
  | f :: fs, r, s =>
    let kr := match f.Column.Eval b r with
      | .ok v => sortKey v
      | .error _ => none
    let ks := match f.Column.Eval b s with
      | .ok v => sortKey v
      | .error _ => none
    if sortKeyLt kr ks then !f.Descending
    else if sortKeyLt ks kr then f.Descending
    else rowLe b fs r s

/-- Insertion of a row into a sorted list of rows, after the rows it may not
come before. -/
def insertRow (b : Builtins) (fs : List SortField) (r : Row) : List Row → List Row
  | [] => [r]
  | s :: rest => if rowLe b fs r s then r :: s :: rest else s :: insertRow b fs r rest

/-- Modelled from the spec: the rows of `Sort`, a stable insertion sort. -/
def sortRows (b : Builtins) (fs : List SortField) : List Row → List Row
  | [] => []
  | r :: rs => insertRow b fs r (sortRows b fs rs)

/-- Modelled from the spec: the rows a plan produces for a content of the
underlying tables.  A table scan gives the stored rows that have the arity of
the table; a filter keeps the rows of its child on which its predicate
evaluates to true; an inner join gives, for each row of its left child and
each row of its right child in turn, the concatenated row when the condition
evaluates to true on it, a cross join gives every concatenated row; a
projection evaluates its expressions on each row of its child and produces no
row where one of them fails. -/
def Node.rows (b : Builtins) (db : Database) : Node → List Row
  | .ResolvedTable name schema => (db name).filter (fun r => decide (r.length = schema.length))
  | .UnresolvedTable _ => []
  | .EmptyTable => []
  | .Filter e c => (c.rows b db).filter (keeps b e)
  | .Project es c =>
    (c.rows b db).filterMap (fun r =>
      match Expr.EvalList b r es with
      | .ok vs => some vs
      | .error _ => none)
  | .InnerJoin l r cond =>
    (l.rows b db).flatMap (fun x =>
      ((r.rows b db).filter (fun y => keeps b cond (x ++ y))).map (fun y => x ++ y))
  | .CrossJoin l r =>
    (l.rows b db).flatMap (fun x => (r.rows b db).map (fun y => x ++ y))
  | .Distinct c => distinctRows (c.rows b db)
  | .OrderedDistinct c => orderedDistinctRows (c.rows b db)
  | .Sort fs c => sortRows b fs (c.rows b db)

mutual
/-- The column references inside an expression, each given by its field index,
table and name, in the order of the visit of `expressionSources`. -/
def exprFields : Expr → List (Nat × String × String)
  | .Literal _ _ => []
  | .GetField i _ tbl n => [(i, tbl, n)]
  | .UnresolvedColumn _ _ => []
  | .And l r => exprFields l ++ exprFields r
  | .Or l r => exprFields l ++ exprFields r
  | .Convert c _ => exprFields c
  | .Tuple es => exprFieldsList es
  | .Interval c _ => exprFields c
  | .Call _ _ args => exprFieldsList args
/-- The column references inside the expressions of a list. -/
def exprFieldsList : List Expr → List (Nat × String × String)
  | [] => []
  | e :: es => exprFields e ++ exprFieldsList es
end

/-- A content for the tables `T1` and `T2` of the examples. -/
def sampleDatabase : Database := fun name =>
  if name = "T1" then [[.int64 10, .int64 2], [.int64 1, .int64 2]]
  else if name = "T2" then [[.int64 1, .int64 2], [.int64 50, .int64 2]]
  else []

/-- The value of a tuple expression from the values of its elements: a tuple of
one element is that element. -/
def tupleValue : Except Error (List Value) → Except Error Value
  | .error err => .error err
  | .ok [v] => .ok v
  | .ok vs => .ok (.tuple vs)

/-! ## Projection erasure, ordered distinct and redundant casts -/

/-- Modelled from the spec: `Schema.Equals`, structural equality of two
schemas, the same columns in the same order. -/
def Schema.Equals (s s2 : Schema) : Bool := decide (s = s2)

/-- Modelled from the spec: `Schema.Contains`, whether the schema has a column
with the given name and table qualifier. -/
def Schema.Contains (s : Schema) (column source : String) : Bool :=
  s.any (fun col => decide (col.Name = column) && decide (col.Source = source))

/-- The function literal that `eraseProjection` passes to `plan.TransformUp`. -/
def eraseProjectionNodeFunc (node : Node) : Except Error Node :=
  match node with
  | .Project projections child =>
    if Schema.Equals (Node.Project projections child).Schema child.Schema then .ok child
    else .ok node
  | _ => .ok node

/-- The rule `eraseProjection`. -/
def eraseProjection (node : Node) : Except Error Node :=
  if !node.Resolved then .ok node
  else node.TransformUp eraseProjectionNodeFunc

/-- Modelled from the spec: `plan.Inspect`, the read-only depth-first visit of
a plan.  The visit function is called on a node before its children; it
returns the new value of the variables it captures and whether to descend into
the children of the node, which are then visited from left to right.  An error
stands for a run-time panic of the visit function: it ends the visit. -/
def Node.Inspect {σ : Type} (f : σ → Node → Except Error (σ × Bool)) (s : σ) :
    Node → Except Error σ
  | .ResolvedTable n sch =>
    match f s (.ResolvedTable n sch) with
    | .error err => .error err
    | .ok (s1, _) => .ok s1
  | .UnresolvedTable n =>
    match f s (.UnresolvedTable n) with
    | .error err => .error err
    | .ok (s1, _) => .ok s1
  | .EmptyTable =>
    match f s .EmptyTable with
    | .error err => .error err
    | .ok (s1, _) => .ok s1
  | .Filter e c =>
    match f s (.Filter e c) with
    | .error err => .error err
    | .ok (s1, false) => .ok s1
    | .ok (s1, true) => c.Inspect f s1
  | .Project es c =>
    match f s (.Project es c) with
    | .error err => .error err
    | .ok (s1, false) => .ok s1
    | .ok (s1, true) => c.Inspect f s1
  | .InnerJoin l r cond =>
    match f s (.InnerJoin l r cond) with
    | .error err => .error err
    | .ok (s1, false) => .ok s1
    | .ok (s1, true) =>
      match l.Inspect f s1 with
      | .error err => .error err
      | .ok s2 => r.Inspect f s2
  | .CrossJoin l r =>
    match f s (.CrossJoin l r) with
    | .error err => .error err
    | .ok (s1, false) => .ok s1
    | .ok (s1, true) =>
      match l.Inspect f s1 with
      | .error err => .error err
      | .ok s2 => r.Inspect f s2
  | .Distinct c =>
    match f s (.Distinct c) with
    | .error err => .error err
    | .ok (s1, false) => .ok s1
    | .ok (s1, true) => c.Inspect f s1
  | .OrderedDistinct c =>
    match f s (.OrderedDistinct c) with
    | .error err => .error err
    | .ok (s1, false) => .ok s1
    | .ok (s1, true) => c.Inspect f s1
  | .Sort fs c =>
    match f s (.Sort fs c) with
    | .error err => .error err
    | .ok (s1, false) => .ok s1
    | .ok (s1, true) => c.Inspect f s1

/-- The function literal that `optimizeDistinct` passes to `plan.Inspect`.  Its
captured variable is `sortField`.  On a `Sort` node met while no sort field is
recorded it reads `SortFields[0]`, records its column when that is a column
reference, and does not descend; the access to `SortFields[0]` of a `Sort`
without sort fields is out of range, which is given as an error. -/
def optimizeDistinctVisit (sortField : Option Expr) (node : Node) :
    Except Error (Option Expr × Bool) :=
  match node, sortField with
  | .Sort sortFields _, none =>
    match sortFields with
    | [] => .error "index out of range"
    | first :: _ =>
      match first.Column with
      | .GetField i t tbl n => .ok (some (.GetField i t tbl n), false)
      | _ => .ok (none, false)
  | _, _ => .ok (sortField, true)

/-- The rule `optimizeDistinct`.  An error stands for the run-time panic of
the out-of-range access in the visit. -/
def optimizeDistinct (node : Node) : Except Error Node :=
  match node with
  | .Distinct child =>
    match Node.Inspect optimizeDistinctVisit none (.Distinct child) with
    | .error err => .error err
    | .ok (some (.GetField _ _ tbl name)) =>
      if Schema.Contains (Node.Distinct child).Schema name tbl then .ok (.OrderedDistinct child)
      else .ok node
    | .ok _ => .ok node
  | _ => .ok node

/-- The function literal that `removeUnnecessaryConverts` passes to
`plan.TransformExpressionsUp`. -/
def removeUnnecessaryConvertsExprFunc (e : Expr) : Except Error Expr :=
  match e with
  | .Convert child castToType =>
    if child.staticType = (Expr.Convert child castToType).staticType then .ok child
    else .ok e
  | _ => .ok e

/-- The sort fields of a `Sort` with their columns rewritten bottom-up, from
left to right. -/
def transformSortFields (f : Expr → Except Error Expr) :
    List SortField → Except Error (List SortField)
  | [] => .ok []
  | sf :: rest =>
    match sf.Column.TransformUp f with
    | .error err => .error err
    | .ok c =>
      match transformSortFields f rest with
      | .error err => .error err
      | .ok rest' => .ok ({ Column := c, Descending := sf.Descending } :: rest')

/-- Modelled from the spec: `plan.TransformExpressions` composed with
`expression.TransformUp`, the bottom-up rewrite of every expression a plan
node owns: the predicate of a filter, the projections, the condition of an
inner join, the columns of the sort fields. -/
def Node.TransformExpressions (f : Expr → Except Error Expr) (n : Node) : Except Error Node :=
  match n with
  | .Filter e c =>
    match e.TransformUp f with
    | .error err => .error err
    | .ok e' => .ok (.Filter e' c)
  | .Project es c =>
    match Expr.TransformUpList f es with
    | .error err => .error err
    | .ok es' => .ok (.Project es' c)
  | .InnerJoin l r cond =>
    match cond.TransformUp f with
    | .error err => .error err
    | .ok cond' => .ok (.InnerJoin l r cond')
  | .Sort fs c =>
    match transformSortFields f fs with
    | .error err => .error err
    | .ok fs' => .ok (.Sort fs' c)
  | _ => .ok n

/-- Modelled from the spec: `plan.TransformExpressionsUp`, which rewrites
bottom-up the expressions of every node of the plan, the nodes being taken
bottom-up as well. -/
def Node.TransformExpressionsUp (f : Expr → Except Error Expr) (n : Node) : Except Error Node :=
  n.TransformUp (Node.TransformExpressions f)

/-- The rule `removeUnnecessaryConverts`. -/
def removeUnnecessaryConverts (n : Node) : Except Error Node :=
  if !n.Resolved then .ok n
  else n.TransformExpressionsUp removeUnnecessaryConvertsExprFunc

/-- Whether the plan has a `Project` node whose schema equals the schema of
its child. -/
def Node.hasRedundantProject : Node → Bool
  | .ResolvedTable _ _ => false
  | .UnresolvedTable _ => false
  | .EmptyTable => false
  | .Filter _ c => c.hasRedundantProject
  | .Project es c =>
    Schema.Equals (Node.Project es c).Schema c.Schema || c.hasRedundantProject
  | .InnerJoin l r _ => l.hasRedundantProject || r.hasRedundantProject
  | .CrossJoin l r => l.hasRedundantProject || r.hasRedundantProject
  | .Distinct c => c.hasRedundantProject
  | .OrderedDistinct c => c.hasRedundantProject
  | .Sort _ c => c.hasRedundantProject

/-- The column that the visit of `optimizeDistinct` records from a `Sort` with
the given sort fields: the column of the first sort field, when it is a column
reference. -/
def sortKeyField (sortFields : List SortField) : Option Expr :=
  match sortFields with
  | [] => none
  | first :: _ =>
    match first.Column with
    | .GetField i t tbl n => some (.GetField i t tbl n)
    | _ => none

/-- The sort fields of the first `Sort` node of a plan, in top-down traversal
order (a node before its children, the children from left to right). -/
def Node.firstSort : Node → Option (List SortField)
  | .ResolvedTable _ _ => none
  | .UnresolvedTable _ => none
  | .EmptyTable => none
  | .Filter _ c => c.firstSort
  | .Project _ c => c.firstSort
  | .InnerJoin l r _ =>
    match l.firstSort with
    | some fs => some fs
    | none => r.firstSort
  | .CrossJoin l r =>
    match l.firstSort with
    | some fs => some fs
    | none => r.firstSort
  | .Distinct c => c.firstSort
  | .OrderedDistinct c => c.firstSort
  | .Sort fs _ => some fs

/-- The sort fields of all the `Sort` nodes of a plan, in top-down traversal
order. -/
def Node.sorts : Node → List (List SortField)
  | .ResolvedTable _ _ => []
  | .UnresolvedTable _ => []
  | .EmptyTable => []
  | .Filter _ c => c.sorts
  | .Project _ c => c.sorts
  | .InnerJoin l r _ => l.sorts ++ r.sorts
  | .CrossJoin l r => l.sorts ++ r.sorts
  | .Distinct c => c.sorts
  | .OrderedDistinct c => c.sorts
  | .Sort fs c => fs :: c.sorts

/-- The sort fields of the `Sort` nodes of a plan that are not beneath another
`Sort` node, in top-down traversal order. -/
def Node.topSorts : Node → List (List SortField)
  | .ResolvedTable _ _ => []
  | .UnresolvedTable _ => []
  | .EmptyTable => []
  | .Filter _ c => c.topSorts
  | .Project _ c => c.topSorts
  | .InnerJoin l r _ => l.topSorts ++ r.topSorts
  | .CrossJoin l r => l.topSorts ++ r.topSorts
  | .Distinct c => c.topSorts
  | .OrderedDistinct c => c.topSorts
  | .Sort fs _ => [fs]

/-- The expression `a + 1` over the column `a` of `T1`. -/
def samplePlus : Expr := .Call "+" .Int64 [.GetField 0 .Int64 "T1" "a", intLit 1]

mutual
/-- Whether the expression contains a `Convert` node whose child has the
target type of the cast as its static type. -/
def hasRedundantConvert : Expr → Bool
  | .Literal _ _ => false
  | .GetField _ _ _ _ => false
  | .UnresolvedColumn _ _ => false
  | .And l r => hasRedundantConvert l || hasRedundantConvert r
  | .Or l r => hasRedundantConvert l || hasRedundantConvert r
  | .Convert c t => decide (c.staticType = t) || hasRedundantConvert c
  | .Tuple es => hasRedundantConvertList es
  | .Interval c _ => hasRedundantConvert c
  | .Call _ _ args => hasRedundantConvertList args
/-- Whether one of the expressions contains such a `Convert` node. -/
def hasRedundantConvertList : List Expr → Bool
  | [] => false
  | e :: es => hasRedundantConvert e || hasRedundantConvertList es
end

/-- The expressions owned by the nodes of a plan. -/
def Node.allExpressions : Node → List Expr
  | .ResolvedTable _ _ => []
  | .UnresolvedTable _ => []
  | .EmptyTable => []
  | .Filter e c => e :: c.allExpressions
  | .Project es c => es ++ c.allExpressions
  | .InnerJoin l r cond => cond :: (l.allExpressions ++ r.allExpressions)
  | .CrossJoin l r => l.allExpressions ++ r.allExpressions
  | .Distinct c => c.allExpressions
  | .OrderedDistinct c => c.allExpressions
  | .Sort fs c => fs.map SortField.Column ++ c.allExpressions

/-- The predicates of the `Filter` nodes of a plan. -/
def Node.filters : Node → List Expr
  | .ResolvedTable _ _ => []
  | .UnresolvedTable _ => []
  | .EmptyTable => []
  | .Filter e c => e :: c.filters
  | .Project _ c => c.filters
  | .InnerJoin l r _ => l.filters ++ r.filters
  | .CrossJoin l r => l.filters ++ r.filters
  | .Distinct c => c.filters
  | .OrderedDistinct c => c.filters
  | .Sort _ c => c.filters

/-- Whether the evaluation of the expression on the empty row fails. -/
def evalFails (b : Builtins) (e : Expr) : Bool :=
  match e.Eval b [] with
  | .error _ => true
  | .ok _ => false

mutual
/-- Whether nothing is left to simplify in a predicate: no `And` or `Or` has
an operand that is a literal true or false, and no node other than `And`,
`Or`, `Literal`, `Tuple` and `Interval` is evaluable with an evaluation on the
empty row that succeeds. -/
def isSimplified (b : Builtins) : Expr → Bool
  | .Literal _ _ => true
  | .GetField _ _ _ _ => true
  | .UnresolvedColumn _ _ => true
  | .And l r =>
    !isTrue l && !isFalse l && !isTrue r && !isFalse r && isSimplified b l && isSimplified b r
  | .Or l r =>
    !isTrue l && !isFalse l && !isTrue r && !isFalse r && isSimplified b l && isSimplified b r
  | .Convert c t =>
    (!isEvaluable (.Convert c t) || evalFails b (.Convert c t)) && isSimplified b c
  | .Tuple es => isSimplifiedList b es
  | .Interval c _ => isSimplified b c
  | .Call n t args =>
    (!isEvaluable (.Call n t args) || evalFails b (.Call n t args)) && isSimplifiedList b args
/-- Whether nothing is left to simplify in the expressions of a list. -/
def isSimplifiedList (b : Builtins) : List Expr → Bool
  | [] => true
  | e :: es => isSimplified b e && isSimplifiedList b es
end

/-- Whether nothing is left to simplify in the `Filter` nodes of a plan: the
predicate of each is neither a literal true nor a literal false, and nothing
is left to simplify in it. -/
def Node.filtersSimplified (b : Builtins) : Node → Bool
  | .ResolvedTable _ _ => true
  | .UnresolvedTable _ => true
  | .EmptyTable => true
  | .Filter e c => !isTrue e && !isFalse e && isSimplified b e && c.filtersSimplified b
  | .Project _ c => c.filtersSimplified b
  | .InnerJoin l r _ => l.filtersSimplified b && r.filtersSimplified b
  | .CrossJoin l r => l.filtersSimplified b && r.filtersSimplified b
  | .Distinct c => c.filtersSimplified b
  | .OrderedDistinct c => c.filtersSimplified b
  | .Sort _ c => c.filtersSimplified b

/-- The source set of a list of table qualifiers, in the words of the
glossary: the distinct qualifiers, each listed once, in the order of their
first occurrence. -/
def firstOccurrences : List String → List String
  | [] => []
  | x :: xs => x :: (firstOccurrences xs).filter (fun y => decide (y ≠ x))

/-- The nodes of a plan: the node itself, then the nodes of its children from
left to right. -/
def Node.subplans : Node → List Node
  | .ResolvedTable n s => [.ResolvedTable n s]
  | .UnresolvedTable n => [.UnresolvedTable n]
  | .EmptyTable => [.EmptyTable]
  | .Filter e c => .Filter e c :: c.subplans
  | .Project es c => .Project es c :: c.subplans
  | .InnerJoin l r cond => .InnerJoin l r cond :: (l.subplans ++ r.subplans)
  | .CrossJoin l r => .CrossJoin l r :: (l.subplans ++ r.subplans)
  | .Distinct c => .Distinct c :: c.subplans
  | .OrderedDistinct c => .OrderedDistinct c :: c.subplans
  | .Sort fs c => .Sort fs c :: c.subplans

/-- The column types of the schema of a plan node. -/
def Node.schemaTypes (n : Node) : List Typ := n.Schema.map Column.Typ

mutual
/-- The expressions occurring in an expression: the expression itself, then
the expressions occurring in its operands, from left to right. -/
def subexprs : Expr → List Expr
  | .Literal v t => [.Literal v t]
  | .GetField i t tbl n => [.GetField i t tbl n]
  | .UnresolvedColumn tbl n => [.UnresolvedColumn tbl n]
  | .And l r => .And l r :: (subexprs l ++ subexprs r)
  | .Or l r => .Or l r :: (subexprs l ++ subexprs r)
  | .Convert c t => .Convert c t :: subexprs c
  | .Tuple es => .Tuple es :: subexprsList es
  | .Interval c u => .Interval c u :: subexprs c
  | .Call n t args => .Call n t args :: subexprsList args
/-- The expressions occurring in the expressions of a list. -/
def subexprsList : List Expr → List Expr
  | [] => []
  | e :: es => subexprs e ++ subexprsList es
end

/-- Whether an evaluation raised an error. -/
def raises (x : Except Error Value) : Bool :=
  match x with
  | .error _ => true
  | .ok _ => false

mutual
/-- Whether an `And` or an `Or` node occurs in the expression. -/
def hasConnective : Expr → Bool
  | .Literal _ _ => false
  | .GetField _ _ _ _ => false
  | .UnresolvedColumn _ _ => false
  | .And _ _ => true
  | .Or _ _ => true
  | .Convert c _ => hasConnective c
  | .Tuple es => hasConnectiveList es
  | .Interval c _ => hasConnective c
  | .Call _ _ args => hasConnectiveList args
/-- Whether an `And` or an `Or` node occurs in one of the expressions. -/
def hasConnectiveList : List Expr → Bool
  | [] => false
  | e :: es => hasConnective e || hasConnectiveList es
end

/-- Whether a predicate is a combination, by `And` and `Or`, of expressions in
which no `And` and no `Or` occurs: the connectives stand above the other
nodes. -/
def isCombination : Expr → Bool
  | .And l r => isCombination l && isCombination r
  | .Or l r => isCombination l && isCombination r
  | e => !hasConnective e

/-- Whether the predicate rewrite of `evalFilter` drops, at an `And` or `Or`
node of a combination, a left operand whose evaluation on the row fails: the
rewritten right operand of an `And` is a literal false and the rewritten left
operand is not, or the rewritten right operand of an `Or` is a literal true
and the rewritten left operand is not, so that the node is replaced by its
right operand. -/
def dropsFailing (b : Builtins) (row : Row) : Expr → Bool
  | .And l r =>
    dropsFailing b row l || dropsFailing b row r ||
      (match l.TransformUp (evalFilterExprFunc b), r.TransformUp (evalFilterExprFunc b) with
       | .ok L, .ok R => !isFalse L && isFalse R && raises (l.Eval b row)
       | _, _ => false)
  | .Or l r =>
    dropsFailing b row l || dropsFailing b row r ||
      (match l.TransformUp (evalFilterExprFunc b), r.TransformUp (evalFilterExprFunc b) with
       | .ok L, .ok R => !isTrue L && isTrue R && raises (l.Eval b row)
       | _, _ => false)
  | _ => false

/-- The second evaluation keeps the outcome of the first as far as a filter
can tell: it raises an error when the first does, and when the first gives a
value it gives a value with the same truth value. -/
def keepsOutcome (x y : Except Error Value) : Prop :=
  (raises x = true → raises y = true) ∧
  ∀ v, x = .ok v → ∃ w, y = .ok w ∧ truth w = truth v

/-! ## Bottom-up rewrites never fail when the node function never fails -/

mutual
/-- A bottom-up expression rewrite with a total node function is total. -/
theorem exprTransformUp_total (f : Expr → Except Error Expr)
    (hf : ∀ e, ∃ e', f e = .ok e') : ∀ e : Expr, ∃ e', e.TransformUp f = .ok e'
  | .Literal v t => by simpa [Expr.TransformUp] using hf _
  | .GetField i t tbl n => by simpa [Expr.TransformUp] using hf _
  | .UnresolvedColumn tbl n => by simpa [Expr.TransformUp] using hf _
  | .And l r => by
    obtain ⟨l', hl⟩ := exprTransformUp_total f hf l
    obtain ⟨r', hr⟩ := exprTransformUp_total f hf r
    simpa [Expr.TransformUp, hl, hr] using hf _
  | .Or l r => by
    obtain ⟨l', hl⟩ := exprTransformUp_total f hf l
    obtain ⟨r', hr⟩ := exprTransformUp_total f hf r
    simpa [Expr.TransformUp, hl, hr] using hf _
  | .Convert c t => by
    obtain ⟨c', hc⟩ := exprTransformUp_total f hf c
    simpa [Expr.TransformUp, hc] using hf _
  | .Tuple es => by
    obtain ⟨es', hes⟩ := exprTransformUpList_total f hf es
    simpa [Expr.TransformUp, hes] using hf _
  | .Interval c u => by
    obtain ⟨c', hc⟩ := exprTransformUp_total f hf c
    simpa [Expr.TransformUp, hc] using hf _
  | .Call n t args => by
    obtain ⟨es', hes⟩ := exprTransformUpList_total f hf args
    simpa [Expr.TransformUp, hes] using hf _
/-- The list version of `exprTransformUp_total`. -/
theorem exprTransformUpList_total (f : Expr → Except Error Expr)
    (hf : ∀ e, ∃ e', f e = .ok e') : ∀ es : List Expr, ∃ es', Expr.TransformUpList f es = .ok es'
  | [] => ⟨[], by simp [Expr.TransformUpList]⟩
  | e :: es => by
    obtain ⟨e', he⟩ := exprTransformUp_total f hf e
    obtain ⟨es', hes⟩ := exprTransformUpList_total f hf es
    exact ⟨e' :: es', by simp [Expr.TransformUpList, he, hes]⟩
end

/-- A bottom-up plan rewrite with a total node function is total. -/
theorem nodeTransformUp_total (f : Node → Except Error Node)
    (hf : ∀ n, ∃ n', f n = .ok n') : ∀ n : Node, ∃ n', n.TransformUp f = .ok n'
  | .ResolvedTable n s => by simpa [Node.TransformUp] using hf _
  | .UnresolvedTable n => by simpa [Node.TransformUp] using hf _
  | .EmptyTable => by simpa [Node.TransformUp] using hf _
  | .Filter e c => by
    obtain ⟨c', hc⟩ := nodeTransformUp_total f hf c
    simpa [Node.TransformUp, hc] using hf _
  | .Project es c => by
    obtain ⟨c', hc⟩ := nodeTransformUp_total f hf c
    simpa [Node.TransformUp, hc] using hf _
  | .InnerJoin l r cond => by
    obtain ⟨l', hl⟩ := nodeTransformUp_total f hf l
    obtain ⟨r', hr⟩ := nodeTransformUp_total f hf r
    simpa [Node.TransformUp, hl, hr] using hf _
  | .CrossJoin l r => by
    obtain ⟨l', hl⟩ := nodeTransformUp_total f hf l
    obtain ⟨r', hr⟩ := nodeTransformUp_total f hf r
    simpa [Node.TransformUp, hl, hr] using hf _
  | .Distinct c => by
    obtain ⟨c', hc⟩ := nodeTransformUp_total f hf c
    simpa [Node.TransformUp, hc] using hf _
  | .OrderedDistinct c => by
    obtain ⟨c', hc⟩ := nodeTransformUp_total f hf c
    simpa [Node.TransformUp, hc] using hf _
  | .Sort fs c => by
    obtain ⟨c', hc⟩ := nodeTransformUp_total f hf c
    simpa [Node.TransformUp, hc] using hf _

/-- The expression function of `evalFilter` never fails. -/
theorem evalFilterExprFunc_total (b : Builtins) (e : Expr) :
    ∃ e', evalFilterExprFunc b e = .ok e' := by
  unfold evalFilterExprFunc
  split <;> (repeat' split) <;> exact ⟨_, rfl⟩

/-- The predicate rewrite of `evalFilter` never fails. -/
theorem evalFilter_rewrite_total (b : Builtins) (e : Expr) :
    ∃ e', e.TransformUp (evalFilterExprFunc b) = .ok e' :=
  exprTransformUp_total _ (evalFilterExprFunc_total b) e

/-- The node function of `evalFilter` never fails. -/
theorem evalFilterNodeFunc_total (b : Builtins) (n : Node) :
    ∃ n', evalFilterNodeFunc b n = .ok n' := by
  rcases n with ⟨n, s⟩ | n | _ | ⟨e, c⟩ | ⟨es, c⟩ | ⟨l, r, cond⟩ | ⟨l, r⟩ | c | c | ⟨fs, c⟩
  case Filter =>
    obtain ⟨e', he⟩ := evalFilter_rewrite_total b e
    simp only [evalFilterNodeFunc, he]
    split
    · exact ⟨_, rfl⟩
    · split <;> exact ⟨_, rfl⟩
  all_goals exact ⟨_, rfl⟩

/-- The rule `evalFilter` never fails. -/
theorem evalFilter_total (b : Builtins) (n : Node) : ∃ n', evalFilter b n = .ok n' := by
  unfold evalFilter
  split
  · exact ⟨_, rfl⟩
  · exact nodeTransformUp_total _ (evalFilterNodeFunc_total b) n

/-- On a resolved plan `evalFilter` is the bottom-up rewrite. -/
theorem evalFilter_of_resolved (b : Builtins) (n : Node) (h : n.Resolved = true) :
    evalFilter b n = n.TransformUp (evalFilterNodeFunc b) := by
  simp [evalFilter, h]

/-- The rewrite of a resolved `Filter` by `evalFilter`. -/
theorem evalFilter_filter (b : Builtins) (p : Expr) (c : Node) (p' : Expr) (c' : Node)
    (h : (Node.Filter p c).Resolved = true)
    (hp : p.TransformUp (evalFilterExprFunc b) = .ok p') (hc : evalFilter b c = .ok c') :
    evalFilter b (.Filter p c) =
      .ok (if isFalse p' then .EmptyTable else if isTrue p' then c' else .Filter p' c') := by
  have hcr : c.Resolved = true := by
    simp only [Node.Resolved, Bool.and_eq_true] at h
    exact h.2
  rw [evalFilter_of_resolved b c hcr] at hc
  rw [evalFilter_of_resolved b _ h]
  simp only [Node.TransformUp, hc, evalFilterNodeFunc, hp]
  split
  · rfl
  · split <;> rfl

/-- C1. For a resolved plan with root `Filter(p, c)`, with `p'` the bottom-up
rewrite of `p` and `c'` the result of `evalFilter` on `c`, `evalFilter` returns
`EmptyTable` when `p'` is a literal false, `c'` when `p'` is a literal true and
`Filter(p', c')` otherwise; a resolved node that is not a `Filter` is returned
over its rewritten children and is otherwise the same node. -/
theorem evalFilter_root (b : Builtins) (n : Node) (hres : n.Resolved = true) :
    (∀ p c, n = .Filter p c →
      ∃ p' c', p.TransformUp (evalFilterExprFunc b) = .ok p' ∧ evalFilter b c = .ok c' ∧
        evalFilter b n =
          .ok (if isFalse p' then .EmptyTable else if isTrue p' then c' else .Filter p' c')) ∧
    ((∀ p c, n ≠ .Filter p c) →
      ∃ cs', List.Forall₂ (fun c c' => evalFilter b c = .ok c') n.Children cs' ∧
        evalFilter b n = n.WithChildren cs') := by
  constructor
  · intro p c hn
    subst hn
    obtain ⟨p', hp⟩ := evalFilter_rewrite_total b p
    obtain ⟨c', hc⟩ := evalFilter_total b c
    exact ⟨p', c', hp, hc, evalFilter_filter b p c p' c' hres hp hc⟩
  · intro hn
    rw [evalFilter_of_resolved b n hres]
    rcases n with ⟨n, s⟩ | n | _ | ⟨e, c⟩ | ⟨es, c⟩ | ⟨l, r, cond⟩ | ⟨l, r⟩ | c | c | ⟨fs, c⟩
    · exact ⟨[], List.Forall₂.nil, rfl⟩
    · exact ⟨[], List.Forall₂.nil, rfl⟩
    · exact ⟨[], List.Forall₂.nil, rfl⟩
    · exact absurd rfl (hn e c)
    · have hcr : c.Resolved = true := by
        simp only [Node.Resolved, Bool.and_eq_true] at hres
        exact hres.2
      obtain ⟨c', hc⟩ := evalFilter_total b c
      refine ⟨[c'], List.Forall₂.cons hc List.Forall₂.nil, ?_⟩
      rw [evalFilter_of_resolved b c hcr] at hc
      simp [Node.TransformUp, hc, evalFilterNodeFunc, Node.WithChildren]
    · have hcr : l.Resolved = true ∧ r.Resolved = true := by
        simp only [Node.Resolved, Bool.and_eq_true] at hres
        exact hres.1
      obtain ⟨l', hl⟩ := evalFilter_total b l
      obtain ⟨r', hr⟩ := evalFilter_total b r
      refine ⟨[l', r'], List.Forall₂.cons hl (List.Forall₂.cons hr List.Forall₂.nil), ?_⟩
      rw [evalFilter_of_resolved b l hcr.1] at hl
      rw [evalFilter_of_resolved b r hcr.2] at hr
      simp [Node.TransformUp, hl, hr, evalFilterNodeFunc, Node.WithChildren]
    · have hcr : l.Resolved = true ∧ r.Resolved = true := by
        simp only [Node.Resolved, Bool.and_eq_true] at hres
        exact hres
      obtain ⟨l', hl⟩ := evalFilter_total b l
      obtain ⟨r', hr⟩ := evalFilter_total b r
      refine ⟨[l', r'], List.Forall₂.cons hl (List.Forall₂.cons hr List.Forall₂.nil), ?_⟩
      rw [evalFilter_of_resolved b l hcr.1] at hl
      rw [evalFilter_of_resolved b r hcr.2] at hr
      simp [Node.TransformUp, hl, hr, evalFilterNodeFunc, Node.WithChildren]
    · have hcr : c.Resolved = true := by
        simpa only [Node.Resolved] using hres
      obtain ⟨c', hc⟩ := evalFilter_total b c
      refine ⟨[c'], List.Forall₂.cons hc List.Forall₂.nil, ?_⟩
      rw [evalFilter_of_resolved b c hcr] at hc
      simp [Node.TransformUp, hc, evalFilterNodeFunc, Node.WithChildren]
    · have hcr : c.Resolved = true := by
        simpa only [Node.Resolved] using hres
      obtain ⟨c', hc⟩ := evalFilter_total b c
      refine ⟨[c'], List.Forall₂.cons hc List.Forall₂.nil, ?_⟩
      rw [evalFilter_of_resolved b c hcr] at hc
      simp [Node.TransformUp, hc, evalFilterNodeFunc, Node.WithChildren]
    · have hcr : c.Resolved = true := by
        simp only [Node.Resolved, Bool.and_eq_true] at hres
        exact hres.2
      obtain ⟨c', hc⟩ := evalFilter_total b c
      refine ⟨[c'], List.Forall₂.cons hc List.Forall₂.nil, ?_⟩
      rw [evalFilter_of_resolved b c hcr] at hc
      simp [Node.TransformUp, hc, evalFilterNodeFunc, Node.WithChildren]


/-- C1 witness: the resolved plan `Filter(1 = 2, T1)`. -/
theorem evalFilter_root_witness :
    (Node.Filter (compare2 "=" (intLit 1) (intLit 2)) tableT1).Resolved = true ∧
    ((∀ p c, Node.Filter (compare2 "=" (intLit 1) (intLit 2)) tableT1 = .Filter p c →
      ∃ p' c', p.TransformUp (evalFilterExprFunc sampleBuiltins) = .ok p' ∧
        evalFilter sampleBuiltins c = .ok c' ∧
        evalFilter sampleBuiltins (Node.Filter (compare2 "=" (intLit 1) (intLit 2)) tableT1) =
          .ok (if isFalse p' then .EmptyTable else if isTrue p' then c' else .Filter p' c')) ∧
    ((∀ p c, Node.Filter (compare2 "=" (intLit 1) (intLit 2)) tableT1 ≠ .Filter p c) →
      ∃ cs', List.Forall₂ (fun c c' => evalFilter sampleBuiltins c = .ok c')
          (Node.Filter (compare2 "=" (intLit 1) (intLit 2)) tableT1).Children cs' ∧
        evalFilter sampleBuiltins (Node.Filter (compare2 "=" (intLit 1) (intLit 2)) tableT1) =
          (Node.Filter (compare2 "=" (intLit 1) (intLit 2)) tableT1).WithChildren cs')) :=
  ⟨rfl, evalFilter_root sampleBuiltins _ rfl⟩

/-- The rewrite of an `Or` node over rewritten operands. -/
theorem evalFilterExprFunc_or (b : Builtins) (L R : Expr) :
    evalFilterExprFunc b (.Or L R) =
      .ok (if isTrue L then L else if isTrue R then R else if isFalse L then R
        else if isFalse R then L else .Or L R) := by
  simp only [evalFilterExprFunc]
  repeat' split
  all_goals rfl

/-- The rewrite of an `And` node over rewritten operands. -/
theorem evalFilterExprFunc_and (b : Builtins) (L R : Expr) :
    evalFilterExprFunc b (.And L R) =
      .ok (if isFalse L then L else if isFalse R then R else if isTrue L then R
        else if isTrue R then L else .And L R) := by
  simp only [evalFilterExprFunc]
  repeat' split
  all_goals rfl

/-- A literal is its own rewrite. -/
theorem evalFilter_rewrite_literal (b : Builtins) (v : Value) (t : Typ) :
    (Expr.Literal v t).TransformUp (evalFilterExprFunc b) = .ok (.Literal v t) := by
  simp [Expr.TransformUp, evalFilterExprFunc]

/-- An expression recognised by `isTrue` is a literal. -/
theorem isTrue_literal (e : Expr) (h : isTrue e = true) : ∃ v t, e = .Literal v t := by
  cases e <;> simp [isTrue] at h
  exact ⟨_, _, rfl⟩

/-- An expression recognised by `isFalse` is a literal. -/
theorem isFalse_literal (e : Expr) (h : isFalse e = true) : ∃ v t, e = .Literal v t := by
  cases e <;> simp [isFalse] at h
  exact ⟨_, _, rfl⟩

/-- No expression is recognised by both `isTrue` and `isFalse`. -/
theorem isTrue_isFalse_exclusive (e : Expr) : ¬ (isTrue e = true ∧ isFalse e = true) := by
  rintro ⟨h1, h2⟩
  unfold isTrue at h1
  unfold isFalse at h2
  split at h1
  · simp_all
  · simp_all
  · simp at h1

/-- A `Filter` whose rewritten predicate is a literal true is replaced by its
rewritten child. -/
theorem evalFilter_filter_true (b : Builtins) (p : Expr) (c : Node) (p' : Expr)
    (h : (Node.Filter p c).Resolved = true)
    (hp : p.TransformUp (evalFilterExprFunc b) = .ok p') (ht : isTrue p' = true) :
    evalFilter b (.Filter p c) = evalFilter b c := by
  obtain ⟨c', hc⟩ := evalFilter_total b c
  rw [evalFilter_filter b p c p' c' h hp hc, hc]
  have hf : isFalse p' = false := by
    cases hfp : isFalse p'
    · rfl
    · exact absurd ⟨ht, hfp⟩ (isTrue_isFalse_exclusive p')
  simp [hf, ht]

/-- A `Filter` whose rewritten predicate is a literal false is replaced by
`EmptyTable`. -/
theorem evalFilter_filter_false (b : Builtins) (p : Expr) (c : Node) (p' : Expr)
    (h : (Node.Filter p c).Resolved = true)
    (hp : p.TransformUp (evalFilterExprFunc b) = .ok p') (hf : isFalse p' = true) :
    evalFilter b (.Filter p c) = .ok .EmptyTable := by
  obtain ⟨c', hc⟩ := evalFilter_total b c
  rw [evalFilter_filter b p c p' c' h hp hc]
  simp [hf]

/-- C3. In the predicate rewrite of `evalFilter`, an `And` whose operands are
rewritten to `L` and `R` becomes `L` if `L` is a literal false, otherwise `R`
if `R` is a literal false, otherwise `R` if `L` is a literal true, otherwise
`L` if `R` is a literal true, and otherwise stays `And(L, R)`.  In a resolved
plan `Filter(false AND X, T)` becomes `EmptyTable` for every expression `X`,
evaluable or not. -/
theorem evalFilter_and (b : Builtins) :
    (∀ l r L R : Expr, l.TransformUp (evalFilterExprFunc b) = .ok L →
      r.TransformUp (evalFilterExprFunc b) = .ok R →
      (Expr.And l r).TransformUp (evalFilterExprFunc b) =
        .ok (if isFalse L then L else if isFalse R then R else if isTrue L then R
          else if isTrue R then L else .And L R)) ∧
    (∀ (F X : Expr) (T : Node), isFalse F = true →
      (Node.Filter (.And F X) T).Resolved = true →
      evalFilter b (.Filter (.And F X) T) = .ok .EmptyTable) := by
  have hrule : ∀ l r L R : Expr, l.TransformUp (evalFilterExprFunc b) = .ok L →
      r.TransformUp (evalFilterExprFunc b) = .ok R →
      (Expr.And l r).TransformUp (evalFilterExprFunc b) =
        .ok (if isFalse L then L else if isFalse R then R else if isTrue L then R
          else if isTrue R then L else .And L R) := by
    intro l r L R hl hr
    simp only [Expr.TransformUp, hl, hr, evalFilterExprFunc_and]
  refine ⟨hrule, ?_⟩
  intro F X T hF hres
  obtain ⟨v, t, rfl⟩ := isFalse_literal F hF
  obtain ⟨X', hX⟩ := evalFilter_rewrite_total b X
  refine evalFilter_filter_false b _ T (.Literal v t) hres ?_ hF
  rw [hrule _ _ _ _ (evalFilter_rewrite_literal b v t) hX]
  simp [hF]

/-- C3 witness: `Filter(false AND T1.a > 5, T1)`, whose right operand is not
evaluable, becomes `EmptyTable`. -/
theorem evalFilter_and_witness :
    evalFilter sampleBuiltins
      (.Filter (.And (boolLit false) (compare2 ">" (.GetField 0 .Int64 "T1" "a") (intLit 5)))
        tableT1) = .ok .EmptyTable :=
  (evalFilter_and sampleBuiltins).2 (boolLit false)
    (compare2 ">" (.GetField 0 .Int64 "T1" "a") (intLit 5)) tableT1 rfl rfl

/-- C4. In the predicate rewrite of `evalFilter`, a node that is not an `And`,
`Or`, `Literal`, `Tuple` or `Interval` is kept when it is not evaluable, is
replaced by the literal of its value and static type when it is evaluable and
its evaluation on the empty row succeeds, and is kept when that evaluation
fails; neither the rewrite of a node, nor the rewrite of a predicate, nor the
rule itself ever returns an error. -/
theorem evalFilter_fold (b : Builtins) (e : Expr)
    (hAnd : ∀ l r, e ≠ .And l r) (hOr : ∀ l r, e ≠ .Or l r) (hLit : ∀ v t, e ≠ .Literal v t)
    (hTuple : ∀ es, e ≠ .Tuple es) (hInterval : ∀ c u, e ≠ .Interval c u) :
    (isEvaluable e = false → evalFilterExprFunc b e = .ok e) ∧
    (∀ v, isEvaluable e = true → e.Eval b [] = .ok v →
      evalFilterExprFunc b e = .ok (.Literal v e.staticType)) ∧
    (∀ err, isEvaluable e = true → e.Eval b [] = .error err →
      evalFilterExprFunc b e = .ok e) ∧
    (∀ x : Expr, ∃ x', evalFilterExprFunc b x = .ok x') ∧
    (∀ p : Expr, ∃ p', p.TransformUp (evalFilterExprFunc b) = .ok p') ∧
    (∀ n : Node, ∃ n', evalFilter b n = .ok n') := by
  refine ⟨?_, ?_, ?_, evalFilterExprFunc_total b, evalFilter_rewrite_total b, evalFilter_total b⟩
  · intro hne
    cases e with
    | And l r => exact absurd rfl (hAnd l r)
    | Or l r => exact absurd rfl (hOr l r)
    | Literal v t => exact absurd rfl (hLit v t)
    | Tuple es => exact absurd rfl (hTuple es)
    | Interval c u => exact absurd rfl (hInterval c u)
    | _ => simp [evalFilterExprFunc, hne]
  · intro v hev hval
    cases e with
    | And l r => exact absurd rfl (hAnd l r)
    | Or l r => exact absurd rfl (hOr l r)
    | Literal v t => exact absurd rfl (hLit v t)
    | Tuple es => exact absurd rfl (hTuple es)
    | Interval c u => exact absurd rfl (hInterval c u)
    | _ => simp [evalFilterExprFunc, hev, hval]
  · intro err hev hval
    cases e with
    | And l r => exact absurd rfl (hAnd l r)
    | Or l r => exact absurd rfl (hOr l r)
    | Literal v t => exact absurd rfl (hLit v t)
    | Tuple es => exact absurd rfl (hTuple es)
    | Interval c u => exact absurd rfl (hInterval c u)
    | _ => simp [evalFilterExprFunc, hev, hval]

/-- C4 witness: the call `nosuch()` is evaluable and its evaluation fails. -/
theorem evalFilter_fold_witness :
    (isEvaluable (.Call "nosuch" .Int64 []) = false →
      evalFilterExprFunc sampleBuiltins (.Call "nosuch" .Int64 []) =
        .ok (.Call "nosuch" .Int64 [])) ∧
    (∀ v, isEvaluable (.Call "nosuch" .Int64 []) = true →
      (Expr.Call "nosuch" .Int64 []).Eval sampleBuiltins [] = .ok v →
      evalFilterExprFunc sampleBuiltins (.Call "nosuch" .Int64 []) =
        .ok (.Literal v (Expr.Call "nosuch" .Int64 []).staticType)) ∧
    (∀ err, isEvaluable (.Call "nosuch" .Int64 []) = true →
      (Expr.Call "nosuch" .Int64 []).Eval sampleBuiltins [] = .error err →
      evalFilterExprFunc sampleBuiltins (.Call "nosuch" .Int64 []) =
        .ok (.Call "nosuch" .Int64 [])) ∧
    (∀ x : Expr, ∃ x', evalFilterExprFunc sampleBuiltins x = .ok x') ∧
    (∀ p : Expr, ∃ p', p.TransformUp (evalFilterExprFunc sampleBuiltins) = .ok p') ∧
    (∀ n : Node, ∃ n', evalFilter sampleBuiltins n = .ok n') :=
  evalFilter_fold sampleBuiltins (.Call "nosuch" .Int64 []) (fun _ _ h => by cases h)
    (fun _ _ h => by cases h) (fun _ _ h => by cases h) (fun _ h => by cases h)
    (fun _ _ h => by cases h)

/-- C5. For a literal of type Boolean, `isTrue` holds exactly for the native
boolean true and for a narrow integer other than the false sentinel, `isFalse`
exactly for the native boolean false and for the false sentinel; for every
other expression (not a literal, a NULL literal, a literal of another type, a
Boolean literal holding a value of another kind) both are false; and no
expression satisfies both. -/
theorem isTrue_isFalse_spec :
    (∀ v : Bool, isTrue (.Literal (.bool v) .Boolean) = v ∧
      isFalse (.Literal (.bool v) .Boolean) = !v) ∧
    (∀ n : Int, (isTrue (.Literal (.int8 n) .Boolean) = true ↔ n ≠ sqlFalse) ∧
      (isFalse (.Literal (.int8 n) .Boolean) = true ↔ n = sqlFalse)) ∧
    (∀ e : Expr, (∀ v : Bool, e ≠ .Literal (.bool v) .Boolean) →
      (∀ n : Int, e ≠ .Literal (.int8 n) .Boolean) → isTrue e = false ∧ isFalse e = false) ∧
    (∀ e : Expr, ¬ (isTrue e = true ∧ isFalse e = true)) := by
  refine ⟨fun v => ⟨rfl, rfl⟩, fun n => ⟨by simp [isTrue], by simp [isFalse]⟩, ?_,
    isTrue_isFalse_exclusive⟩
  intro e hb hn
  constructor
  · unfold isTrue
    split
    · exact absurd rfl (hb _)
    · exact absurd rfl (hn _)
    · rfl
  · unfold isFalse
    split
    · exact absurd rfl (hb _)
    · exact absurd rfl (hn _)
    · rfl

/-- C2 counterexample: `1 AND 1` is evaluable and evaluates to the boolean
true, but `Filter((1 AND 1) OR T1.a > 5, T1)` is kept as a `Filter`. -/
theorem evalFilter_or_counterexample :
    ¬ (∀ (b : Builtins) (E X : Expr) (T : Node),
      (Node.Filter (.Or E X) T).Resolved = true → isEvaluable E = true →
      E.Eval b [] = .ok (.bool true) →
      evalFilter b (.Filter (.Or E X) T) = evalFilter b T) := by
  intro h
  have h1 := h sampleBuiltins (.And (intLit 1) (intLit 1))
    (compare2 ">" (.GetField 0 .Int64 "T1" "a") (intLit 5)) tableT1 rfl rfl rfl
  have h2 : evalFilter sampleBuiltins
      (.Filter (.Or (.And (intLit 1) (intLit 1))
        (compare2 ">" (.GetField 0 .Int64 "T1" "a") (intLit 5))) tableT1) =
      .ok (.Filter (.Or (.And (intLit 1) (intLit 1))
        (compare2 ">" (.GetField 0 .Int64 "T1" "a") (intLit 5))) tableT1) := rfl
  have h3 : evalFilter sampleBuiltins tableT1 = .ok tableT1 := rfl
  rw [h2, h3] at h1
  simp [tableT1] at h1

/-- C2, amended. In the predicate rewrite of `evalFilter`, an `Or` whose
operands are rewritten to `L` and `R` becomes `L` if `L` is a literal true,
otherwise `R` if `R` is a literal true, otherwise `R` if `L` is a literal
false, otherwise `L` if `R` is a literal false, and otherwise stays
`Or(L, R)`.  In a resolved plan `Filter(E OR X, T)` becomes the rewritten `T`,
for every `X`, whenever the rewrite of `E` is a literal true; that is the case
when `E` is a call of static type Boolean whose operands are left unchanged by
the rewrite, which is evaluable and evaluates to the boolean true. -/
theorem evalFilter_or (b : Builtins) :
    (∀ l r L R : Expr, l.TransformUp (evalFilterExprFunc b) = .ok L →
      r.TransformUp (evalFilterExprFunc b) = .ok R →
      (Expr.Or l r).TransformUp (evalFilterExprFunc b) =
        .ok (if isTrue L then L else if isTrue R then R else if isFalse L then R
          else if isFalse R then L else .Or L R)) ∧
    (∀ (E X : Expr) (T : Node) (E' : Expr), (Node.Filter (.Or E X) T).Resolved = true →
      E.TransformUp (evalFilterExprFunc b) = .ok E' → isTrue E' = true →
      evalFilter b (.Filter (.Or E X) T) = evalFilter b T) ∧
    (∀ (name : String) (args : List Expr) (X : Expr) (T : Node),
      (Node.Filter (.Or (.Call name .Boolean args) X) T).Resolved = true →
      Expr.TransformUpList (evalFilterExprFunc b) args = .ok args →
      isEvaluable (.Call name .Boolean args) = true →
      (Expr.Call name .Boolean args).Eval b [] = .ok (.bool true) →
      evalFilter b (.Filter (.Or (.Call name .Boolean args) X) T) = evalFilter b T) := by
  have hrule : ∀ l r L R : Expr, l.TransformUp (evalFilterExprFunc b) = .ok L →
      r.TransformUp (evalFilterExprFunc b) = .ok R →
      (Expr.Or l r).TransformUp (evalFilterExprFunc b) =
        .ok (if isTrue L then L else if isTrue R then R else if isFalse L then R
          else if isFalse R then L else .Or L R) := by
    intro l r L R hl hr
    simp only [Expr.TransformUp, hl, hr, evalFilterExprFunc_or]
  have hgen : ∀ (E X : Expr) (T : Node) (E' : Expr), (Node.Filter (.Or E X) T).Resolved = true →
      E.TransformUp (evalFilterExprFunc b) = .ok E' → isTrue E' = true →
      evalFilter b (.Filter (.Or E X) T) = evalFilter b T := by
    intro E X T E' hres hE ht
    obtain ⟨X', hX⟩ := evalFilter_rewrite_total b X
    refine evalFilter_filter_true b _ T E' hres ?_ ht
    rw [hrule _ _ _ _ hE hX]
    simp [ht]
  refine ⟨hrule, hgen, ?_⟩
  intro name args X T hres hargs hev hval
  refine hgen _ X T (.Literal (.bool true) .Boolean) hres ?_ rfl
  simp [Expr.TransformUp, hargs, evalFilterExprFunc, hev, hval, Expr.staticType]

/-- C2 witness: `Filter(1 = 1 OR T1.a > 5, T1)` becomes `T1`. -/
theorem evalFilter_or_witness :
    evalFilter sampleBuiltins
      (.Filter (.Or (.Call "=" .Boolean [intLit 1, intLit 1])
        (compare2 ">" (.GetField 0 .Int64 "T1" "a") (intLit 5))) tableT1) =
      evalFilter sampleBuiltins tableT1 :=
  (evalFilter_or sampleBuiltins).2.2 "=" [intLit 1, intLit 1]
    (compare2 ">" (.GetField 0 .Int64 "T1" "a") (intLit 5)) tableT1 rfl rfl rfl rfl

/-! ## Join-condition pushdown -/

/-- The loop over the conjuncts fills the three lists with the conjuncts that
may move left, those that may move right and those that may move to neither
side, each in the original order. -/
theorem classifyConjunct_foldl (ls rs : List String) (cs : List Expr) (acc : JoinFilters) :
    cs.foldl (classifyConjunct ls rs) acc =
      { leftFilters := acc.leftFilters ++ cs.filter (canMove ls),
        rightFilters := acc.rightFilters ++ cs.filter (canMove rs),
        condFilters := acc.condFilters ++
          cs.filter (fun e => !canMove ls e && !canMove rs e) } := by
  induction cs generalizing acc with
  | nil => simp
  | cons e es ih =>
    rw [List.foldl_cons, ih]
    by_cases h1 : containsSources ls (expressionSources e) = true <;>
      by_cases h2 : containsSources rs (expressionSources e) = true <;>
      simp [classifyConjunct, canMove, List.filter_cons, h1, h2]

/-- `JoinAnd` of a non-empty list is an expression. -/
theorem JoinAnd_cons (e : Expr) (es : List Expr) : JoinAnd (e :: es) = some (es.foldl Expr.And e) :=
  rfl

/-- `JoinAnd` gives no expression exactly for the empty list. -/
theorem JoinAnd_eq_none (es : List Expr) : JoinAnd es = none ↔ es = [] := by
  cases es <;> simp [JoinAnd]

/-- The node function of `moveJoinConditionsToFilter` on an inner join, in
terms of the three filtered lists of conjuncts. -/
theorem moveJoinNodeFunc_innerJoin (L R : Node) (cond : Expr) :
    moveJoinConditionsToFilterNodeFunc (.InnerJoin L R cond) =
      match wrapFilter ((splitConjunction cond).filter (canMove (nodeSources L))) L with
      | .error err => .error err
      | .ok left =>
        match wrapFilter ((splitConjunction cond).filter (canMove (nodeSources R))) R with
        | .error err => .error err
        | .ok right =>
          match JoinAnd ((splitConjunction cond).filter
              (fun e => !canMove (nodeSources L) e && !canMove (nodeSources R) e)) with
          | none => .ok (.CrossJoin left right)
          | some c => .ok (.InnerJoin left right c) := by
  simp only [moveJoinConditionsToFilterNodeFunc, classifyConjunct_foldl, List.nil_append]
  generalize (splitConjunction cond).filter
    (fun e => !canMove (nodeSources L) e && !canMove (nodeSources R) e) = ks
  change (match wrapFilter ((splitConjunction cond).filter (canMove (nodeSources L))) L with
    | Except.error err => (Except.error err : Except Error Node)
    | Except.ok left =>
      match wrapFilter ((splitConjunction cond).filter (canMove (nodeSources R))) R with
      | Except.error err => (Except.error err : Except Error Node)
      | Except.ok right =>
        if ks.length > 0 then
          match JoinAnd ks with
          | none => (Except.error "nil expression" : Except Error Node)
          | some c => Except.ok (Node.InnerJoin left right c)
        else Except.ok (Node.CrossJoin left right)) = _
  generalize wrapFilter ((splitConjunction cond).filter (canMove (nodeSources L))) L = A
  generalize wrapFilter ((splitConjunction cond).filter (canMove (nodeSources R))) R = B
  cases A with
  | error err => rfl
  | ok left =>
    cases B with
    | error err => rfl
    | ok right =>
      cases ks with
      | nil => rfl
      | cons k ks => simp [JoinAnd]

/-- Wrapping a child in a `Filter` keeps its schema. -/
theorem wrapFilter_schema (filters : List Expr) (child n' : Node)
    (h : wrapFilter filters child = .ok n') : n'.Schema = child.Schema := by
  unfold wrapFilter at h
  split at h
  · split at h
    · cases h
    · split at h
      · cases h
      · cases h
        rfl
  · cases h
    rfl

/-- The node function of `moveJoinConditionsToFilter` keeps the schema. -/
theorem moveJoinNodeFunc_schema (n n' : Node)
    (h : moveJoinConditionsToFilterNodeFunc n = .ok n') : n'.Schema = n.Schema := by
  rcases n with ⟨n, s⟩ | n | _ | ⟨e, c⟩ | ⟨es, c⟩ | ⟨l, r, cond⟩ | ⟨l, r⟩ | c | c | ⟨fs, c⟩
  case InnerJoin =>
    rw [moveJoinNodeFunc_innerJoin] at h
    split at h
    · cases h
    · rename_i left hl
      split at h
      · cases h
      · rename_i right hr
        have h1 := wrapFilter_schema _ _ _ hl
        have h2 := wrapFilter_schema _ _ _ hr
        split at h <;> cases h <;> simp [Node.Schema, h1, h2]
  all_goals
    simp only [moveJoinConditionsToFilterNodeFunc] at h
    cases h
    rfl

/-- A bottom-up rewrite whose node function keeps the schema keeps the
schema. -/
theorem nodeTransformUp_schema (f : Node → Except Error Node)
    (hf : ∀ n n', f n = .ok n' → n'.Schema = n.Schema) :
    ∀ n n' : Node, n.TransformUp f = .ok n' → n'.Schema = n.Schema
  | .ResolvedTable n s, n', h => by
    simp only [Node.TransformUp] at h
    exact hf _ _ h
  | .UnresolvedTable n, n', h => by
    simp only [Node.TransformUp] at h
    exact hf _ _ h
  | .EmptyTable, n', h => by
    simp only [Node.TransformUp] at h
    exact hf _ _ h
  | .Filter e c, n', h => by
    simp only [Node.TransformUp] at h
    split at h
    · cases h
    · rename_i c' hc
      rw [hf _ _ h]
      simp [Node.Schema, nodeTransformUp_schema f hf c c' hc]
  | .Project es c, n', h => by
    simp only [Node.TransformUp] at h
    split at h
    · cases h
    · rename_i c' hc
      rw [hf _ _ h]
      simp [Node.Schema]
  | .InnerJoin l r cond, n', h => by
    simp only [Node.TransformUp] at h
    split at h
    · cases h
    · rename_i l' hl
      split at h
      · cases h
      · rename_i r' hr
        rw [hf _ _ h]
        simp [Node.Schema, nodeTransformUp_schema f hf l l' hl,
          nodeTransformUp_schema f hf r r' hr]
  | .CrossJoin l r, n', h => by
    simp only [Node.TransformUp] at h
    split at h
    · cases h
    · rename_i l' hl
      split at h
      · cases h
      · rename_i r' hr
        rw [hf _ _ h]
        simp [Node.Schema, nodeTransformUp_schema f hf l l' hl,
          nodeTransformUp_schema f hf r r' hr]
  | .Distinct c, n', h => by
    simp only [Node.TransformUp] at h
    split at h
    · cases h
    · rename_i c' hc
      rw [hf _ _ h]
      simp [Node.Schema, nodeTransformUp_schema f hf c c' hc]
  | .OrderedDistinct c, n', h => by
    simp only [Node.TransformUp] at h
    split at h
    · cases h
    · rename_i c' hc
      rw [hf _ _ h]
      simp [Node.Schema, nodeTransformUp_schema f hf c c' hc]
  | .Sort fs c, n', h => by
    simp only [Node.TransformUp] at h
    split at h
    · cases h
    · rename_i c' hc
      rw [hf _ _ h]
      simp [Node.Schema, nodeTransformUp_schema f hf c c' hc]

/-- The rule `moveJoinConditionsToFilter` keeps the schema of the plan. -/
theorem moveJoin_schema (n n' : Node) (h : moveJoinConditionsToFilter n = .ok n') :
    n'.Schema = n.Schema := by
  unfold moveJoinConditionsToFilter at h
  split at h
  · cases h
    rfl
  · exact nodeTransformUp_schema _ moveJoinNodeFunc_schema n n' h

/-- The source set of a node depends on its schema only. -/
theorem nodeSources_of_schema (n m : Node) (h : n.Schema = m.Schema) :
    nodeSources n = nodeSources m := by
  simp [nodeSources, h]

/-- On a resolved plan `moveJoinConditionsToFilter` is the bottom-up rewrite. -/
theorem moveJoin_of_resolved (n : Node) (h : n.Resolved = true) :
    moveJoinConditionsToFilter n = n.TransformUp moveJoinConditionsToFilterNodeFunc := by
  simp [moveJoinConditionsToFilter, h]

/-- The children of a resolved inner join are resolved. -/
theorem innerJoin_resolved (L R : Node) (cond : Expr)
    (h : (Node.InnerJoin L R cond).Resolved = true) :
    L.Resolved = true ∧ R.Resolved = true := by
  simp only [Node.Resolved, Bool.and_eq_true] at h
  exact h.1

/-- The rule on a resolved inner join: the children are rewritten, then the
node function is applied to the join of the rewritten children. -/
theorem moveJoin_innerJoin (L R : Node) (cond : Expr) (n' : Node)
    (hres : (Node.InnerJoin L R cond).Resolved = true)
    (h : moveJoinConditionsToFilter (.InnerJoin L R cond) = .ok n') :
    ∃ L' R', moveJoinConditionsToFilter L = .ok L' ∧ moveJoinConditionsToFilter R = .ok R' ∧
      nodeSources L' = nodeSources L ∧ nodeSources R' = nodeSources R ∧
      L'.Schema = L.Schema ∧ R'.Schema = R.Schema ∧
      moveJoinConditionsToFilterNodeFunc (.InnerJoin L' R' cond) = .ok n' := by
  obtain ⟨hL, hR⟩ := innerJoin_resolved L R cond hres
  rw [moveJoin_of_resolved _ hres] at h
  simp only [Node.TransformUp] at h
  split at h
  · cases h
  · rename_i L' hl
    split at h
    · cases h
    · rename_i R' hr
      rw [← moveJoin_of_resolved _ hL] at hl
      rw [← moveJoin_of_resolved _ hR] at hr
      have sL := moveJoin_schema _ _ hl
      have sR := moveJoin_schema _ _ hr
      exact ⟨L', R', hl, hr, nodeSources_of_schema _ _ sL, nodeSources_of_schema _ _ sR,
        sL, sR, h⟩

/-- Re-indexing an `And` re-indexes both operands. -/
theorem FixFieldIndexes_and (schema : Schema) (x y z : Expr)
    (h : FixFieldIndexes schema (.And x y) = .ok z) :
    ∃ x' y', FixFieldIndexes schema x = .ok x' ∧ FixFieldIndexes schema y = .ok y' ∧
      z = .And x' y' := by
  simp only [FixFieldIndexes, Expr.TransformUp] at h
  split at h
  · cases h
  · rename_i x' hx
    split at h
    · cases h
    · rename_i y' hy
      simp only [fixFieldIndex] at h
      cases h
      exact ⟨x', y', hx, hy, rfl⟩

/-- Re-indexing the AND of several conjuncts re-indexes each conjunct. -/
theorem FixFieldIndexes_foldl (schema : Schema) (rest : List Expr) (e z : Expr)
    (h : FixFieldIndexes schema (rest.foldl Expr.And e) = .ok z) :
    ∃ e' rest', FixFieldIndexes schema e = .ok e' ∧
      List.Forall₂ (fun c c' => FixFieldIndexes schema c = .ok c') rest rest' ∧
      z = rest'.foldl Expr.And e' := by
  induction rest generalizing e with
  | nil => exact ⟨z, [], h, List.Forall₂.nil, rfl⟩
  | cons r rest ih =>
    obtain ⟨e'', rest', h1, h2, h3⟩ := ih (.And e r) h
    obtain ⟨e', r', he, hr, rfl⟩ := FixFieldIndexes_and schema e r e'' h1
    exact ⟨e', r' :: rest', he, List.Forall₂.cons hr h2, h3⟩

/-- What `wrapFilter` returns: the child itself when no conjunct is pushed,
otherwise a `Filter` holding the AND of the re-indexed conjuncts. -/
theorem wrapFilter_ok (filters : List Expr) (child wrapped : Node)
    (h : wrapFilter filters child = .ok wrapped) :
    (filters = [] ∧ wrapped = child) ∨
      ∃ filters' c, List.Forall₂ (fun e e' => FixFieldIndexes child.Schema e = .ok e')
          filters filters' ∧
        JoinAnd filters' = some c ∧ wrapped = .Filter c child := by
  cases filters with
  | nil =>
    left
    simp only [wrapFilter, List.length_nil, gt_iff_lt, lt_self_iff_false, ↓reduceIte] at h
    cases h
    exact ⟨rfl, rfl⟩
  | cons e rest =>
    right
    simp only [wrapFilter, List.length_cons, gt_iff_lt, Nat.zero_lt_succ, ↓reduceIte,
      JoinAnd_cons] at h
    split at h
    · cases h
    · rename_i z hz
      cases h
      obtain ⟨e', rest', he, hrest, rfl⟩ := FixFieldIndexes_foldl _ rest e z hz
      exact ⟨e' :: rest', _, List.Forall₂.cons he hrest, rfl, rfl⟩

/-- The full description of the rewrite of a resolved inner join. -/
theorem moveJoin_innerJoin_spec (L R : Node) (cond : Expr) (n' : Node)
    (hres : (Node.InnerJoin L R cond).Resolved = true)
    (h : moveJoinConditionsToFilter (.InnerJoin L R cond) = .ok n') :
    ∃ L' R' left right,
      moveJoinConditionsToFilter L = .ok L' ∧ moveJoinConditionsToFilter R = .ok R' ∧
      wrapFilter ((splitConjunction cond).filter (canMove (nodeSources L))) L' = .ok left ∧
      wrapFilter ((splitConjunction cond).filter (canMove (nodeSources R))) R' = .ok right ∧
      L'.Schema = L.Schema ∧ R'.Schema = R.Schema ∧
      (((splitConjunction cond).filter
          (fun e => !canMove (nodeSources L) e && !canMove (nodeSources R) e) = [] ∧
        n' = .CrossJoin left right) ∨
       ∃ c, JoinAnd ((splitConjunction cond).filter
          (fun e => !canMove (nodeSources L) e && !canMove (nodeSources R) e)) = some c ∧
        n' = .InnerJoin left right c) := by
  obtain ⟨L', R', hL, hR, sL, sR, scL, scR, hf⟩ := moveJoin_innerJoin L R cond n' hres h
  rw [moveJoinNodeFunc_innerJoin, sL, sR] at hf
  split at hf
  · cases hf
  · rename_i left hl
    split at hf
    · cases hf
    · rename_i right hr
      refine ⟨L', R', left, right, hL, hR, hl, hr, scL, scR, ?_⟩
      split at hf
      · rename_i hk
        cases hf
        exact Or.inl ⟨(JoinAnd_eq_none _).1 hk, rfl⟩
      · rename_i c hk
        cases hf
        exact Or.inr ⟨c, hk, rfl⟩

/-- The three parts of the rewrite of a resolved inner join: the left child,
the right child and the condition of the result. -/
theorem moveJoin_innerJoin_parts (L R : Node) (cond : Expr) (n' : Node)
    (hres : (Node.InnerJoin L R cond).Resolved = true)
    (h : moveJoinConditionsToFilter (.InnerJoin L R cond) = .ok n') :
    ∃ L' R' left right,
      moveJoinConditionsToFilter L = .ok L' ∧ moveJoinConditionsToFilter R = .ok R' ∧
      (((splitConjunction cond).filter
          (fun e => containsSources (nodeSources L) (expressionSources e)) = [] ∧ left = L') ∨
       ∃ ls' c, List.Forall₂ (fun e e' => FixFieldIndexes L.Schema e = .ok e')
          ((splitConjunction cond).filter
            (fun e => containsSources (nodeSources L) (expressionSources e))) ls' ∧
        JoinAnd ls' = some c ∧ left = .Filter c L') ∧
      (((splitConjunction cond).filter
          (fun e => containsSources (nodeSources R) (expressionSources e)) = [] ∧ right = R') ∨
       ∃ rs' c, List.Forall₂ (fun e e' => FixFieldIndexes R.Schema e = .ok e')
          ((splitConjunction cond).filter
            (fun e => containsSources (nodeSources R) (expressionSources e))) rs' ∧
        JoinAnd rs' = some c ∧ right = .Filter c R') ∧
      (((splitConjunction cond).filter
          (fun e => !containsSources (nodeSources L) (expressionSources e) &&
            !containsSources (nodeSources R) (expressionSources e)) = [] ∧
        n' = .CrossJoin left right) ∨
       ∃ c, JoinAnd ((splitConjunction cond).filter
          (fun e => !containsSources (nodeSources L) (expressionSources e) &&
            !containsSources (nodeSources R) (expressionSources e))) = some c ∧
        n' = .InnerJoin left right c) := by
  obtain ⟨L', R', left, right, hL, hR, hl, hr, scL, scR, hk⟩ :=
    moveJoin_innerJoin_spec L R cond n' hres h
  have h1 := wrapFilter_ok _ _ _ hl
  have h2 := wrapFilter_ok _ _ _ hr
  rw [scL] at h1
  rw [scR] at h2
  exact ⟨L', R', left, right, hL, hR, h1, h2, hk⟩

/-- C6. For a resolved inner join `InnerJoin(L, R, cond)` rewritten by
`moveJoinConditionsToFilter`, with `L'` and `R'` the rewritten children: the
left child of the result is `L'` itself when no conjunct of `cond` has its
source set contained in `nodeSources(L)`, and otherwise the `Filter` around
`L'` holding the AND of exactly those conjuncts, in their original order, each
re-indexed against the schema of `L`; the same holds on the right; the
condition of the result is the AND of exactly the conjuncts contained in
neither source set. -/
theorem moveJoin_split (L R : Node) (cond : Expr) (n' : Node)
    (hres : (Node.InnerJoin L R cond).Resolved = true)
    (h : moveJoinConditionsToFilter (.InnerJoin L R cond) = .ok n') :
    ∃ L' R' left right,
      moveJoinConditionsToFilter L = .ok L' ∧ moveJoinConditionsToFilter R = .ok R' ∧
      (((splitConjunction cond).filter
          (fun e => containsSources (nodeSources L) (expressionSources e)) = [] ∧ left = L') ∨
       ∃ ls' c, List.Forall₂ (fun e e' => FixFieldIndexes L.Schema e = .ok e')
          ((splitConjunction cond).filter
            (fun e => containsSources (nodeSources L) (expressionSources e))) ls' ∧
        JoinAnd ls' = some c ∧ left = .Filter c L') ∧
      (((splitConjunction cond).filter
          (fun e => containsSources (nodeSources R) (expressionSources e)) = [] ∧ right = R') ∨
       ∃ rs' c, List.Forall₂ (fun e e' => FixFieldIndexes R.Schema e = .ok e')
          ((splitConjunction cond).filter
            (fun e => containsSources (nodeSources R) (expressionSources e))) rs' ∧
        JoinAnd rs' = some c ∧ right = .Filter c R') ∧
      (((splitConjunction cond).filter
          (fun e => !containsSources (nodeSources L) (expressionSources e) &&
            !containsSources (nodeSources R) (expressionSources e)) = [] ∧
        n' = .CrossJoin left right) ∨
       ∃ c, JoinAnd ((splitConjunction cond).filter
          (fun e => !containsSources (nodeSources L) (expressionSources e) &&
            !containsSources (nodeSources R) (expressionSources e))) = some c ∧
        n' = .InnerJoin left right c) :=
  moveJoin_innerJoin_parts L R cond n' hres h

/-- C6 witness: `InnerJoin(T1(a,b), T2(c,d), T1.a > 5 AND T2.c < 10 AND
T1.b = T2.d)` is rewritten to `InnerJoin(Filter(T1.a > 5, T1),
Filter(T2.c < 10, T2), T1.b = T2.d)`. -/
theorem moveJoin_split_witness :
    moveJoinConditionsToFilter (.InnerJoin tableT1 tableT2 sampleCond) =
      .ok (.InnerJoin
        (.Filter (compare2 ">" (.GetField 0 .Int64 "T1" "a") (intLit 5)) tableT1)
        (.Filter (compare2 "<" (.GetField 0 .Int64 "T2" "c") (intLit 10)) tableT2)
        (compare2 "=" (.GetField 1 .Int64 "T1" "b") (.GetField 3 .Int64 "T2" "d"))) ∧
    ∃ L' R' left right,
      moveJoinConditionsToFilter tableT1 = .ok L' ∧ moveJoinConditionsToFilter tableT2 = .ok R' ∧
      (((splitConjunction sampleCond).filter
          (fun e => containsSources (nodeSources tableT1) (expressionSources e)) = [] ∧
          left = L') ∨
       ∃ ls' c, List.Forall₂ (fun e e' => FixFieldIndexes tableT1.Schema e = .ok e')
          ((splitConjunction sampleCond).filter
            (fun e => containsSources (nodeSources tableT1) (expressionSources e))) ls' ∧
        JoinAnd ls' = some c ∧ left = .Filter c L') ∧
      (((splitConjunction sampleCond).filter
          (fun e => containsSources (nodeSources tableT2) (expressionSources e)) = [] ∧
          right = R') ∨
       ∃ rs' c, List.Forall₂ (fun e e' => FixFieldIndexes tableT2.Schema e = .ok e')
          ((splitConjunction sampleCond).filter
            (fun e => containsSources (nodeSources tableT2) (expressionSources e))) rs' ∧
        JoinAnd rs' = some c ∧ right = .Filter c R') ∧
      (((splitConjunction sampleCond).filter
          (fun e => !containsSources (nodeSources tableT1) (expressionSources e) &&
            !containsSources (nodeSources tableT2) (expressionSources e)) = [] ∧
        Node.InnerJoin
          (.Filter (compare2 ">" (.GetField 0 .Int64 "T1" "a") (intLit 5)) tableT1)
          (.Filter (compare2 "<" (.GetField 0 .Int64 "T2" "c") (intLit 10)) tableT2)
          (compare2 "=" (.GetField 1 .Int64 "T1" "b") (.GetField 3 .Int64 "T2" "d")) =
          .CrossJoin left right) ∨
       ∃ c, JoinAnd ((splitConjunction sampleCond).filter
          (fun e => !containsSources (nodeSources tableT1) (expressionSources e) &&
            !containsSources (nodeSources tableT2) (expressionSources e))) = some c ∧
        Node.InnerJoin
          (.Filter (compare2 ">" (.GetField 0 .Int64 "T1" "a") (intLit 5)) tableT1)
          (.Filter (compare2 "<" (.GetField 0 .Int64 "T2" "c") (intLit 10)) tableT2)
          (compare2 "=" (.GetField 1 .Int64 "T1" "b") (.GetField 3 .Int64 "T2" "d")) =
          .InnerJoin left right c) :=
  ⟨rfl, moveJoin_split tableT1 tableT2 sampleCond _ rfl rfl⟩

/-- C7. For a resolved inner join rewritten by `moveJoinConditionsToFilter`
without error, the result is a `CrossJoin` exactly when no conjunct of the
join predicate remains for the join condition; it is then the cross join of
the rewritten children, each wrapped in a `Filter` or not.  Otherwise the
result is an `InnerJoin` whose condition is the AND of the remaining
conjuncts. -/
theorem moveJoin_crossJoin (L R : Node) (cond : Expr) (n' : Node)
    (hres : (Node.InnerJoin L R cond).Resolved = true)
    (h : moveJoinConditionsToFilter (.InnerJoin L R cond) = .ok n') :
    ((∃ l r, n' = .CrossJoin l r) ↔
      (splitConjunction cond).filter
        (fun e => !containsSources (nodeSources L) (expressionSources e) &&
          !containsSources (nodeSources R) (expressionSources e)) = []) ∧
    ((splitConjunction cond).filter
        (fun e => !containsSources (nodeSources L) (expressionSources e) &&
          !containsSources (nodeSources R) (expressionSources e)) = [] →
      ∃ L' R' l r, moveJoinConditionsToFilter L = .ok L' ∧
        moveJoinConditionsToFilter R = .ok R' ∧
        (l = L' ∨ ∃ c, l = .Filter c L') ∧ (r = R' ∨ ∃ c, r = .Filter c R') ∧
        n' = .CrossJoin l r) ∧
    ((splitConjunction cond).filter
        (fun e => !containsSources (nodeSources L) (expressionSources e) &&
          !containsSources (nodeSources R) (expressionSources e)) ≠ [] →
      ∃ L' R' l r c, moveJoinConditionsToFilter L = .ok L' ∧
        moveJoinConditionsToFilter R = .ok R' ∧
        (l = L' ∨ ∃ c, l = .Filter c L') ∧ (r = R' ∨ ∃ c, r = .Filter c R') ∧
        JoinAnd ((splitConjunction cond).filter
          (fun e => !containsSources (nodeSources L) (expressionSources e) &&
            !containsSources (nodeSources R) (expressionSources e))) = some c ∧
        n' = .InnerJoin l r c) := by
  obtain ⟨L', R', left, right, hL, hR, h1, h2, hk⟩ := moveJoin_innerJoin_parts L R cond n' hres h
  have hl : left = L' ∨ ∃ c, left = .Filter c L' := by
    rcases h1 with ⟨_, h1⟩ | ⟨_, c, _, _, h1⟩
    · exact Or.inl h1
    · exact Or.inr ⟨c, h1⟩
  have hr : right = R' ∨ ∃ c, right = .Filter c R' := by
    rcases h2 with ⟨_, h2⟩ | ⟨_, c, _, _, h2⟩
    · exact Or.inl h2
    · exact Or.inr ⟨c, h2⟩
  rcases hk with ⟨hnil, hn⟩ | ⟨c, hc, hn⟩
  · refine ⟨⟨fun _ => hnil, fun _ => ⟨left, right, hn⟩⟩, ?_, fun hne => absurd hnil hne⟩
    intro _
    exact ⟨L', R', left, right, hL, hR, hl, hr, hn⟩
  · have hne : (splitConjunction cond).filter
        (fun e => !containsSources (nodeSources L) (expressionSources e) &&
          !containsSources (nodeSources R) (expressionSources e)) ≠ [] := by
      intro hnil
      rw [hnil] at hc
      cases hc
    refine ⟨⟨?_, fun hnil => absurd hnil hne⟩, fun hnil => absurd hnil hne, ?_⟩
    · rintro ⟨l, r, hlr⟩
      rw [hn] at hlr
      cases hlr
    · intro _
      exact ⟨L', R', left, right, c, hL, hR, hl, hr, hc, hn⟩

/-- C7 witness: `InnerJoin(T1, T2, T1.a > 5)` has no conjunct left for the
join condition and becomes `CrossJoin(Filter(T1.a > 5, T1), T2)`. -/
theorem moveJoin_crossJoin_witness :
    moveJoinConditionsToFilter
      (.InnerJoin tableT1 tableT2 (compare2 ">" (.GetField 0 .Int64 "T1" "a") (intLit 5))) =
      .ok (.CrossJoin
        (.Filter (compare2 ">" (.GetField 0 .Int64 "T1" "a") (intLit 5)) tableT1) tableT2) ∧
    ((∃ l r, Node.CrossJoin
        (.Filter (compare2 ">" (.GetField 0 .Int64 "T1" "a") (intLit 5)) tableT1) tableT2 =
        .CrossJoin l r) ↔
      (splitConjunction (compare2 ">" (.GetField 0 .Int64 "T1" "a") (intLit 5))).filter
        (fun e => !containsSources (nodeSources tableT1) (expressionSources e) &&
          !containsSources (nodeSources tableT2) (expressionSources e)) = []) :=
  ⟨rfl, (moveJoin_crossJoin tableT1 tableT2
    (compare2 ">" (.GetField 0 .Int64 "T1" "a") (intLit 5)) _ rfl rfl).1⟩

/-- `wrapFilter` fails exactly when re-indexing the pushed conjuncts fails,
with the error of the re-indexing. -/
theorem wrapFilter_error_iff (filters : List Expr) (child : Node) (err : Error) :
    wrapFilter filters child = .error err ↔ reindexErrorOf child.Schema filters = some err := by
  cases filters with
  | nil => simp [wrapFilter, reindexErrorOf, JoinAnd]
  | cons e rest =>
    simp only [wrapFilter, List.length_cons, gt_iff_lt, Nat.zero_lt_succ, ↓reduceIte,
      JoinAnd_cons, reindexErrorOf]
    cases FixFieldIndexes child.Schema (rest.foldl Expr.And e) with
    | error e2 => simp
    | ok z => simp

/-- The node function fails on an inner join exactly when re-indexing the
conjuncts pushed to one of its children fails, with that error. -/
theorem moveJoinNodeFunc_error_iff (L R : Node) (cond : Expr) (err : Error) :
    moveJoinConditionsToFilterNodeFunc (.InnerJoin L R cond) = .error err ↔
      reindexError (L, R, cond) = some err := by
  rw [moveJoinNodeFunc_innerJoin]
  simp only [reindexError]
  cases hl : wrapFilter ((splitConjunction cond).filter (canMove (nodeSources L))) L with
  | error e1 =>
    rw [(wrapFilter_error_iff _ _ _).1 hl]
    simp
  | ok left =>
    have hnone : reindexErrorOf L.Schema
        ((splitConjunction cond).filter (canMove (nodeSources L))) = none := by
      cases hq : reindexErrorOf L.Schema
          ((splitConjunction cond).filter (canMove (nodeSources L))) with
      | none => rfl
      | some e1 =>
        rw [(wrapFilter_error_iff _ _ _).2 hq] at hl
        cases hl
    rw [hnone]
    cases hr : wrapFilter ((splitConjunction cond).filter (canMove (nodeSources R))) R with
    | error e2 =>
      rw [(wrapFilter_error_iff _ _ _).1 hr]
      simp
    | ok right =>
      have hnone2 : reindexErrorOf R.Schema
          ((splitConjunction cond).filter (canMove (nodeSources R))) = none := by
        cases hq : reindexErrorOf R.Schema
            ((splitConjunction cond).filter (canMove (nodeSources R))) with
        | none => rfl
        | some e1 =>
          rw [(wrapFilter_error_iff _ _ _).2 hq] at hr
          cases hr
      rw [hnone2]
      simp only
      split <;> simp

/-- The error of re-indexing depends on the schemas of the children only. -/
theorem reindexError_of_schema (L R L' R' : Node) (cond : Expr)
    (hL : L'.Schema = L.Schema) (hR : R'.Schema = R.Schema) :
    reindexError (L', R', cond) = reindexError (L, R, cond) := by
  simp only [reindexError, hL, hR, nodeSources_of_schema _ _ hL, nodeSources_of_schema _ _ hR]

/-- The node function fails on inner joins only. -/
theorem moveJoinNodeFunc_error (n : Node) (err : Error)
    (h : moveJoinConditionsToFilterNodeFunc n = .error err) :
    ∃ L R cond, n = .InnerJoin L R cond := by
  rcases n with ⟨n, s⟩ | n | _ | ⟨e, c⟩ | ⟨es, c⟩ | ⟨l, r, cond⟩ | ⟨l, r⟩ | c | c | ⟨fs, c⟩
  case InnerJoin => exact ⟨l, r, cond, rfl⟩
  all_goals
    simp only [moveJoinConditionsToFilterNodeFunc] at h
    cases h

/-- An error of the bottom-up rewrite is the re-indexing error of an inner
join of the plan. -/
theorem moveJoin_transformUp_error :
    ∀ (n : Node) (err : Error),
      n.TransformUp moveJoinConditionsToFilterNodeFunc = .error err →
      ∃ j ∈ n.innerJoins, reindexError j = some err
  | .ResolvedTable n s, err, h => by
    simp only [Node.TransformUp, moveJoinConditionsToFilterNodeFunc] at h
    cases h
  | .UnresolvedTable n, err, h => by
    simp only [Node.TransformUp, moveJoinConditionsToFilterNodeFunc] at h
    cases h
  | .EmptyTable, err, h => by
    simp only [Node.TransformUp, moveJoinConditionsToFilterNodeFunc] at h
    cases h
  | .Filter e c, err, h => by
    simp only [Node.TransformUp] at h
    split at h
    · rename_i e1 hc
      cases h
      exact moveJoin_transformUp_error c _ hc
    · simp only [moveJoinConditionsToFilterNodeFunc] at h
      cases h
  | .Project es c, err, h => by
    simp only [Node.TransformUp] at h
    split at h
    · rename_i e1 hc
      cases h
      exact moveJoin_transformUp_error c _ hc
    · simp only [moveJoinConditionsToFilterNodeFunc] at h
      cases h
  | .InnerJoin l r cond, err, h => by
    simp only [Node.TransformUp] at h
    split at h
    · rename_i e1 hl
      cases h
      obtain ⟨j, hj, hje⟩ := moveJoin_transformUp_error l _ hl
      exact ⟨j, by simp [Node.innerJoins, hj], hje⟩
    · rename_i l' hl
      split at h
      · rename_i e1 hr
        cases h
        obtain ⟨j, hj, hje⟩ := moveJoin_transformUp_error r _ hr
        exact ⟨j, by simp [Node.innerJoins, hj], hje⟩
      · rename_i r' hr
        refine ⟨(l, r, cond), by simp [Node.innerJoins], ?_⟩
        rw [← reindexError_of_schema l r l' r' cond
          (nodeTransformUp_schema _ moveJoinNodeFunc_schema l l' hl)
          (nodeTransformUp_schema _ moveJoinNodeFunc_schema r r' hr)]
        exact (moveJoinNodeFunc_error_iff l' r' cond err).1 h
  | .CrossJoin l r, err, h => by
    simp only [Node.TransformUp] at h
    split at h
    · rename_i e1 hl
      cases h
      obtain ⟨j, hj, hje⟩ := moveJoin_transformUp_error l _ hl
      exact ⟨j, by simp [Node.innerJoins, hj], hje⟩
    · rename_i l' hl
      split at h
      · rename_i e1 hr
        cases h
        obtain ⟨j, hj, hje⟩ := moveJoin_transformUp_error r _ hr
        exact ⟨j, by simp [Node.innerJoins, hj], hje⟩
      · simp only [moveJoinConditionsToFilterNodeFunc] at h
        cases h
  | .Distinct c, err, h => by
    simp only [Node.TransformUp] at h
    split at h
    · rename_i e1 hc
      cases h
      exact moveJoin_transformUp_error c _ hc
    · simp only [moveJoinConditionsToFilterNodeFunc] at h
      cases h
  | .OrderedDistinct c, err, h => by
    simp only [Node.TransformUp] at h
    split at h
    · rename_i e1 hc
      cases h
      exact moveJoin_transformUp_error c _ hc
    · simp only [moveJoinConditionsToFilterNodeFunc] at h
      cases h
  | .Sort fs c, err, h => by
    simp only [Node.TransformUp] at h
    split at h
    · rename_i e1 hc
      cases h
      exact moveJoin_transformUp_error c _ hc
    · simp only [moveJoinConditionsToFilterNodeFunc] at h
      cases h

/-- When re-indexing fails for an inner join of the plan, the bottom-up
rewrite fails. -/
theorem moveJoin_transformUp_fails :
    ∀ (n : Node) (j : Node × Node × Expr), j ∈ n.innerJoins → (reindexError j).isSome = true →
      ∃ err, n.TransformUp moveJoinConditionsToFilterNodeFunc = .error err
  | .ResolvedTable n s, j, hj, _ => by simp [Node.innerJoins] at hj
  | .UnresolvedTable n, j, hj, _ => by simp [Node.innerJoins] at hj
  | .EmptyTable, j, hj, _ => by simp [Node.innerJoins] at hj
  | .Filter e c, j, hj, hs => by
    obtain ⟨err, hc⟩ := moveJoin_transformUp_fails c j hj hs
    exact ⟨err, by simp [Node.TransformUp, hc]⟩
  | .Project es c, j, hj, hs => by
    obtain ⟨err, hc⟩ := moveJoin_transformUp_fails c j hj hs
    exact ⟨err, by simp [Node.TransformUp, hc]⟩
  | .InnerJoin l r cond, j, hj, hs => by
    simp only [Node.TransformUp]
    cases hl : l.TransformUp moveJoinConditionsToFilterNodeFunc with
    | error e1 => exact ⟨e1, rfl⟩
    | ok l' =>
      cases hr : r.TransformUp moveJoinConditionsToFilterNodeFunc with
      | error e1 => exact ⟨e1, rfl⟩
      | ok r' =>
        simp only [Node.innerJoins, List.mem_cons, List.mem_append] at hj
        rcases hj with rfl | hj | hj
        · obtain ⟨err, he⟩ := Option.isSome_iff_exists.1 hs
          refine ⟨err, ?_⟩
          rw [← reindexError_of_schema l r l' r' cond
            (nodeTransformUp_schema _ moveJoinNodeFunc_schema l l' hl)
            (nodeTransformUp_schema _ moveJoinNodeFunc_schema r r' hr)] at he
          exact (moveJoinNodeFunc_error_iff l' r' cond err).2 he
        · obtain ⟨err, hc⟩ := moveJoin_transformUp_fails l j hj hs
          rw [hl] at hc
          cases hc
        · obtain ⟨err, hc⟩ := moveJoin_transformUp_fails r j hj hs
          rw [hr] at hc
          cases hc
  | .CrossJoin l r, j, hj, hs => by
    simp only [Node.TransformUp]
    cases hl : l.TransformUp moveJoinConditionsToFilterNodeFunc with
    | error e1 => exact ⟨e1, rfl⟩
    | ok l' =>
      cases hr : r.TransformUp moveJoinConditionsToFilterNodeFunc with
      | error e1 => exact ⟨e1, rfl⟩
      | ok r' =>
        simp only [Node.innerJoins, List.mem_append] at hj
        rcases hj with hj | hj
        · obtain ⟨err, hc⟩ := moveJoin_transformUp_fails l j hj hs
          rw [hl] at hc
          cases hc
        · obtain ⟨err, hc⟩ := moveJoin_transformUp_fails r j hj hs
          rw [hr] at hc
          cases hc
  | .Distinct c, j, hj, hs => by
    obtain ⟨err, hc⟩ := moveJoin_transformUp_fails c j hj hs
    exact ⟨err, by simp [Node.TransformUp, hc]⟩
  | .OrderedDistinct c, j, hj, hs => by
    obtain ⟨err, hc⟩ := moveJoin_transformUp_fails c j hj hs
    exact ⟨err, by simp [Node.TransformUp, hc]⟩
  | .Sort fs c, j, hj, hs => by
    obtain ⟨err, hc⟩ := moveJoin_transformUp_fails c j hj hs
    exact ⟨err, by simp [Node.TransformUp, hc]⟩

/-- C8. On a resolved plan `moveJoinConditionsToFilter` returns an error
exactly when re-indexing the conjuncts pushed to the left or to the right
child fails for some inner join of the plan; the error returned is the
re-indexing error of such a join, and then no plan is returned. -/
theorem moveJoin_error (n : Node) (hres : n.Resolved = true) :
    ((∃ err, moveJoinConditionsToFilter n = .error err) ↔
      ∃ j ∈ n.innerJoins, (reindexError j).isSome = true) ∧
    (∀ err, moveJoinConditionsToFilter n = .error err →
      (∃ j ∈ n.innerJoins, reindexError j = some err) ∧
      ¬ ∃ n', moveJoinConditionsToFilter n = .ok n') := by
  rw [moveJoin_of_resolved n hres]
  refine ⟨⟨?_, ?_⟩, ?_⟩
  · rintro ⟨err, h⟩
    obtain ⟨j, hj, hje⟩ := moveJoin_transformUp_error n err h
    exact ⟨j, hj, by simp [hje]⟩
  · rintro ⟨j, hj, hs⟩
    exact moveJoin_transformUp_fails n j hj hs
  · intro err h
    refine ⟨moveJoin_transformUp_error n err h, ?_⟩
    rintro ⟨n', hn'⟩
    rw [h] at hn'
    cases hn'

/-- C8 witness: in `InnerJoin(T1, T2, T1.z > 5)` the conjunct is pushed to the
left child, whose schema has no column `z`; the rule returns the error of the
re-indexing. -/
theorem moveJoin_error_witness :
    moveJoinConditionsToFilter
      (.InnerJoin tableT1 tableT2 (compare2 ">" (.GetField 0 .Int64 "T1" "z") (intLit 5))) =
      .error "field missing: z" ∧
    ((∃ err, moveJoinConditionsToFilter
        (.InnerJoin tableT1 tableT2 (compare2 ">" (.GetField 0 .Int64 "T1" "z") (intLit 5))) =
        .error err) ↔
      ∃ j ∈ (Node.InnerJoin tableT1 tableT2
          (compare2 ">" (.GetField 0 .Int64 "T1" "z") (intLit 5))).innerJoins,
        (reindexError j).isSome = true) :=
  ⟨rfl, (moveJoin_error
    (.InnerJoin tableT1 tableT2 (compare2 ">" (.GetField 0 .Int64 "T1" "z") (intLit 5))) rfl).1⟩

/-! ## The rows of a plan after join-condition pushdown -/

/-- The three truth values. -/
theorem truth_cases (v : Value) :
    truth v = none ∨ truth v = some true ∨ truth v = some false := by
  cases h : truth v with
  | none => exact Or.inl rfl
  | some x => cases x <;> simp

/-- The predicate `And(l, r)` keeps a row exactly when both operands do. -/
theorem keeps_and (b : Builtins) (l r : Expr) (row : Row) :
    keeps b (.And l r) row = (keeps b l row && keeps b r row) := by
  have tb : ∀ x, truth (.bool x) = some x := fun _ => rfl
  have tn : truth .null = none := rfl
  cases hl : l.Eval b row with
  | error e => simp [keeps, Expr.Eval, hl]
  | ok lv =>
    cases hr : r.Eval b row with
    | error e =>
      rcases truth_cases lv with h | h | h <;> simp [keeps, Expr.Eval, hl, hr, h, tb]
    | ok rv =>
      rcases truth_cases lv with h | h | h <;> rcases truth_cases rv with h2 | h2 | h2 <;>
        simp [keeps, Expr.Eval, hl, hr, h, h2, tb, tn, andValues]

/-- A predicate keeps a row exactly when each of its conjuncts does. -/
theorem keeps_splitConjunction (b : Builtins) (row : Row) :
    ∀ e : Expr, keeps b e row = (splitConjunction e).all (fun c => keeps b c row)
  | .And l r => by
    rw [keeps_and, splitConjunction, List.all_append, keeps_splitConjunction b row l,
      keeps_splitConjunction b row r]
  | .Literal v t => by simp [splitConjunction]
  | .GetField i t tbl n => by simp [splitConjunction]
  | .UnresolvedColumn tbl n => by simp [splitConjunction]
  | .Or l r => by simp [splitConjunction]
  | .Convert c t => by simp [splitConjunction]
  | .Tuple es => by simp [splitConjunction]
  | .Interval c u => by simp [splitConjunction]
  | .Call n t args => by simp [splitConjunction]

/-- The AND of several conjuncts keeps a row exactly when each conjunct
does. -/
theorem keeps_foldl (b : Builtins) (row : Row) (rest : List Expr) (e : Expr) :
    keeps b (rest.foldl Expr.And e) row = (keeps b e row && rest.all (fun c => keeps b c row)) := by
  induction rest generalizing e with
  | nil => simp
  | cons r rest ih => rw [List.foldl_cons, ih, keeps_and, List.all_cons, Bool.and_assoc]

/-- `JoinAnd` of a list keeps a row exactly when each expression of the list
does. -/
theorem keeps_JoinAnd (b : Builtins) (row : Row) (es : List Expr) (c : Expr)
    (h : JoinAnd es = some c) : keeps b c row = es.all (fun e => keeps b e row) := by
  cases es with
  | nil => cases h
  | cons e rest =>
    rw [JoinAnd_cons] at h
    cases h
    rw [keeps_foldl, List.all_cons]

/-- The position found by `indexOfColumn` is a position of the schema, and the
column there has the table qualifier looked for. -/
theorem indexOfColumn_some (t n : String) (S : Schema) (i : Nat)
    (h : indexOfColumn t n S = some i) : i < S.length ∧ ∃ col ∈ S, col.Source = t := by
  induction S generalizing i with
  | nil => cases h
  | cons col rest ih =>
    simp only [indexOfColumn] at h
    split at h
    · rename_i hc
      cases h
      exact ⟨by simp, col, by simp, hc.2.symm⟩
    · cases hq : indexOfColumn t n rest with
      | none => simp [hq] at h
      | some j =>
        simp only [hq, Option.map_some', Option.some.injEq] at h
        subst h
        obtain ⟨h1, c, hc, hs⟩ := ih j hq
        exact ⟨by simp [h1], c, by simp [hc], hs⟩

/-- A column found in a schema is found at the same position in the schema
followed by another one. -/
theorem indexOfColumn_append_left (t n : String) (S1 S2 : Schema) (i : Nat)
    (h : indexOfColumn t n S1 = some i) : indexOfColumn t n (S1 ++ S2) = some i := by
  induction S1 generalizing i with
  | nil => cases h
  | cons col rest ih =>
    simp only [indexOfColumn, List.cons_append] at h ⊢
    split
    · rename_i hc
      simpa [hc] using h
    · rename_i hc
      simp only [hc, ↓reduceIte] at h
      cases hq : indexOfColumn t n rest with
      | none => simp [hq] at h
      | some j =>
        simp only [hq, Option.map_some', Option.some.injEq] at h
        simp [ih j hq, h]

/-- A column not found in a schema is looked for in the schema that follows,
and its position there is shifted by the length of the first schema. -/
theorem indexOfColumn_append_right (t n : String) (S1 S2 : Schema)
    (h : indexOfColumn t n S1 = none) :
    indexOfColumn t n (S1 ++ S2) = (indexOfColumn t n S2).map (fun i => i + S1.length) := by
  induction S1 with
  | nil => simp
  | cons col rest ih =>
    by_cases hc : n = col.Name ∧ t = col.Source
    · simp [indexOfColumn, hc] at h
    · simp only [indexOfColumn, hc, ↓reduceIte, Option.map_eq_none'] at h
      have e1 := ih h
      show indexOfColumn t n (col :: (rest ++ S2)) = _
      simp only [indexOfColumn, hc, ↓reduceIte, e1, Option.map_map, List.length_cons]
      cases indexOfColumn t n S2 <;> simp [Nat.add_assoc]

/-- The sources gathered by the loop of `nodeSources`. -/
theorem mem_foldl_addSource (s : String) (S : Schema) (acc : List String) :
    s ∈ S.foldl (fun result col => addSource result col.Source) acc ↔
      s ∈ acc ∨ ∃ col ∈ S, col.Source = s := by
  induction S generalizing acc with
  | nil => simp
  | cons col rest ih =>
    rw [List.foldl_cons, ih]
    simp only [addSource]
    split
    · rename_i hm
      constructor
      · rintro (h | ⟨c, hc, hs⟩)
        · exact Or.inl h
        · exact Or.inr ⟨c, by simp [hc], hs⟩
      · rintro (h | ⟨c, hc, hs⟩)
        · exact Or.inl h
        · simp only [List.mem_cons] at hc
          rcases hc with rfl | hc
          · exact Or.inl (hs ▸ hm)
          · exact Or.inr ⟨c, hc, hs⟩
    · constructor
      · rintro (h | ⟨c, hc, hs⟩)
        · simp only [List.mem_append, List.mem_singleton] at h
          rcases h with h | h
          · exact Or.inl h
          · exact Or.inr ⟨col, by simp, h.symm⟩
        · exact Or.inr ⟨c, by simp [hc], hs⟩
      · rintro (h | ⟨c, hc, hs⟩)
        · exact Or.inl (by simp [h])
        · simp only [List.mem_cons] at hc
          rcases hc with rfl | hc
          · exact Or.inl (by simp [hs])
          · exact Or.inr ⟨c, hc, hs⟩

/-- A source is in `nodeSources(n)` exactly when a column of the schema of `n`
has it. -/
theorem mem_nodeSources (s : String) (n : Node) :
    s ∈ nodeSources n ↔ ∃ col ∈ n.Schema, col.Source = s := by
  simp [nodeSources, mem_foldl_addSource]

/-- `containsSources` is inclusion of the needle in the haystack. -/
theorem containsSources_iff (haystack needle : List String) :
    containsSources haystack needle = true ↔ ∀ s ∈ needle, s ∈ haystack := by
  induction needle with
  | nil => simp [containsSources]
  | cons s rest ih =>
    simp only [containsSources, List.any_eq_true, decide_eq_true_eq, exists_eq_right,
      List.mem_cons, forall_eq_or_imp]
    split
    · rename_i hm
      simp [hm, ih]
    · rename_i hm
      simp [hm]

mutual
/-- The sources gathered by the visit of `expressionSources` are the tables of
the column references of the expression. -/
theorem mem_expressionSourcesVisit (s : String) :
    ∀ (e : Expr) (acc : List String),
      s ∈ expressionSourcesVisit acc e ↔ s ∈ acc ∨ ∃ f ∈ exprFields e, f.2.1 = s
  | .Literal v t, acc => by simp [expressionSourcesVisit, exprFields]
  | .GetField i t tbl n, acc => by
    simp only [expressionSourcesVisit, exprFields, addSource, List.mem_singleton,
      exists_eq_left]
    split
    · rename_i hm
      constructor
      · exact fun h => Or.inl h
      · rintro (h | h)
        · exact h
        · exact h ▸ hm
    · simp only [List.mem_append, List.mem_singleton]
      constructor
      · rintro (h | h)
        · exact Or.inl h
        · exact Or.inr h.symm
      · rintro (h | h)
        · exact Or.inl h
        · exact Or.inr h.symm
  | .UnresolvedColumn tbl n, acc => by simp [expressionSourcesVisit, exprFields]
  | .And l r, acc => by
    simp only [expressionSourcesVisit, exprFields, mem_expressionSourcesVisit s r,
      mem_expressionSourcesVisit s l, List.mem_append, or_assoc, exists_or, or_and_right]
  | .Or l r, acc => by
    simp only [expressionSourcesVisit, exprFields, mem_expressionSourcesVisit s r,
      mem_expressionSourcesVisit s l, List.mem_append, or_assoc, exists_or, or_and_right]
  | .Convert c t, acc => by
    simp only [expressionSourcesVisit, exprFields, mem_expressionSourcesVisit s c]
  | .Tuple es, acc => by
    simp only [expressionSourcesVisit, exprFields, mem_expressionSourcesVisitList s es]
  | .Interval c u, acc => by
    simp only [expressionSourcesVisit, exprFields, mem_expressionSourcesVisit s c]
  | .Call n t args, acc => by
    simp only [expressionSourcesVisit, exprFields, mem_expressionSourcesVisitList s args]
/-- The list version of `mem_expressionSourcesVisit`. -/
theorem mem_expressionSourcesVisitList (s : String) :
    ∀ (es : List Expr) (acc : List String),
      s ∈ expressionSourcesVisitList acc es ↔ s ∈ acc ∨ ∃ f ∈ exprFieldsList es, f.2.1 = s
  | [], acc => by simp [expressionSourcesVisitList, exprFieldsList]
  | e :: es, acc => by
    simp only [expressionSourcesVisitList, exprFieldsList, mem_expressionSourcesVisitList s es,
      mem_expressionSourcesVisit s e, List.mem_append, or_assoc, exists_or, or_and_right]
end

/-- A conjunct may move to a child exactly when the table of each of its
column references is a source of the child. -/
theorem canMove_iff (sources : List String) (e : Expr) :
    canMove sources e = true ↔ ∀ f ∈ exprFields e, f.2.1 ∈ sources := by
  simp only [canMove, containsSources_iff, expressionSources, mem_expressionSourcesVisit,
    List.not_mem_nil, false_or]
  constructor
  · intro h f hf
    exact h _ ⟨f, hf, rfl⟩
  · rintro h s ⟨f, hf, rfl⟩
    exact h f hf

mutual
/-- In an expression that re-indexing against a schema leaves unchanged, the
field index of each column reference is the position of its column in the
schema. -/
theorem fields_of_fixed (S : Schema) :
    ∀ e : Expr, e.TransformUp (fixFieldIndex S) = .ok e →
      ∀ f ∈ exprFields e, indexOfColumn f.2.1 f.2.2 S = some f.1
  | .Literal v t, _ => by simp [exprFields]
  | .GetField i t tbl n, h => by
    simp only [Expr.TransformUp, fixFieldIndex] at h
    simp only [exprFields, List.mem_singleton, forall_eq]
    split at h
    · rename_i j hj
      simp only [Except.ok.injEq, Expr.GetField.injEq, and_true] at h
      rw [hj, h]
    · cases h
  | .UnresolvedColumn tbl n, _ => by simp [exprFields]
  | .And l r, h => by
    simp only [Expr.TransformUp] at h
    split at h
    · cases h
    · rename_i l' hl
      split at h
      · cases h
      · rename_i r' hr
        simp only [fixFieldIndex, Except.ok.injEq, Expr.And.injEq] at h
        rw [h.1] at hl
        rw [h.2] at hr
        intro f hf
        simp only [exprFields, List.mem_append] at hf
        rcases hf with hf | hf
        · exact fields_of_fixed S l hl f hf
        · exact fields_of_fixed S r hr f hf
  | .Or l r, h => by
    simp only [Expr.TransformUp] at h
    split at h
    · cases h
    · rename_i l' hl
      split at h
      · cases h
      · rename_i r' hr
        simp only [fixFieldIndex, Except.ok.injEq, Expr.Or.injEq] at h
        rw [h.1] at hl
        rw [h.2] at hr
        intro f hf
        simp only [exprFields, List.mem_append] at hf
        rcases hf with hf | hf
        · exact fields_of_fixed S l hl f hf
        · exact fields_of_fixed S r hr f hf
  | .Convert c t, h => by
    simp only [Expr.TransformUp] at h
    split at h
    · cases h
    · rename_i c' hc
      simp only [fixFieldIndex, Except.ok.injEq, Expr.Convert.injEq, and_true] at h
      rw [h] at hc
      intro f hf
      exact fields_of_fixed S c hc f hf
  | .Tuple es, h => by
    simp only [Expr.TransformUp] at h
    split at h
    · cases h
    · rename_i es' hes
      simp only [fixFieldIndex, Except.ok.injEq, Expr.Tuple.injEq] at h
      rw [h] at hes
      intro f hf
      exact fieldsList_of_fixed S es hes f hf
  | .Interval c u, h => by
    simp only [Expr.TransformUp] at h
    split at h
    · cases h
    · rename_i c' hc
      simp only [fixFieldIndex, Except.ok.injEq, Expr.Interval.injEq, and_true] at h
      rw [h] at hc
      intro f hf
      exact fields_of_fixed S c hc f hf
  | .Call n t args, h => by
    simp only [Expr.TransformUp] at h
    split at h
    · cases h
    · rename_i es' hes
      simp only [fixFieldIndex, Except.ok.injEq, Expr.Call.injEq, true_and] at h
      rw [h] at hes
      intro f hf
      exact fieldsList_of_fixed S args hes f hf
/-- The list version of `fields_of_fixed`. -/
theorem fieldsList_of_fixed (S : Schema) :
    ∀ es : List Expr, Expr.TransformUpList (fixFieldIndex S) es = .ok es →
      ∀ f ∈ exprFieldsList es, indexOfColumn f.2.1 f.2.2 S = some f.1
  | [], _ => by simp [exprFieldsList]
  | e :: es, h => by
    simp only [Expr.TransformUpList] at h
    split at h
    · cases h
    · rename_i e' he
      split at h
      · cases h
      · rename_i es' hes
        simp only [Except.ok.injEq, List.cons.injEq] at h
        rw [h.1] at he
        rw [h.2] at hes
        intro f hf
        simp only [exprFieldsList, List.mem_append] at hf
        rcases hf with hf | hf
        · exact fields_of_fixed S e he f hf
        · exact fieldsList_of_fixed S es hes f hf
end

/-- The value of a tuple expression is determined by the values of its
elements. -/
theorem Eval_tuple (b : Builtins) (row : Row) (es : List Expr) :
    (Expr.Tuple es).Eval b row = tupleValue (Expr.EvalList b row es) := by
  match es with
  | [] => simp [Expr.Eval, Expr.EvalList, tupleValue]
  | [a] =>
    simp only [Expr.Eval, Expr.EvalList]
    cases a.Eval b row <;> simp [tupleValue]
  | a :: a2 :: rest =>
    simp only [Expr.Eval, Expr.EvalList]
    cases a.Eval b row with
    | error e => simp [tupleValue]
    | ok v =>
      cases a2.Eval b row with
      | error e => simp [tupleValue]
      | ok v2 => cases Expr.EvalList b row rest <;> simp [tupleValue]

mutual
/-- An expression re-indexed against a schema has, on a row, the value the
original expression has on another row, as soon as each re-indexed column
reference reads from the first row the cell the original reference reads from
the second. -/
theorem eval_fixed (b : Builtins) (S : Schema) (row row' : Row) :
    ∀ (e e' : Expr), e.TransformUp (fixFieldIndex S) = .ok e' →
      (∀ f ∈ exprFields e, ∀ j, indexOfColumn f.2.1 f.2.2 S = some j →
        row'[j]? = row[f.1]?) →
      e'.Eval b row' = e.Eval b row
  | .Literal v t, e', h, _ => by
    simp only [Expr.TransformUp, fixFieldIndex, Except.ok.injEq] at h
    subst h
    rfl
  | .GetField i t tbl n, e', h, hf => by
    simp only [Expr.TransformUp, fixFieldIndex] at h
    split at h
    · rename_i j hj
      cases h
      have := hf (i, tbl, n) (by simp [exprFields]) j hj
      simp only [Expr.Eval, this]
    · cases h
  | .UnresolvedColumn tbl n, e', h, _ => by
    simp only [Expr.TransformUp, fixFieldIndex, Except.ok.injEq] at h
    subst h
    rfl
  | .And l r, e', h, hf => by
    simp only [Expr.TransformUp] at h
    split at h
    · cases h
    · rename_i l' hl
      split at h
      · cases h
      · rename_i r' hr
        simp only [fixFieldIndex, Except.ok.injEq] at h
        subst h
        simp only [Expr.Eval,
          eval_fixed b S row row' l l' hl (fun f hm => hf f (by simp [exprFields, hm])),
          eval_fixed b S row row' r r' hr (fun f hm => hf f (by simp [exprFields, hm]))]
  | .Or l r, e', h, hf => by
    simp only [Expr.TransformUp] at h
    split at h
    · cases h
    · rename_i l' hl
      split at h
      · cases h
      · rename_i r' hr
        simp only [fixFieldIndex, Except.ok.injEq] at h
        subst h
        simp only [Expr.Eval,
          eval_fixed b S row row' l l' hl (fun f hm => hf f (by simp [exprFields, hm])),
          eval_fixed b S row row' r r' hr (fun f hm => hf f (by simp [exprFields, hm]))]
  | .Convert c t, e', h, hf => by
    simp only [Expr.TransformUp] at h
    split at h
    · cases h
    · rename_i c' hc
      simp only [fixFieldIndex, Except.ok.injEq] at h
      subst h
      simp only [Expr.Eval,
        eval_fixed b S row row' c c' hc (fun f hm => hf f (by simp [exprFields, hm]))]
  | .Tuple es, e', h, hf => by
    simp only [Expr.TransformUp] at h
    split at h
    · cases h
    · rename_i es' hes
      simp only [fixFieldIndex, Except.ok.injEq] at h
      subst h
      rw [Eval_tuple, Eval_tuple,
        evalList_fixed b S row row' es es' hes (fun f hm => hf f (by simp [exprFields, hm]))]
  | .Interval c u, e', h, hf => by
    simp only [Expr.TransformUp] at h
    split at h
    · cases h
    · rename_i c' hc
      simp only [fixFieldIndex, Except.ok.injEq] at h
      subst h
      simp only [Expr.Eval]
  | .Call n t args, e', h, hf => by
    simp only [Expr.TransformUp] at h
    split at h
    · cases h
    · rename_i es' hes
      simp only [fixFieldIndex, Except.ok.injEq] at h
      subst h
      simp only [Expr.Eval,
        evalList_fixed b S row row' args es' hes (fun f hm => hf f (by simp [exprFields, hm]))]
/-- The list version of `eval_fixed`. -/
theorem evalList_fixed (b : Builtins) (S : Schema) (row row' : Row) :
    ∀ (es es' : List Expr), Expr.TransformUpList (fixFieldIndex S) es = .ok es' →
      (∀ f ∈ exprFieldsList es, ∀ j, indexOfColumn f.2.1 f.2.2 S = some j →
        row'[j]? = row[f.1]?) →
      Expr.EvalList b row' es' = Expr.EvalList b row es
  | [], es', h, _ => by
    simp only [Expr.TransformUpList, Except.ok.injEq] at h
    subst h
    rfl
  | e :: es, es', h, hf => by
    simp only [Expr.TransformUpList] at h
    split at h
    · cases h
    · rename_i e' he
      split at h
      · cases h
      · rename_i es'' hes
        simp only [Except.ok.injEq] at h
        subst h
        simp only [Expr.EvalList,
          eval_fixed b S row row' e e' he (fun f hm => hf f (by simp [exprFieldsList, hm])),
          evalList_fixed b S row row' es es'' hes
            (fun f hm => hf f (by simp [exprFieldsList, hm]))]
end

/-- A predicate re-indexed against a schema keeps a row exactly when the
original predicate keeps another row, under the condition of `eval_fixed`. -/
theorem keeps_fixed (b : Builtins) (S : Schema) (row row' : Row) (e e' : Expr)
    (h : FixFieldIndexes S e = .ok e')
    (hf : ∀ f ∈ exprFields e, ∀ j, indexOfColumn f.2.1 f.2.2 S = some j →
      row'[j]? = row[f.1]?) :
    keeps b e' row' = keeps b e row := by
  simp only [keeps, eval_fixed b S row row' e e' h hf]

/-- The conjuncts of a predicate that re-indexing leaves unchanged are left
unchanged by re-indexing. -/
theorem fixed_splitConjunction (S : Schema) :
    ∀ e : Expr, FixFieldIndexes S e = .ok e →
      ∀ c ∈ splitConjunction e, FixFieldIndexes S c = .ok c
  | .And l r, h => by
    obtain ⟨l', r', hl, hr, heq⟩ := FixFieldIndexes_and S l r _ h
    simp only [Expr.And.injEq] at heq
    rw [← heq.1] at hl
    rw [← heq.2] at hr
    intro c hc
    simp only [splitConjunction, List.mem_append] at hc
    rcases hc with hc | hc
    · exact fixed_splitConjunction S l hl c hc
    · exact fixed_splitConjunction S r hr c hc
  | .Literal v t, h => by simpa [splitConjunction] using h
  | .GetField i t tbl n, h => by simpa [splitConjunction] using h
  | .UnresolvedColumn tbl n, h => by simpa [splitConjunction] using h
  | .Or l r, h => by simpa [splitConjunction] using h
  | .Convert c t, h => by simpa [splitConjunction] using h
  | .Tuple es, h => by simpa [splitConjunction] using h
  | .Interval c u, h => by simpa [splitConjunction] using h
  | .Call n t args, h => by simpa [splitConjunction] using h

/-- A conjunct indexed against the schema of the join and re-indexed against
the schema of the left child keeps a row of the left child exactly when the
original conjunct keeps the row joined with any row. -/
theorem keeps_left (b : Builtins) (SL SR : Schema) (e e' : Expr) (x y : Row)
    (hbound : FixFieldIndexes (SL ++ SR) e = .ok e) (hfix : FixFieldIndexes SL e = .ok e')
    (hx : x.length = SL.length) :
    keeps b e' x = keeps b e (x ++ y) := by
  refine keeps_fixed b SL (x ++ y) x e e' hfix ?_
  intro f hf j hj
  have h1 := fields_of_fixed (SL ++ SR) e hbound f hf
  rw [indexOfColumn_append_left _ _ SL SR j hj] at h1
  simp only [Option.some.injEq] at h1
  have hlt := (indexOfColumn_some _ _ SL j hj).1
  rw [← h1, List.getElem?_append_left (by omega)]

/-- A conjunct indexed against the schema of the join, none of whose tables is
a source of the left child, and re-indexed against the schema of the right
child keeps a row of the right child exactly when the original conjunct keeps
any row of the left child joined with it. -/
theorem keeps_right (b : Builtins) (SL SR : Schema) (e e' : Expr) (x y : Row)
    (hbound : FixFieldIndexes (SL ++ SR) e = .ok e) (hfix : FixFieldIndexes SR e = .ok e')
    (hx : x.length = SL.length)
    (hsrc : ∀ f ∈ exprFields e, ∀ col ∈ SL, col.Source ≠ f.2.1) :
    keeps b e' y = keeps b e (x ++ y) := by
  refine keeps_fixed b SR (x ++ y) y e e' hfix ?_
  intro f hf j hj
  have h1 := fields_of_fixed (SL ++ SR) e hbound f hf
  have hnone : indexOfColumn f.2.1 f.2.2 SL = none := by
    cases hq : indexOfColumn f.2.1 f.2.2 SL with
    | none => rfl
    | some i =>
      obtain ⟨_, col, hcol, hs⟩ := indexOfColumn_some _ _ SL i hq
      exact absurd hs (hsrc f hf col hcol)
  rw [indexOfColumn_append_right _ _ SL SR hnone, hj] at h1
  simp only [Option.map_some', Option.some.injEq] at h1
  rw [← h1, List.getElem?_append_right (by omega)]
  congr 1
  omega

/-- Two lists related element by element satisfy a test together. -/
theorem all_of_forall₂ {R : Expr → Expr → Prop} {p q : Expr → Bool} :
    ∀ {xs ys : List Expr}, List.Forall₂ R xs ys →
      (∀ x y, x ∈ xs → R x y → q y = p x) → ys.all q = xs.all p
  | _, _, List.Forall₂.nil, _ => rfl
  | _, _, List.Forall₂.cons hxy hrest, h => by
    rw [List.all_cons, List.all_cons, h _ _ (by simp) hxy,
      all_of_forall₂ hrest (fun x y hx hr => h x y (by simp [hx]) hr)]

/-- A test holds for all conjuncts exactly when it holds for those that may
move left, those that may move right and those that may move to neither
side. -/
theorem all_filter_split (p a c : Expr → Bool) (cs : List Expr) :
    cs.all p = ((cs.filter a).all p && (cs.filter c).all p &&
      (cs.filter (fun e => !a e && !c e)).all p) := by
  rw [Bool.eq_iff_iff]
  simp only [Bool.and_eq_true, List.all_eq_true, List.mem_filter]
  constructor
  · intro h
    exact ⟨⟨fun x hx => h x hx.1, fun x hx => h x hx.1⟩, fun x hx => h x hx.1⟩
  · rintro ⟨⟨h1, h2⟩, h3⟩ x hx
    by_cases ha : a x = true
    · exact h1 x ⟨hx, ha⟩
    · by_cases hc : c x = true
      · exact h2 x ⟨hx, hc⟩
      · exact h3 x ⟨hx, by simp [ha, hc]⟩

/-- The rows of a join of filtered children are the rows of the join on the
conjunction of the filters. -/
theorem flatMap_filter_join (Ls Rs : List Row) (P Q : Row → Bool) (K C : Row → Row → Bool)
    (h : ∀ x ∈ Ls, ∀ y ∈ Rs, C x y = (P x && Q y && K x y)) :
    (Ls.filter P).flatMap (fun x => (((Rs.filter Q).filter (K x)).map (fun y => x ++ y))) =
      Ls.flatMap (fun x => ((Rs.filter (C x)).map (fun y => x ++ y))) := by
  induction Ls with
  | nil => rfl
  | cons x xs ih =>
    have ih' := ih (fun x hx => h x (by simp [hx]))
    have hx := h x (by simp)
    cases hP : P x with
    | false =>
      have hnil : Rs.filter (C x) = [] := by
        rw [List.filter_eq_nil_iff]
        intro y hy
        simp [hx y hy, hP]
      rw [List.filter_cons_of_neg (by simp [hP]), List.flatMap_cons, hnil, List.map_nil,
        List.nil_append]
      exact ih'
    | true =>
      have heq : (Rs.filter Q).filter (K x) = Rs.filter (C x) := by
        rw [List.filter_filter]
        apply List.filter_congr
        intro y hy
        simp [hx y hy, hP, Bool.and_comm]
      rw [List.filter_cons_of_pos hP, List.flatMap_cons, List.flatMap_cons, heq, ih']

/-- A row of `Distinct` is a row of its child. -/
theorem mem_distinctRows (x : Row) : ∀ l : List Row, x ∈ distinctRows l → x ∈ l
  | [], h => by simp [distinctRows] at h
  | r :: rs, h => by
    simp only [distinctRows, List.mem_cons, List.mem_filter] at h
    rcases h with h | h
    · simp [h]
    · simp [mem_distinctRows x rs h.1]

/-- A row of `OrderedDistinct` is a row of its child. -/
theorem mem_orderedDistinctRows (x : Row) : ∀ l : List Row, x ∈ orderedDistinctRows l → x ∈ l
  | [], h => by simp [orderedDistinctRows] at h
  | [r], h => by simpa [orderedDistinctRows] using h
  | r :: s :: rest, h => by
    simp only [orderedDistinctRows] at h
    split at h
    · exact List.mem_cons_of_mem _ (mem_orderedDistinctRows x (s :: rest) h)
    · simp only [List.mem_cons] at h
      rcases h with h | h
      · simp [h]
      · exact List.mem_cons_of_mem _ (mem_orderedDistinctRows x (s :: rest) (by simpa using h))

/-- A row of a list after an insertion is the inserted row or a row of the
list. -/
theorem mem_insertRow (b : Builtins) (fs : List SortField) (r x : Row) :
    ∀ l : List Row, x ∈ insertRow b fs r l → x = r ∨ x ∈ l
  | [], h => by simpa [insertRow] using h
  | s :: rest, h => by
    simp only [insertRow] at h
    split at h
    · simpa using h
    · simp only [List.mem_cons] at h
      rcases h with h | h
      · simp [h]
      · rcases mem_insertRow b fs r x rest h with h | h
        · exact Or.inl h
        · exact Or.inr (List.mem_cons_of_mem _ h)

/-- A row of `Sort` is a row of its child. -/
theorem mem_sortRows (b : Builtins) (fs : List SortField) (x : Row) :
    ∀ l : List Row, x ∈ sortRows b fs l → x ∈ l
  | [], h => by simp [sortRows] at h
  | r :: rs, h => by
    simp only [sortRows] at h
    rcases mem_insertRow b fs r x _ h with h | h
    · simp [h]
    · exact List.mem_cons_of_mem _ (mem_sortRows b fs x rs h)

/-- A list of expressions evaluates to as many values. -/
theorem EvalList_length (b : Builtins) (row : Row) :
    ∀ (es : List Expr) (vs : List Value), Expr.EvalList b row es = .ok vs →
      vs.length = (es.map ExpressionToColumn).length
  | [], vs, h => by
    simp only [Expr.EvalList, Except.ok.injEq] at h
    subst h
    rfl
  | e :: es, vs, h => by
    simp only [Expr.EvalList] at h
    split at h
    · cases h
    · split at h
      · cases h
      · rename_i vs' hvs
        simp only [Except.ok.injEq] at h
        subst h
        simp [EvalList_length b row es vs' hvs]

/-- Every row a plan produces has as many cells as the schema of the plan has
columns. -/
theorem rows_length (b : Builtins) (db : Database) :
    ∀ (n : Node) (x : Row), x ∈ n.rows b db → x.length = n.Schema.length
  | .ResolvedTable name s, x, h => by
    simp only [Node.rows, List.mem_filter, decide_eq_true_eq] at h
    exact h.2
  | .UnresolvedTable name, x, h => by simp [Node.rows] at h
  | .EmptyTable, x, h => by simp [Node.rows] at h
  | .Filter e c, x, h => by
    simp only [Node.rows, List.mem_filter] at h
    exact rows_length b db c x h.1
  | .Project es c, x, h => by
    simp only [Node.rows, List.mem_filterMap] at h
    obtain ⟨r, _, hr⟩ := h
    split at hr
    · rename_i vs hvs
      simp only [Option.some.injEq] at hr
      subst hr
      exact EvalList_length b r es _ hvs
    · cases hr
  | .InnerJoin l r cond, x, h => by
    simp only [Node.rows, List.mem_flatMap, List.mem_map, List.mem_filter] at h
    obtain ⟨u, hu, v, ⟨hv, _⟩, rfl⟩ := h
    simp [Node.Schema, rows_length b db l u hu, rows_length b db r v hv]
  | .CrossJoin l r, x, h => by
    simp only [Node.rows, List.mem_flatMap, List.mem_map] at h
    obtain ⟨u, hu, v, hv, rfl⟩ := h
    simp [Node.Schema, rows_length b db l u hu, rows_length b db r v hv]
  | .Distinct c, x, h => by
    simp only [Node.rows] at h
    exact rows_length b db c x (mem_distinctRows x _ h)
  | .OrderedDistinct c, x, h => by
    simp only [Node.rows] at h
    exact rows_length b db c x (mem_orderedDistinctRows x _ h)
  | .Sort fs c, x, h => by
    simp only [Node.rows] at h
    exact rows_length b db c x (mem_sortRows b fs x _ h)

/-- The rows of the left child after `wrapFilter`: the rows of the child on
which every pushed conjunct, read on the row joined with any row, evaluates to
true. -/
theorem rows_wrapFilter_left (b : Builtins) (db : Database) (L : Node) (SR : Schema)
    (ls : List Expr) (left : Node)
    (hbound : ∀ e ∈ ls, FixFieldIndexes (L.Schema ++ SR) e = .ok e)
    (h : wrapFilter ls L = .ok left) :
    ∃ P : Row → Bool, left.rows b db = (L.rows b db).filter P ∧
      ∀ x y : Row, x.length = L.Schema.length →
        P x = ls.all (fun e => keeps b e (x ++ y)) := by
  rcases wrapFilter_ok ls L left h with ⟨hnil, rfl⟩ | ⟨ls', c, hfa, hc, rfl⟩
  · refine ⟨fun _ => true, by simp, ?_⟩
    intro x y _
    simp [hnil]
  · refine ⟨keeps b c, rfl, ?_⟩
    intro x y hx
    rw [keeps_JoinAnd b x ls' c hc]
    exact all_of_forall₂ hfa (fun e e' he hfix => keeps_left b _ SR e e' x y (hbound e he) hfix hx)

/-- The rows of the right child after `wrapFilter`: the rows of the child on
which every pushed conjunct, read on any row of the left child joined with the
row, evaluates to true. -/
theorem rows_wrapFilter_right (b : Builtins) (db : Database) (SL : Schema) (R : Node)
    (rs : List Expr) (right : Node)
    (hbound : ∀ e ∈ rs, FixFieldIndexes (SL ++ R.Schema) e = .ok e)
    (hsrc : ∀ e ∈ rs, ∀ f ∈ exprFields e, ∀ col ∈ SL, col.Source ≠ f.2.1)
    (h : wrapFilter rs R = .ok right) :
    ∃ Q : Row → Bool, right.rows b db = (R.rows b db).filter Q ∧
      ∀ x y : Row, x.length = SL.length →
        Q y = rs.all (fun e => keeps b e (x ++ y)) := by
  rcases wrapFilter_ok rs R right h with ⟨hnil, rfl⟩ | ⟨rs', c, hfa, hc, rfl⟩
  · refine ⟨fun _ => true, by simp, ?_⟩
    intro x y _
    simp [hnil]
  · refine ⟨keeps b c, rfl, ?_⟩
    intro x y hx
    rw [keeps_JoinAnd b y rs' c hc]
    exact all_of_forall₂ hfa
      (fun e e' he hfix => keeps_right b SL _ e e' x y (hbound e he) hfix hx (hsrc e he))

/-- The node function keeps the rows of an inner join whose children have
disjoint source sets and whose condition is indexed against the schema of the
join. -/
theorem rows_moveJoinNodeFunc (b : Builtins) (db : Database) (L R : Node) (cond : Expr)
    (n' : Node)
    (hdisj : ∀ s ∈ nodeSources L, s ∉ nodeSources R)
    (hbound : FixFieldIndexes (L.Schema ++ R.Schema) cond = .ok cond)
    (h : moveJoinConditionsToFilterNodeFunc (.InnerJoin L R cond) = .ok n') :
    n'.rows b db = (Node.InnerJoin L R cond).rows b db := by
  rw [moveJoinNodeFunc_innerJoin] at h
  split at h
  · cases h
  · rename_i left hl
    split at h
    · cases h
    · rename_i right hr
      have hcs := fixed_splitConjunction _ cond hbound
      obtain ⟨P, hP, hPx⟩ := rows_wrapFilter_left b db L R.Schema _ left
        (fun e he => hcs e (List.mem_filter.1 he).1) hl
      obtain ⟨Q, hQ, hQy⟩ := rows_wrapFilter_right b db L.Schema R _ right
        (fun e he => hcs e (List.mem_filter.1 he).1)
        (by
          intro e he f hf col hcol hs
          have h1 := (canMove_iff _ e).1 (List.mem_filter.1 he).2 f hf
          exact hdisj f.2.1 ((mem_nodeSources _ L).2 ⟨col, hcol, hs⟩) h1) hr
      have key := flatMap_filter_join (L.rows b db) (R.rows b db) P Q
        (fun x y => ((splitConjunction cond).filter
          (fun e => !canMove (nodeSources L) e && !canMove (nodeSources R) e)).all
            (fun e => keeps b e (x ++ y)))
        (fun x y => keeps b cond (x ++ y))
        (by
          intro x hx y _
          beta_reduce
          rw [hPx x y (rows_length b db L x hx), hQy x y (rows_length b db L x hx),
            keeps_splitConjunction]
          exact all_filter_split _ _ _ _)
      split at h
      · rename_i hk
        cases h
        rw [(JoinAnd_eq_none _).1 hk] at key
        simp only [List.all_nil, List.filter_true] at key
        simp only [Node.rows, hP, hQ]
        exact key
      · rename_i c hk
        cases h
        simp only [Node.rows, hP, hQ, keeps_JoinAnd b _ _ c hk]
        exact key

/-- The bottom-up rewrite keeps the rows of a plan in which every inner join
has children with disjoint source sets and a condition indexed against the
schema of the join. -/
theorem rows_moveJoin_transformUp (b : Builtins) (db : Database) :
    ∀ (n n' : Node),
      (∀ j ∈ n.innerJoins, (∀ s ∈ nodeSources j.1, s ∉ nodeSources j.2.1) ∧
        FixFieldIndexes (j.1.Schema ++ j.2.1.Schema) j.2.2 = .ok j.2.2) →
      n.TransformUp moveJoinConditionsToFilterNodeFunc = .ok n' →
      n'.rows b db = n.rows b db
  | .ResolvedTable name s, n', _, h => by
    simp only [Node.TransformUp, moveJoinConditionsToFilterNodeFunc, Except.ok.injEq] at h
    rw [← h]
  | .UnresolvedTable name, n', _, h => by
    simp only [Node.TransformUp, moveJoinConditionsToFilterNodeFunc, Except.ok.injEq] at h
    rw [← h]
  | .EmptyTable, n', _, h => by
    simp only [Node.TransformUp, moveJoinConditionsToFilterNodeFunc, Except.ok.injEq] at h
    rw [← h]
  | .Filter e c, n', hj, h => by
    simp only [Node.TransformUp] at h
    split at h
    · cases h
    · rename_i c' hc
      simp only [moveJoinConditionsToFilterNodeFunc, Except.ok.injEq] at h
      rw [← h]
      simp only [Node.rows, rows_moveJoin_transformUp b db c c' hj hc]
  | .Project es c, n', hj, h => by
    simp only [Node.TransformUp] at h
    split at h
    · cases h
    · rename_i c' hc
      simp only [moveJoinConditionsToFilterNodeFunc, Except.ok.injEq] at h
      rw [← h]
      simp only [Node.rows, rows_moveJoin_transformUp b db c c' hj hc]
  | .InnerJoin l r cond, n', hj, h => by
    simp only [Node.TransformUp] at h
    split at h
    · cases h
    · rename_i l' hl
      split at h
      · cases h
      · rename_i r' hr
        have ihl := rows_moveJoin_transformUp b db l l'
          (fun j hm => hj j (by simp [Node.innerJoins, hm])) hl
        have ihr := rows_moveJoin_transformUp b db r r'
          (fun j hm => hj j (by simp [Node.innerJoins, hm])) hr
        have sl := nodeTransformUp_schema _ moveJoinNodeFunc_schema l l' hl
        have sr := nodeTransformUp_schema _ moveJoinNodeFunc_schema r r' hr
        obtain ⟨hd, hb⟩ := hj (l, r, cond) (by simp [Node.innerJoins])
        rw [rows_moveJoinNodeFunc b db l' r' cond n'
          (by rw [nodeSources_of_schema _ _ sl, nodeSources_of_schema _ _ sr]; exact hd)
          (by rw [sl, sr]; exact hb) h]
        simp only [Node.rows, ihl, ihr]
  | .CrossJoin l r, n', hj, h => by
    simp only [Node.TransformUp] at h
    split at h
    · cases h
    · rename_i l' hl
      split at h
      · cases h
      · rename_i r' hr
        simp only [moveJoinConditionsToFilterNodeFunc, Except.ok.injEq] at h
        rw [← h]
        simp only [Node.rows,
          rows_moveJoin_transformUp b db l l'
            (fun j hm => hj j (by simp [Node.innerJoins, hm])) hl,
          rows_moveJoin_transformUp b db r r'
            (fun j hm => hj j (by simp [Node.innerJoins, hm])) hr]
  | .Distinct c, n', hj, h => by
    simp only [Node.TransformUp] at h
    split at h
    · cases h
    · rename_i c' hc
      simp only [moveJoinConditionsToFilterNodeFunc, Except.ok.injEq] at h
      rw [← h]
      simp only [Node.rows, rows_moveJoin_transformUp b db c c' hj hc]
  | .OrderedDistinct c, n', hj, h => by
    simp only [Node.TransformUp] at h
    split at h
    · cases h
    · rename_i c' hc
      simp only [moveJoinConditionsToFilterNodeFunc, Except.ok.injEq] at h
      rw [← h]
      simp only [Node.rows, rows_moveJoin_transformUp b db c c' hj hc]
  | .Sort fs c, n', hj, h => by
    simp only [Node.TransformUp] at h
    split at h
    · cases h
    · rename_i c' hc
      simp only [moveJoinConditionsToFilterNodeFunc, Except.ok.injEq] at h
      rw [← h]
      simp only [Node.rows, rows_moveJoin_transformUp b db c c' hj hc]

/-- The rule keeps the rows of a plan in which every inner join has children
with disjoint source sets and a condition indexed against the schema of the
join. -/
theorem rows_moveJoin (b : Builtins) (db : Database) (n n' : Node)
    (hjoins : ∀ j ∈ n.innerJoins, (∀ s ∈ nodeSources j.1, s ∉ nodeSources j.2.1) ∧
      FixFieldIndexes (j.1.Schema ++ j.2.1.Schema) j.2.2 = .ok j.2.2)
    (h : moveJoinConditionsToFilter n = .ok n') :
    n'.rows b db = n.rows b db := by
  unfold moveJoinConditionsToFilter at h
  split at h
  · cases h
    rfl
  · exact rows_moveJoin_transformUp b db n n' hjoins h

/-- C9 counterexample: `InnerJoin(T1(a,b), T2(c,d), T1.a > 5)` is resolved and
its children have disjoint source sets, but the reference to `T1.a` carries the
field index 1, the position of `b`.  The join reads `b` and produces no row;
the rewritten plan `CrossJoin(Filter(T1.a > 5, T1), T2)` reads `a` at the
re-resolved index 0 and produces two rows. -/
theorem moveJoin_rows_counterexample :
    ¬ (∀ (b : Builtins) (db : Database) (L R : Node) (cond : Expr) (n' : Node),
      (Node.InnerJoin L R cond).Resolved = true →
      (∀ s ∈ nodeSources L, s ∉ nodeSources R) →
      moveJoinConditionsToFilter (.InnerJoin L R cond) = .ok n' →
      n'.rows b db = (Node.InnerJoin L R cond).rows b db) := by
  intro h
  have h1 := h sampleBuiltins sampleDatabase tableT1 tableT2
    (compare2 ">" (.GetField 1 .Int64 "T1" "a") (intLit 5))
    (.CrossJoin (.Filter (compare2 ">" (.GetField 0 .Int64 "T1" "a") (intLit 5)) tableT1)
      tableT2) rfl (by decide) rfl
  have h2 : (Node.CrossJoin
      (.Filter (compare2 ">" (.GetField 0 .Int64 "T1" "a") (intLit 5)) tableT1)
      tableT2).rows sampleBuiltins sampleDatabase =
      [[.int64 10, .int64 2, .int64 1, .int64 2], [.int64 10, .int64 2, .int64 50, .int64 2]] :=
    rfl
  have h3 : (Node.InnerJoin tableT1 tableT2
      (compare2 ">" (.GetField 1 .Int64 "T1" "a") (intLit 5))).rows sampleBuiltins
      sampleDatabase = [] := rfl
  rw [h2, h3] at h1
  cases h1

/-- C9, amended. Join pushdown preserves join semantics: for every
`InnerJoin(L, R, cond)` in which every inner join, the root and those inside
`L` and `R`, has children with disjoint source sets and a condition indexed
against its own schema (re-indexing the condition against the schema of the
left child followed by that of the right child leaves it unchanged), and for
which `moveJoinConditionsToFilter` succeeds, the rewritten plan produces
exactly the same rows as the original join, for every content of the
underlying tables, where a filter or join keeps a row exactly when its
predicate evaluates to true. -/
theorem moveJoin_rows (b : Builtins) (db : Database) (L R : Node) (cond : Expr) (n' : Node)
    (hjoins : ∀ j ∈ (Node.InnerJoin L R cond).innerJoins,
      (∀ s ∈ nodeSources j.1, s ∉ nodeSources j.2.1) ∧
      FixFieldIndexes (j.1.Schema ++ j.2.1.Schema) j.2.2 = .ok j.2.2)
    (h : moveJoinConditionsToFilter (.InnerJoin L R cond) = .ok n') :
    n'.rows b db = (Node.InnerJoin L R cond).rows b db :=
  rows_moveJoin b db _ n' hjoins h

/-- C9 witness: the join of `T1` and `T2` on `T1.a > 5 AND T2.c < 10 AND
T1.b = T2.d`, and its rows before and after the rewrite. -/
theorem moveJoin_rows_witness :
    (Node.InnerJoin tableT1 tableT2 sampleCond).rows sampleBuiltins sampleDatabase =
      [[.int64 10, .int64 2, .int64 1, .int64 2]] ∧
    (Node.InnerJoin
        (.Filter (compare2 ">" (.GetField 0 .Int64 "T1" "a") (intLit 5)) tableT1)
        (.Filter (compare2 "<" (.GetField 0 .Int64 "T2" "c") (intLit 10)) tableT2)
        (compare2 "=" (.GetField 1 .Int64 "T1" "b") (.GetField 3 .Int64 "T2" "d"))).rows
      sampleBuiltins sampleDatabase =
      (Node.InnerJoin tableT1 tableT2 sampleCond).rows sampleBuiltins sampleDatabase :=
  ⟨rfl, moveJoin_rows sampleBuiltins sampleDatabase tableT1 tableT2 sampleCond _
    (by
      intro j hj
      simp only [Node.innerJoins, tableT1, tableT2, List.append_nil, List.mem_singleton] at hj
      subst hj
      exact ⟨by decide, rfl⟩)
    rfl⟩

/-- The condition on the inner joins inside the children cannot be dropped.
In `InnerJoin(InnerJoin(A, B, t.x = 1), T2, T2.c < 10)` the tables `A` and `B`
both have the column `t.x`: the root join has children with disjoint source
sets and both conditions are indexed against their join schemas, but the
conjunct `t.x = 1` of the nested join is pushed to both of its children, and
the rewritten plan loses the row that the original plan produces. -/
theorem rows_moveJoin_nested_example :
    (∀ s ∈ nodeSources (.InnerJoin
        (.ResolvedTable "A" [{ Name := "x", Typ := .Int64, Source := "t" }])
        (.ResolvedTable "B" [{ Name := "x", Typ := .Int64, Source := "t" }])
        (compare2 "=" (.GetField 0 .Int64 "t" "x") (intLit 1))),
      s ∉ nodeSources tableT2) ∧
    moveJoinConditionsToFilter (.InnerJoin
      (.InnerJoin
        (.ResolvedTable "A" [{ Name := "x", Typ := .Int64, Source := "t" }])
        (.ResolvedTable "B" [{ Name := "x", Typ := .Int64, Source := "t" }])
        (compare2 "=" (.GetField 0 .Int64 "t" "x") (intLit 1)))
      tableT2 (compare2 "<" (.GetField 2 .Int64 "T2" "c") (intLit 10))) =
      .ok (.CrossJoin
        (.CrossJoin
          (.Filter (compare2 "=" (.GetField 0 .Int64 "t" "x") (intLit 1))
            (.ResolvedTable "A" [{ Name := "x", Typ := .Int64, Source := "t" }]))
          (.Filter (compare2 "=" (.GetField 0 .Int64 "t" "x") (intLit 1))
            (.ResolvedTable "B" [{ Name := "x", Typ := .Int64, Source := "t" }])))
        (.Filter (compare2 "<" (.GetField 0 .Int64 "T2" "c") (intLit 10)) tableT2)) ∧
    (Node.InnerJoin
      (.InnerJoin
        (.ResolvedTable "A" [{ Name := "x", Typ := .Int64, Source := "t" }])
        (.ResolvedTable "B" [{ Name := "x", Typ := .Int64, Source := "t" }])
        (compare2 "=" (.GetField 0 .Int64 "t" "x") (intLit 1)))
      tableT2 (compare2 "<" (.GetField 2 .Int64 "T2" "c") (intLit 10))).rows sampleBuiltins
      (fun name => if name = "A" then [[.int64 1]] else if name = "B" then [[.int64 7]]
        else sampleDatabase name) = [[.int64 1, .int64 7, .int64 1, .int64 2]] ∧
    (Node.CrossJoin
      (.CrossJoin
        (.Filter (compare2 "=" (.GetField 0 .Int64 "t" "x") (intLit 1))
          (.ResolvedTable "A" [{ Name := "x", Typ := .Int64, Source := "t" }]))
        (.Filter (compare2 "=" (.GetField 0 .Int64 "t" "x") (intLit 1))
          (.ResolvedTable "B" [{ Name := "x", Typ := .Int64, Source := "t" }])))
      (.Filter (compare2 "<" (.GetField 0 .Int64 "T2" "c") (intLit 10)) tableT2)).rows
      sampleBuiltins
      (fun name => if name = "A" then [[.int64 1]] else if name = "B" then [[.int64 7]]
        else sampleDatabase name) = [] :=
  ⟨by decide, rfl, rfl, rfl⟩

/-- C10, the failing input: the predicate `(TRUE AND 5) = 5` evaluates to
false on every row, since `TRUE AND 5` is the boolean true, so
`Filter((TRUE AND 5) = 5, T1)` produces no row; the predicate rewrite turns
`TRUE AND 5` into `5` and folds `5 = 5` into the literal true, and `evalFilter`
returns `T1`, which produces all the rows of the table. -/
theorem evalFilter_rows_failing :
    (∀ row : Row,
      (compare2 "=" (.And (boolLit true) (intLit 5)) (intLit 5)).Eval sampleBuiltins row =
        .ok (.bool false)) ∧
    (compare2 "=" (.And (boolLit true) (intLit 5)) (intLit 5)).TransformUp
        (evalFilterExprFunc sampleBuiltins) = .ok (boolLit true) ∧
    evalFilter sampleBuiltins
        (.Filter (compare2 "=" (.And (boolLit true) (intLit 5)) (intLit 5)) tableT1) =
      .ok tableT1 ∧
    (Node.Filter (compare2 "=" (.And (boolLit true) (intLit 5)) (intLit 5)) tableT1).rows
        sampleBuiltins sampleDatabase = [] ∧
    tableT1.rows sampleBuiltins sampleDatabase =
      [[.int64 10, .int64 2], [.int64 1, .int64 2]] :=
  ⟨fun _ => rfl, rfl, rfl, rfl, rfl⟩

/-! ## Projection erasure -/

/-- The node function of `eraseProjection` never fails. -/
theorem eraseProjectionNodeFunc_total (n : Node) : ∃ n', eraseProjectionNodeFunc n = .ok n' := by
  unfold eraseProjectionNodeFunc
  split
  · split <;> exact ⟨_, rfl⟩
  · exact ⟨_, rfl⟩

/-- The rule `eraseProjection` never fails. -/
theorem eraseProjection_total (n : Node) : ∃ n', eraseProjection n = .ok n' := by
  unfold eraseProjection
  split
  · exact ⟨_, rfl⟩
  · exact nodeTransformUp_total _ eraseProjectionNodeFunc_total n

/-- On a resolved plan `eraseProjection` is the bottom-up rewrite. -/
theorem eraseProjection_of_resolved (n : Node) (h : n.Resolved = true) :
    eraseProjection n = n.TransformUp eraseProjectionNodeFunc := by
  simp [eraseProjection, h]

/-- The node function of `eraseProjection` keeps the schema. -/
theorem eraseProjectionNodeFunc_schema (n n' : Node)
    (h : eraseProjectionNodeFunc n = .ok n') : n'.Schema = n.Schema := by
  unfold eraseProjectionNodeFunc at h
  split at h
  · split at h
    · rename_i heq
      cases h
      simp only [Schema.Equals, decide_eq_true_eq] at heq
      exact heq.symm
    · cases h
      rfl
  · cases h
    rfl

/-- The rule `eraseProjection` keeps the schema of the plan. -/
theorem eraseProjection_schema (n n' : Node) (h : eraseProjection n = .ok n') :
    n'.Schema = n.Schema := by
  unfold eraseProjection at h
  split at h
  · cases h
    rfl
  · exact nodeTransformUp_schema _ eraseProjectionNodeFunc_schema n n' h

/-- C11. For a resolved plan with root `Project(exprs, c)`, with `c'` the
result of `eraseProjection` on `c`: when the schema of the `Project` equals
the schema of `c`, `eraseProjection` returns `c'` and the `Project` is gone;
when the schemas differ it returns `Project(exprs, c')`, the same projection
list over the rewritten child. -/
theorem eraseProjection_root (exprs : List Expr) (c : Node)
    (hres : (Node.Project exprs c).Resolved = true) :
    ∃ c', eraseProjection c = .ok c' ∧
      ((Node.Project exprs c).Schema = c.Schema →
        eraseProjection (.Project exprs c) = .ok c') ∧
      ((Node.Project exprs c).Schema ≠ c.Schema →
        eraseProjection (.Project exprs c) = .ok (.Project exprs c')) := by
  obtain ⟨c', hc⟩ := eraseProjection_total c
  have hsch := eraseProjection_schema c c' hc
  have hcr : c.Resolved = true := by
    simp only [Node.Resolved, Bool.and_eq_true] at hres
    exact hres.2
  refine ⟨c', hc, ?_, ?_⟩
  · intro heq
    rw [eraseProjection_of_resolved _ hres]
    rw [eraseProjection_of_resolved _ hcr] at hc
    have : Schema.Equals (Node.Project exprs c').Schema c'.Schema = true := by
      simp only [Schema.Equals, decide_eq_true_eq, hsch]
      exact heq
    simp only [Node.TransformUp, hc, eraseProjectionNodeFunc, this, ↓reduceIte]
  · intro hne
    rw [eraseProjection_of_resolved _ hres]
    rw [eraseProjection_of_resolved _ hcr] at hc
    have : Schema.Equals (Node.Project exprs c').Schema c'.Schema = false := by
      simp only [Schema.Equals, decide_eq_false_iff_not, hsch]
      exact hne
    simp [Node.TransformUp, hc, eraseProjectionNodeFunc, this]

/-- C11 witness: `Project([a, b], T1)` has the schema of `T1` and is erased;
`Project([b, a], T1)` reorders the columns and is kept. -/
theorem eraseProjection_root_witness :
    (eraseProjection (.Project [.GetField 0 .Int64 "T1" "a", .GetField 1 .Int64 "T1" "b"]
      tableT1) = .ok tableT1 ∧
     eraseProjection (.Project [.GetField 1 .Int64 "T1" "b", .GetField 0 .Int64 "T1" "a"]
      tableT1) =
      .ok (.Project [.GetField 1 .Int64 "T1" "b", .GetField 0 .Int64 "T1" "a"] tableT1)) ∧
    ∃ c', eraseProjection tableT1 = .ok c' ∧
      ((Node.Project [.GetField 0 .Int64 "T1" "a", .GetField 1 .Int64 "T1" "b"]
          tableT1).Schema = tableT1.Schema →
        eraseProjection (.Project [.GetField 0 .Int64 "T1" "a", .GetField 1 .Int64 "T1" "b"]
          tableT1) = .ok c') ∧
      ((Node.Project [.GetField 0 .Int64 "T1" "a", .GetField 1 .Int64 "T1" "b"]
          tableT1).Schema ≠ tableT1.Schema →
        eraseProjection (.Project [.GetField 0 .Int64 "T1" "a", .GetField 1 .Int64 "T1" "b"]
          tableT1) =
          .ok (.Project [.GetField 0 .Int64 "T1" "a", .GetField 1 .Int64 "T1" "b"] c')) :=
  ⟨⟨rfl, rfl⟩, eraseProjection_root _ tableT1 rfl⟩

/-- The bottom-up rewrite of `eraseProjection` leaves no `Project` whose
schema equals the schema of its child. -/
theorem eraseProjection_transformUp_clean :
    ∀ (n n' : Node), n.TransformUp eraseProjectionNodeFunc = .ok n' →
      n'.hasRedundantProject = false
  | .ResolvedTable name s, n', h => by
    simp only [Node.TransformUp, eraseProjectionNodeFunc, Except.ok.injEq] at h
    rw [← h]
    rfl
  | .UnresolvedTable name, n', h => by
    simp only [Node.TransformUp, eraseProjectionNodeFunc, Except.ok.injEq] at h
    rw [← h]
    rfl
  | .EmptyTable, n', h => by
    simp only [Node.TransformUp, eraseProjectionNodeFunc, Except.ok.injEq] at h
    rw [← h]
    rfl
  | .Filter e c, n', h => by
    simp only [Node.TransformUp] at h
    split at h
    · cases h
    · rename_i c' hc
      simp only [eraseProjectionNodeFunc, Except.ok.injEq] at h
      rw [← h]
      simpa [Node.hasRedundantProject] using eraseProjection_transformUp_clean c c' hc
  | .Project es c, n', h => by
    simp only [Node.TransformUp] at h
    split at h
    · cases h
    · rename_i c' hc
      have ih := eraseProjection_transformUp_clean c c' hc
      simp only [eraseProjectionNodeFunc] at h
      split at h
      · cases h
        exact ih
      · rename_i hne
        cases h
        simp only [Node.hasRedundantProject, ih, Bool.or_false]
        simpa using hne
  | .InnerJoin l r cond, n', h => by
    simp only [Node.TransformUp] at h
    split at h
    · cases h
    · rename_i l' hl
      split at h
      · cases h
      · rename_i r' hr
        simp only [eraseProjectionNodeFunc, Except.ok.injEq] at h
        rw [← h]
        simp [Node.hasRedundantProject, eraseProjection_transformUp_clean l l' hl,
          eraseProjection_transformUp_clean r r' hr]
  | .CrossJoin l r, n', h => by
    simp only [Node.TransformUp] at h
    split at h
    · cases h
    · rename_i l' hl
      split at h
      · cases h
      · rename_i r' hr
        simp only [eraseProjectionNodeFunc, Except.ok.injEq] at h
        rw [← h]
        simp [Node.hasRedundantProject, eraseProjection_transformUp_clean l l' hl,
          eraseProjection_transformUp_clean r r' hr]
  | .Distinct c, n', h => by
    simp only [Node.TransformUp] at h
    split at h
    · cases h
    · rename_i c' hc
      simp only [eraseProjectionNodeFunc, Except.ok.injEq] at h
      rw [← h]
      simpa [Node.hasRedundantProject] using eraseProjection_transformUp_clean c c' hc
  | .OrderedDistinct c, n', h => by
    simp only [Node.TransformUp] at h
    split at h
    · cases h
    · rename_i c' hc
      simp only [eraseProjectionNodeFunc, Except.ok.injEq] at h
      rw [← h]
      simpa [Node.hasRedundantProject] using eraseProjection_transformUp_clean c c' hc
  | .Sort fs c, n', h => by
    simp only [Node.TransformUp] at h
    split at h
    · cases h
    · rename_i c' hc
      simp only [eraseProjectionNodeFunc, Except.ok.injEq] at h
      rw [← h]
      simpa [Node.hasRedundantProject] using eraseProjection_transformUp_clean c c' hc

/-- The bottom-up rewrite of `eraseProjection` changes nothing in a plan that
has no `Project` whose schema equals the schema of its child. -/
theorem eraseProjection_transformUp_fixed :
    ∀ n : Node, n.hasRedundantProject = false → n.TransformUp eraseProjectionNodeFunc = .ok n
  | .ResolvedTable name s, _ => rfl
  | .UnresolvedTable name, _ => rfl
  | .EmptyTable, _ => rfl
  | .Filter e c, h => by
    simp only [Node.hasRedundantProject] at h
    simp [Node.TransformUp, eraseProjection_transformUp_fixed c h, eraseProjectionNodeFunc]
  | .Project es c, h => by
    simp only [Node.hasRedundantProject, Bool.or_eq_false_iff] at h
    simp [Node.TransformUp, eraseProjection_transformUp_fixed c h.2, eraseProjectionNodeFunc, h.1]
  | .InnerJoin l r cond, h => by
    simp only [Node.hasRedundantProject, Bool.or_eq_false_iff] at h
    simp [Node.TransformUp, eraseProjection_transformUp_fixed l h.1,
      eraseProjection_transformUp_fixed r h.2, eraseProjectionNodeFunc]
  | .CrossJoin l r, h => by
    simp only [Node.hasRedundantProject, Bool.or_eq_false_iff] at h
    simp [Node.TransformUp, eraseProjection_transformUp_fixed l h.1,
      eraseProjection_transformUp_fixed r h.2, eraseProjectionNodeFunc]
  | .Distinct c, h => by
    simp only [Node.hasRedundantProject] at h
    simp [Node.TransformUp, eraseProjection_transformUp_fixed c h, eraseProjectionNodeFunc]
  | .OrderedDistinct c, h => by
    simp only [Node.hasRedundantProject] at h
    simp [Node.TransformUp, eraseProjection_transformUp_fixed c h, eraseProjectionNodeFunc]
  | .Sort fs c, h => by
    simp only [Node.hasRedundantProject] at h
    simp [Node.TransformUp, eraseProjection_transformUp_fixed c h, eraseProjectionNodeFunc]

/-- C12. For every resolved plan, `eraseProjection` returns a plan that
contains no `Project` node whose schema equals the schema of its child: every
redundant `Project` of the tree, directly nested ones included, is removed in
the one pass, and a second run of `eraseProjection` changes nothing. -/
theorem eraseProjection_complete (p : Node) (hres : p.Resolved = true) :
    ∃ p', eraseProjection p = .ok p' ∧ p'.hasRedundantProject = false ∧
      eraseProjection p' = .ok p' := by
  obtain ⟨p', hp⟩ := eraseProjection_total p
  refine ⟨p', hp, ?_, ?_⟩
  · rw [eraseProjection_of_resolved p hres] at hp
    exact eraseProjection_transformUp_clean p p' hp
  · rw [eraseProjection_of_resolved p hres] at hp
    have hclean := eraseProjection_transformUp_clean p p' hp
    unfold eraseProjection
    split
    · rfl
    · exact eraseProjection_transformUp_fixed p' hclean

/-- C12 witness: two directly nested redundant projections over `T1` are both
removed in one pass. -/
theorem eraseProjection_complete_witness :
    eraseProjection (.Project [.GetField 0 .Int64 "T1" "a", .GetField 1 .Int64 "T1" "b"]
      (.Project [.GetField 0 .Int64 "T1" "a", .GetField 1 .Int64 "T1" "b"] tableT1)) =
      .ok tableT1 ∧
    ∃ p', eraseProjection (.Project [.GetField 0 .Int64 "T1" "a", .GetField 1 .Int64 "T1" "b"]
        (.Project [.GetField 0 .Int64 "T1" "a", .GetField 1 .Int64 "T1" "b"] tableT1)) =
        .ok p' ∧ p'.hasRedundantProject = false ∧ eraseProjection p' = .ok p' :=
  ⟨rfl, eraseProjection_complete _ rfl⟩

/-! ## Ordered distinct -/

/-- Once a sort field is recorded the visit of `optimizeDistinct` changes
nothing. -/
theorem optimizeDistinct_inspect_some (x : Expr) :
    ∀ n : Node, Node.Inspect optimizeDistinctVisit (some x) n = .ok (some x)
  | .ResolvedTable name s => rfl
  | .UnresolvedTable name => rfl
  | .EmptyTable => rfl
  | .Filter e c => by
    simp [Node.Inspect, optimizeDistinctVisit, optimizeDistinct_inspect_some x c]
  | .Project es c => by
    simp [Node.Inspect, optimizeDistinctVisit, optimizeDistinct_inspect_some x c]
  | .InnerJoin l r cond => by
    simp [Node.Inspect, optimizeDistinctVisit, optimizeDistinct_inspect_some x l,
      optimizeDistinct_inspect_some x r]
  | .CrossJoin l r => by
    simp [Node.Inspect, optimizeDistinctVisit, optimizeDistinct_inspect_some x l,
      optimizeDistinct_inspect_some x r]
  | .Distinct c => by
    simp [Node.Inspect, optimizeDistinctVisit, optimizeDistinct_inspect_some x c]
  | .OrderedDistinct c => by
    simp [Node.Inspect, optimizeDistinctVisit, optimizeDistinct_inspect_some x c]
  | .Sort fs c => by
    simp [Node.Inspect, optimizeDistinctVisit, optimizeDistinct_inspect_some x c]

/-- The visit of `optimizeDistinct` on a `Sort` node while nothing is
recorded. -/
theorem optimizeDistinct_inspect_sort (fs : List SortField) (c : Node) (r : Option Expr)
    (h : Node.Inspect optimizeDistinctVisit none (.Sort fs c) = .ok r) :
    fs ≠ [] ∧ r = sortKeyField fs := by
  cases fs with
  | nil => simp [Node.Inspect, optimizeDistinctVisit] at h
  | cons first rest =>
    refine ⟨by simp, ?_⟩
    simp only [Node.Inspect, optimizeDistinctVisit] at h
    simp only [sortKeyField]
    cases hcol : first.Column <;> simp [hcol] at h ⊢ <;> exact h.symm

/-- The visit of `optimizeDistinct` records the column of the first `Sort`
node that is not beneath another `Sort` and whose first sort field is a column
reference. -/
theorem optimizeDistinct_inspect_none :
    ∀ (n : Node) (r : Option Expr), Node.Inspect optimizeDistinctVisit none n = .ok r →
      r = n.topSorts.findSome? sortKeyField
  | .ResolvedTable name s, r, h => by
    simp only [Node.Inspect, optimizeDistinctVisit, Except.ok.injEq] at h
    simp [Node.topSorts, ← h]
  | .UnresolvedTable name, r, h => by
    simp only [Node.Inspect, optimizeDistinctVisit, Except.ok.injEq] at h
    simp [Node.topSorts, ← h]
  | .EmptyTable, r, h => by
    simp only [Node.Inspect, optimizeDistinctVisit, Except.ok.injEq] at h
    simp [Node.topSorts, ← h]
  | .Filter e c, r, h => by
    simp only [Node.Inspect, optimizeDistinctVisit] at h
    simpa [Node.topSorts] using optimizeDistinct_inspect_none c r h
  | .Project es c, r, h => by
    simp only [Node.Inspect, optimizeDistinctVisit] at h
    simpa [Node.topSorts] using optimizeDistinct_inspect_none c r h
  | .InnerJoin l r' cond, r, h => by
    simp only [Node.Inspect, optimizeDistinctVisit] at h
    split at h
    · cases h
    · rename_i s2 hl
      have ihl := optimizeDistinct_inspect_none l s2 hl
      cases s2 with
      | none =>
        have ihr := optimizeDistinct_inspect_none r' r h
        simp [Node.topSorts, List.findSome?_append, ← ihl, ihr]
      | some x =>
        rw [optimizeDistinct_inspect_some x r'] at h
        cases h
        simp [Node.topSorts, List.findSome?_append, ← ihl]
  | .CrossJoin l r', r, h => by
    simp only [Node.Inspect, optimizeDistinctVisit] at h
    split at h
    · cases h
    · rename_i s2 hl
      have ihl := optimizeDistinct_inspect_none l s2 hl
      cases s2 with
      | none =>
        have ihr := optimizeDistinct_inspect_none r' r h
        simp [Node.topSorts, List.findSome?_append, ← ihl, ihr]
      | some x =>
        rw [optimizeDistinct_inspect_some x r'] at h
        cases h
        simp [Node.topSorts, List.findSome?_append, ← ihl]
  | .Distinct c, r, h => by
    simp only [Node.Inspect, optimizeDistinctVisit] at h
    simpa [Node.topSorts] using optimizeDistinct_inspect_none c r h
  | .OrderedDistinct c, r, h => by
    simp only [Node.Inspect, optimizeDistinctVisit] at h
    simpa [Node.topSorts] using optimizeDistinct_inspect_none c r h
  | .Sort fs c, r, h => by
    have := (optimizeDistinct_inspect_sort fs c r h).2
    cases hk : sortKeyField fs <;> simp [Node.topSorts, List.findSome?, this, hk]

/-- The visit of `optimizeDistinct` records nothing in a plan without `Sort`
node. -/
theorem optimizeDistinct_inspect_noSort :
    ∀ n : Node, n.firstSort = none → Node.Inspect optimizeDistinctVisit none n = .ok none
  | .ResolvedTable name s, _ => rfl
  | .UnresolvedTable name, _ => rfl
  | .EmptyTable, _ => rfl
  | .Filter e c, h => by
    simp only [Node.firstSort] at h
    simp [Node.Inspect, optimizeDistinctVisit, optimizeDistinct_inspect_noSort c h]
  | .Project es c, h => by
    simp only [Node.firstSort] at h
    simp [Node.Inspect, optimizeDistinctVisit, optimizeDistinct_inspect_noSort c h]
  | .InnerJoin l r cond, h => by
    simp only [Node.firstSort] at h
    split at h
    · cases h
    · rename_i hl
      simp [Node.Inspect, optimizeDistinctVisit, optimizeDistinct_inspect_noSort l hl,
        optimizeDistinct_inspect_noSort r h]
  | .CrossJoin l r, h => by
    simp only [Node.firstSort] at h
    split at h
    · cases h
    · rename_i hl
      simp [Node.Inspect, optimizeDistinctVisit, optimizeDistinct_inspect_noSort l hl,
        optimizeDistinct_inspect_noSort r h]
  | .Distinct c, h => by
    simp only [Node.firstSort] at h
    simp [Node.Inspect, optimizeDistinctVisit, optimizeDistinct_inspect_noSort c h]
  | .OrderedDistinct c, h => by
    simp only [Node.firstSort] at h
    simp [Node.Inspect, optimizeDistinctVisit, optimizeDistinct_inspect_noSort c h]
  | .Sort fs c, h => by simp [Node.firstSort] at h

/-- When the first `Sort` node of a plan has a column reference as its first
sort field, the visit of `optimizeDistinct` records that column. -/
theorem optimizeDistinct_inspect_first (x : Expr) :
    ∀ (n : Node) (fs : List SortField), n.firstSort = some fs → sortKeyField fs = some x →
      Node.Inspect optimizeDistinctVisit none n = .ok (some x)
  | .ResolvedTable name s, fs, h, _ => by simp [Node.firstSort] at h
  | .UnresolvedTable name, fs, h, _ => by simp [Node.firstSort] at h
  | .EmptyTable, fs, h, _ => by simp [Node.firstSort] at h
  | .Filter e c, fs, h, hk => by
    simp only [Node.firstSort] at h
    simp [Node.Inspect, optimizeDistinctVisit, optimizeDistinct_inspect_first x c fs h hk]
  | .Project es c, fs, h, hk => by
    simp only [Node.firstSort] at h
    simp [Node.Inspect, optimizeDistinctVisit, optimizeDistinct_inspect_first x c fs h hk]
  | .InnerJoin l r cond, fs, h, hk => by
    simp only [Node.firstSort] at h
    split at h
    · rename_i fs' hl
      cases h
      simp [Node.Inspect, optimizeDistinctVisit, optimizeDistinct_inspect_first x l fs hl hk,
        optimizeDistinct_inspect_some x r]
    · rename_i hl
      simp [Node.Inspect, optimizeDistinctVisit, optimizeDistinct_inspect_noSort l hl,
        optimizeDistinct_inspect_first x r fs h hk]
  | .CrossJoin l r, fs, h, hk => by
    simp only [Node.firstSort] at h
    split at h
    · rename_i fs' hl
      cases h
      simp [Node.Inspect, optimizeDistinctVisit, optimizeDistinct_inspect_first x l fs hl hk,
        optimizeDistinct_inspect_some x r]
    · rename_i hl
      simp [Node.Inspect, optimizeDistinctVisit, optimizeDistinct_inspect_noSort l hl,
        optimizeDistinct_inspect_first x r fs h hk]
  | .Distinct c, fs, h, hk => by
    simp only [Node.firstSort] at h
    simp [Node.Inspect, optimizeDistinctVisit, optimizeDistinct_inspect_first x c fs h hk]
  | .OrderedDistinct c, fs, h, hk => by
    simp only [Node.firstSort] at h
    simp [Node.Inspect, optimizeDistinctVisit, optimizeDistinct_inspect_first x c fs h hk]
  | .Sort fs' c, fs, h, hk => by
    simp only [Node.firstSort, Option.some.injEq] at h
    subst h
    cases fs' with
    | nil => simp [sortKeyField] at hk
    | cons first rest =>
      simp only [sortKeyField] at hk
      simp only [Node.Inspect, optimizeDistinctVisit]
      cases hcol : first.Column <;> simp [hcol] at hk ⊢
      exact hk

/-- The rewrite of a root `Distinct` whose first `Sort` node is keyed on a
column reference. -/
theorem optimizeDistinct_distinct (c : Node) (i : Nat) (t : Typ) (tbl name : String)
    (d : Bool) (rest : List SortField)
    (hfirst : (Node.Distinct c).firstSort =
      some ({ Column := .GetField i t tbl name, Descending := d } :: rest)) :
    optimizeDistinct (.Distinct c) =
      if Schema.Contains (Node.Distinct c).Schema name tbl then .ok (.OrderedDistinct c)
      else .ok (.Distinct c) := by
  have h := optimizeDistinct_inspect_first (.GetField i t tbl name) (.Distinct c) _ hfirst rfl
  simp only [optimizeDistinct, h]

/-- C13. For a plan whose root is a `Distinct` node with child `c`, where the
first `Sort` node in the top-down traversal of the plan has a column reference
`x` as its first sort key: when the schema of the `Distinct` contains a column
with the name and table qualifier of `x`, `optimizeDistinct` returns
`OrderedDistinct` over the same child `c`; when it contains no such column,
`optimizeDistinct` returns the `Distinct` node unchanged. -/
theorem optimizeDistinct_root (c : Node) (i : Nat) (t : Typ) (tbl name : String)
    (d : Bool) (rest : List SortField)
    (hfirst : (Node.Distinct c).firstSort =
      some ({ Column := .GetField i t tbl name, Descending := d } :: rest)) :
    (Schema.Contains (Node.Distinct c).Schema name tbl = true →
      optimizeDistinct (.Distinct c) = .ok (.OrderedDistinct c)) ∧
    (Schema.Contains (Node.Distinct c).Schema name tbl = false →
      optimizeDistinct (.Distinct c) = .ok (.Distinct c)) := by
  rw [optimizeDistinct_distinct c i t tbl name d rest hfirst]
  constructor <;> intro h <;> simp [h]

/-- C13 witness: `Distinct(Sort([a], T1))` becomes `OrderedDistinct`;
`Distinct(Project([b], Sort([a], T1)))`, whose output has no column `a`, stays
as it is. -/
theorem optimizeDistinct_root_witness :
    (optimizeDistinct (.Distinct (.Sort [⟨.GetField 0 .Int64 "T1" "a", false⟩] tableT1)) =
      .ok (.OrderedDistinct (.Sort [⟨.GetField 0 .Int64 "T1" "a", false⟩] tableT1))) ∧
    (Schema.Contains (Node.Distinct (.Project [.GetField 1 .Int64 "T1" "b"]
        (.Sort [⟨.GetField 0 .Int64 "T1" "a", false⟩]
          tableT1))).Schema "a" "T1" = false →
      optimizeDistinct (.Distinct (.Project [.GetField 1 .Int64 "T1" "b"]
        (.Sort [⟨.GetField 0 .Int64 "T1" "a", false⟩] tableT1))) =
      .ok (.Distinct (.Project [.GetField 1 .Int64 "T1" "b"]
        (.Sort [⟨.GetField 0 .Int64 "T1" "a", false⟩] tableT1)))) :=
  ⟨(optimizeDistinct_root (.Sort [⟨.GetField 0 .Int64 "T1" "a", false⟩] tableT1)
      0 .Int64 "T1" "a" false [] rfl).1 rfl,
    (optimizeDistinct_root (.Project [.GetField 1 .Int64 "T1" "b"]
      (.Sort [⟨.GetField 0 .Int64 "T1" "a", false⟩] tableT1))
      0 .Int64 "T1" "a" false [] rfl).2⟩

/-- A plan whose root is not a `Distinct` node is returned unchanged by
`optimizeDistinct`. -/
theorem optimizeDistinct_other (n : Node) (h : ∀ c, n ≠ .Distinct c) :
    optimizeDistinct n = .ok n := by
  rcases n with ⟨n, s⟩ | n | _ | ⟨e, c⟩ | ⟨es, c⟩ | ⟨l, r, cond⟩ | ⟨l, r⟩ | c | c | ⟨fs, c⟩
  case Distinct => exact absurd rfl (h c)
  all_goals rfl

/-- C14 counterexample: in the resolved plan `Project([a], Distinct(Sort([a],
T1)))` the `Distinct` node qualifies (at the root it becomes
`OrderedDistinct`), but it is not the root of the plan and `optimizeDistinct`
returns the plan unchanged. -/
theorem optimizeDistinct_everywhere_counterexample :
    ¬ (∀ (es : List Expr) (c : Node), (Node.Project es (.Distinct c)).Resolved = true →
      optimizeDistinct (.Distinct c) = .ok (.OrderedDistinct c) →
      optimizeDistinct (.Project es (.Distinct c)) = .ok (.Project es (.OrderedDistinct c))) := by
  intro h
  have h1 := h [.GetField 0 .Int64 "T1" "a"]
    (.Sort [⟨.GetField 0 .Int64 "T1" "a", false⟩] tableT1) rfl rfl
  have h2 : optimizeDistinct (.Project [.GetField 0 .Int64 "T1" "a"]
      (.Distinct (.Sort [⟨.GetField 0 .Int64 "T1" "a", false⟩] tableT1))) =
      .ok (.Project [.GetField 0 .Int64 "T1" "a"]
        (.Distinct (.Sort [⟨.GetField 0 .Int64 "T1" "a", false⟩] tableT1))) := rfl
  rw [h2] at h1
  simp at h1

/-- C14, amended. `optimizeDistinct` examines the root of the plan only: a
plan whose root is not a `Distinct` node is returned unchanged, so that a
`Distinct` node below the root stays a `Distinct`; a root `Distinct` whose
first `Sort` node is keyed on a column reference that is in the output of the
`Distinct` becomes `OrderedDistinct` over the same child. -/
theorem optimizeDistinct_root_only :
    (∀ n : Node, (∀ c, n ≠ .Distinct c) → optimizeDistinct n = .ok n) ∧
    (∀ (c : Node) (i : Nat) (t : Typ) (tbl name : String) (d : Bool) (rest : List SortField),
      (Node.Distinct c).firstSort =
        some ({ Column := .GetField i t tbl name, Descending := d } :: rest) →
      Schema.Contains (Node.Distinct c).Schema name tbl = true →
      optimizeDistinct (.Distinct c) = .ok (.OrderedDistinct c)) := by
  refine ⟨optimizeDistinct_other, ?_⟩
  intro c i t tbl name d rest hfirst hc
  rw [optimizeDistinct_distinct c i t tbl name d rest hfirst]
  simp [hc]

/-- C14 witness: the `Distinct` below the root `Project` is left as it is. -/
theorem optimizeDistinct_root_only_witness :
    optimizeDistinct (.Project [.GetField 0 .Int64 "T1" "a"]
      (.Distinct (.Sort [⟨.GetField 0 .Int64 "T1" "a", false⟩] tableT1))) =
      .ok (.Project [.GetField 0 .Int64 "T1" "a"]
        (.Distinct (.Sort [⟨.GetField 0 .Int64 "T1" "a", false⟩] tableT1))) :=
  optimizeDistinct_root_only.1 _ (fun _ h => by cases h)

/-- C15 counterexample: in `Distinct(Sort([a + 1], Sort([a], T1)))` the first
`Sort` node whose first sort key is a column reference is the inner one, keyed
on `a`, which is in the output; the visit does not descend beneath the outer
`Sort`, records nothing, and the `Distinct` is returned unchanged. -/
theorem optimizeDistinct_beneath_counterexample :
    ¬ (∀ (c : Node) (i : Nat) (t : Typ) (tbl name : String),
      (Node.Distinct c).sorts.findSome? sortKeyField = some (.GetField i t tbl name) →
      Schema.Contains (Node.Distinct c).Schema name tbl = true →
      optimizeDistinct (.Distinct c) = .ok (.OrderedDistinct c)) := by
  intro h
  have h1 := h (.Sort [⟨samplePlus, false⟩]
    (.Sort [⟨.GetField 0 .Int64 "T1" "a", false⟩] tableT1)) 0 .Int64 "T1" "a" rfl rfl
  have h2 : optimizeDistinct (.Distinct (.Sort [⟨samplePlus, false⟩]
      (.Sort [⟨.GetField 0 .Int64 "T1" "a", false⟩] tableT1))) =
      .ok (.Distinct (.Sort [⟨samplePlus, false⟩]
        (.Sort [⟨.GetField 0 .Int64 "T1" "a", false⟩] tableT1))) := rfl
  rw [h2] at h1
  simp at h1

/-- C15, amended. For a root `Distinct` that `optimizeDistinct` handles
without failing, the recorded sort column is the first sort key of the first
`Sort` node, in top-down traversal order among the `Sort` nodes that are not
beneath another `Sort` node, whose first sort key is a column reference; the
`Distinct` becomes `OrderedDistinct` exactly when such a column is recorded
and is in its output.  A `Sort` node whose first key is not a column reference
is passed over: the search does not continue beneath it, and continues after
it. -/
theorem optimizeDistinct_recorded (c : Node) (n' : Node)
    (h : optimizeDistinct (.Distinct c) = .ok n') :
    Node.Inspect optimizeDistinctVisit none (.Distinct c) =
      .ok ((Node.Distinct c).topSorts.findSome? sortKeyField) ∧
    ((∃ i t tbl name,
        (Node.Distinct c).topSorts.findSome? sortKeyField = some (.GetField i t tbl name) ∧
        Schema.Contains (Node.Distinct c).Schema name tbl = true) →
      n' = .OrderedDistinct c) ∧
    ((¬ ∃ i t tbl name,
        (Node.Distinct c).topSorts.findSome? sortKeyField = some (.GetField i t tbl name) ∧
        Schema.Contains (Node.Distinct c).Schema name tbl = true) →
      n' = .Distinct c) := by
  cases hi : Node.Inspect optimizeDistinctVisit none (.Distinct c) with
  | error err => simp [optimizeDistinct, hi] at h
  | ok r =>
    have hr := optimizeDistinct_inspect_none _ r hi
    subst hr
    refine ⟨rfl, ?_, ?_⟩
    · rintro ⟨i, t, tbl, name, hk, hc⟩
      simp only [optimizeDistinct, hi, hk, hc, ↓reduceIte, Except.ok.injEq] at h
      exact h.symm
    · intro hno
      simp only [optimizeDistinct, hi] at h
      split at h
      · cases h
      · rename_i i t tbl name hk
        split at h
        · rename_i hc
          exact absurd ⟨_, _, tbl, name, Except.ok.inj hk, hc⟩ hno
        · cases h
          rfl
      · cases h
        rfl

/-- C15 witness: `Distinct(Sort([a + 1], Sort([a], T1)))` stays a `Distinct`,
the search not going beneath the outer `Sort`; in
`Distinct(CrossJoin(Sort([a + 1], T1), Sort([c], T2)))` the search continues
after the first `Sort`, records `c`, and the plan becomes `OrderedDistinct`. -/
theorem optimizeDistinct_recorded_witness :
    optimizeDistinct (.Distinct (.CrossJoin (.Sort [⟨samplePlus, false⟩] tableT1)
      (.Sort [⟨.GetField 0 .Int64 "T2" "c", false⟩] tableT2))) =
      .ok (.OrderedDistinct (.CrossJoin (.Sort [⟨samplePlus, false⟩] tableT1)
        (.Sort [⟨.GetField 0 .Int64 "T2" "c", false⟩] tableT2))) ∧
    (Node.Inspect optimizeDistinctVisit none (.Distinct (.Sort [⟨samplePlus, false⟩]
        (.Sort [⟨.GetField 0 .Int64 "T1" "a", false⟩] tableT1))) =
      .ok ((Node.Distinct (.Sort [⟨samplePlus, false⟩]
        (.Sort [⟨.GetField 0 .Int64 "T1" "a", false⟩] tableT1))).topSorts.findSome?
          sortKeyField)) :=
  ⟨rfl, (optimizeDistinct_recorded (.Sort [⟨samplePlus, false⟩]
    (.Sort [⟨.GetField 0 .Int64 "T1" "a", false⟩] tableT1))
    (.Distinct (.Sort [⟨samplePlus, false⟩]
      (.Sort [⟨.GetField 0 .Int64 "T1" "a", false⟩] tableT1))) rfl).1⟩

/-! ## Unresolved plans and schema preservation -/

/-- C17. For an unresolved plan `n`, each of `eraseProjection`,
`moveJoinConditionsToFilter`, `removeUnnecessaryConverts` and `evalFilter`
returns `n` itself and no error. -/
theorem unresolved_unchanged (b : Builtins) (n : Node) (h : n.Resolved = false) :
    eraseProjection n = .ok n ∧ moveJoinConditionsToFilter n = .ok n ∧
    removeUnnecessaryConverts n = .ok n ∧ evalFilter b n = .ok n := by
  simp [eraseProjection, moveJoinConditionsToFilter, removeUnnecessaryConverts, evalFilter, h]

/-- C17 witness: the unresolved plan `Filter(FALSE, Project([CAST(1 AS
Int64)], InnerJoin(t, T1, TRUE)))`, in which each rule would have something to
rewrite, is returned as it is by the four rules. -/
theorem unresolved_unchanged_witness :
    (Node.Filter (boolLit false) (.Project [.Convert (intLit 1) .Int64]
      (.InnerJoin (.UnresolvedTable "t") tableT1 (boolLit true)))).Resolved = false ∧
    eraseProjection (Node.Filter (boolLit false) (.Project [.Convert (intLit 1) .Int64]
      (.InnerJoin (.UnresolvedTable "t") tableT1 (boolLit true)))) =
      .ok (Node.Filter (boolLit false) (.Project [.Convert (intLit 1) .Int64]
        (.InnerJoin (.UnresolvedTable "t") tableT1 (boolLit true)))) ∧
    moveJoinConditionsToFilter (Node.Filter (boolLit false)
      (.Project [.Convert (intLit 1) .Int64]
        (.InnerJoin (.UnresolvedTable "t") tableT1 (boolLit true)))) =
      .ok (Node.Filter (boolLit false) (.Project [.Convert (intLit 1) .Int64]
        (.InnerJoin (.UnresolvedTable "t") tableT1 (boolLit true)))) ∧
    removeUnnecessaryConverts (Node.Filter (boolLit false)
      (.Project [.Convert (intLit 1) .Int64]
        (.InnerJoin (.UnresolvedTable "t") tableT1 (boolLit true)))) =
      .ok (Node.Filter (boolLit false) (.Project [.Convert (intLit 1) .Int64]
        (.InnerJoin (.UnresolvedTable "t") tableT1 (boolLit true)))) ∧
    evalFilter sampleBuiltins (Node.Filter (boolLit false)
      (.Project [.Convert (intLit 1) .Int64]
        (.InnerJoin (.UnresolvedTable "t") tableT1 (boolLit true)))) =
      .ok (Node.Filter (boolLit false) (.Project [.Convert (intLit 1) .Int64]
        (.InnerJoin (.UnresolvedTable "t") tableT1 (boolLit true)))) :=
  ⟨rfl, unresolved_unchanged sampleBuiltins _ rfl⟩

/-- C18. For a resolved plan on which `moveJoinConditionsToFilter` succeeds,
the schema of the returned plan is the schema of the input plan: the same
columns, with the same names, types and sources, in the same order. -/
theorem moveJoin_preserves_schema (n n' : Node) (_hres : n.Resolved = true)
    (h : moveJoinConditionsToFilter n = .ok n') : n'.Schema = n.Schema :=
  moveJoin_schema n n' h

/-- C18 witness: the inner join over `T1(a, b)` and `T2(c, d)` with the
predicate `a > 5 AND c < 10 AND b = d` is kept over its children wrapped in
filters, and the inner join with the predicate `a > 5` degenerates into a
cross join; the schema is `(a, b, c, d)` in both cases. -/
theorem moveJoin_preserves_schema_witness :
    (Node.InnerJoin
        (.Filter (compare2 ">" (.GetField 0 .Int64 "T1" "a") (intLit 5)) tableT1)
        (.Filter (compare2 "<" (.GetField 0 .Int64 "T2" "c") (intLit 10)) tableT2)
        (compare2 "=" (.GetField 1 .Int64 "T1" "b") (.GetField 3 .Int64 "T2" "d"))).Schema =
      (Node.InnerJoin tableT1 tableT2 sampleCond).Schema ∧
    (Node.CrossJoin
        (.Filter (compare2 ">" (.GetField 0 .Int64 "T1" "a") (intLit 5)) tableT1)
        tableT2).Schema =
      (Node.InnerJoin tableT1 tableT2
        (compare2 ">" (.GetField 0 .Int64 "T1" "a") (intLit 5))).Schema :=
  ⟨moveJoin_preserves_schema (.InnerJoin tableT1 tableT2 sampleCond) _ rfl rfl,
   moveJoin_preserves_schema (.InnerJoin tableT1 tableT2
      (compare2 ">" (.GetField 0 .Int64 "T1" "a") (intLit 5))) _ rfl rfl⟩

/-! ## Removal of unnecessary casts -/

/-- The expression function of `removeUnnecessaryConverts` never fails. -/
theorem removeConvertsExprFunc_total (e : Expr) :
    ∃ e', removeUnnecessaryConvertsExprFunc e = .ok e' := by
  unfold removeUnnecessaryConvertsExprFunc
  split
  · split <;> exact ⟨_, rfl⟩
  · exact ⟨_, rfl⟩

/-- The expression function of `removeUnnecessaryConverts` on a cast. -/
theorem removeConvertsExprFunc_convert (c : Expr) (t : Typ) :
    removeUnnecessaryConvertsExprFunc (.Convert c t) =
      .ok (if c.staticType = t then c else .Convert c t) := by
  simp only [removeUnnecessaryConvertsExprFunc, Expr.staticType]
  split <;> rfl

/-- The counter of a list of expressions is its length. -/
theorem countList_eq_length : ∀ es : List Expr, Expr.countList es = es.length
  | [] => rfl
  | _ :: es => by simp [Expr.countList, countList_eq_length es]

/-- The static type of a tuple is determined by the static types of its
elements. -/
theorem staticType_tuple_congr (es es' : List Expr)
    (h : List.Forall₂ (fun a b => b.staticType = a.staticType) es es') :
    (Expr.Tuple es').staticType = (Expr.Tuple es).staticType := by
  have hlen := h.length_eq
  cases h with
  | nil => rfl
  | cons h1 h2 =>
    cases h2 with
    | nil => simpa [Expr.staticType] using h1
    | cons h3 h4 =>
      simp only [Expr.staticType, countList_eq_length]
      rw [hlen]

mutual
/-- The removal of unnecessary casts keeps the static type of an
expression. -/
theorem removeConverts_type : ∀ e e' : Expr,
    e.TransformUp removeUnnecessaryConvertsExprFunc = .ok e' → e'.staticType = e.staticType
  | .Literal v t, e', h => by
    simp only [Expr.TransformUp, removeUnnecessaryConvertsExprFunc,
      Except.ok.injEq] at h
    rw [← h]
  | .GetField i t tbl n, e', h => by
    simp only [Expr.TransformUp, removeUnnecessaryConvertsExprFunc,
      Except.ok.injEq] at h
    rw [← h]
  | .UnresolvedColumn tbl n, e', h => by
    simp only [Expr.TransformUp, removeUnnecessaryConvertsExprFunc,
      Except.ok.injEq] at h
    rw [← h]
  | .And l r, e', h => by
    simp only [Expr.TransformUp] at h
    cases hl : l.TransformUp removeUnnecessaryConvertsExprFunc with
    | error err => simp [hl] at h
    | ok l' =>
      cases hr : r.TransformUp removeUnnecessaryConvertsExprFunc with
      | error err => simp [hl, hr] at h
      | ok r' =>
        simp only [hl, hr, removeUnnecessaryConvertsExprFunc,
          Except.ok.injEq] at h
        rw [← h]
        rfl
  | .Or l r, e', h => by
    simp only [Expr.TransformUp] at h
    cases hl : l.TransformUp removeUnnecessaryConvertsExprFunc with
    | error err => simp [hl] at h
    | ok l' =>
      cases hr : r.TransformUp removeUnnecessaryConvertsExprFunc with
      | error err => simp [hl, hr] at h
      | ok r' =>
        simp only [hl, hr, removeUnnecessaryConvertsExprFunc,
          Except.ok.injEq] at h
        rw [← h]
        rfl
  | .Convert c t, e', h => by
    simp only [Expr.TransformUp] at h
    cases hc : c.TransformUp removeUnnecessaryConvertsExprFunc with
    | error err => simp [hc] at h
    | ok c' =>
      simp only [hc, removeConvertsExprFunc_convert, Except.ok.injEq] at h
      rw [← h]
      split
      · rename_i ht
        simpa [Expr.staticType] using ht
      · rfl
  | .Tuple es, e', h => by
    simp only [Expr.TransformUp] at h
    cases hes : Expr.TransformUpList removeUnnecessaryConvertsExprFunc es with
    | error err => simp [hes] at h
    | ok es' =>
      simp only [hes, removeUnnecessaryConvertsExprFunc,
        Except.ok.injEq] at h
      rw [← h]
      exact staticType_tuple_congr es es' (removeConvertsList_type es es' hes)
  | .Interval c u, e', h => by
    simp only [Expr.TransformUp] at h
    cases hc : c.TransformUp removeUnnecessaryConvertsExprFunc with
    | error err => simp [hc] at h
    | ok c' =>
      simp only [hc, removeUnnecessaryConvertsExprFunc,
        Except.ok.injEq] at h
      rw [← h]
      rfl
  | .Call n t args, e', h => by
    simp only [Expr.TransformUp] at h
    cases hes : Expr.TransformUpList removeUnnecessaryConvertsExprFunc args with
    | error err => simp [hes] at h
    | ok es' =>
      simp only [hes, removeUnnecessaryConvertsExprFunc,
        Except.ok.injEq] at h
      rw [← h]
      rfl
/-- The list version of `removeConverts_type`. -/
theorem removeConvertsList_type : ∀ es es' : List Expr,
    Expr.TransformUpList removeUnnecessaryConvertsExprFunc es = .ok es' →
    List.Forall₂ (fun a b => b.staticType = a.staticType) es es'
  | [], es', h => by
    simp only [Expr.TransformUpList, Except.ok.injEq] at h
    rw [← h]
    exact List.Forall₂.nil
  | e :: es, es', h => by
    simp only [Expr.TransformUpList] at h
    cases he : e.TransformUp removeUnnecessaryConvertsExprFunc with
    | error err => simp [he] at h
    | ok e1 =>
      cases hes : Expr.TransformUpList removeUnnecessaryConvertsExprFunc es with
      | error err => simp [he, hes] at h
      | ok es1 =>
        simp only [he, hes, Except.ok.injEq] at h
        rw [← h]
        exact List.Forall₂.cons (removeConverts_type e e1 he) (removeConvertsList_type es es1 hes)
end

mutual
/-- The removal of unnecessary casts leaves no cast whose child has the target
type in an expression. -/
theorem removeConverts_clean : ∀ e e' : Expr,
    e.TransformUp removeUnnecessaryConvertsExprFunc = .ok e' → hasRedundantConvert e' = false
  | .Literal v t, e', h => by
    simp only [Expr.TransformUp, removeUnnecessaryConvertsExprFunc,
      Except.ok.injEq] at h
    rw [← h]
    rfl
  | .GetField i t tbl n, e', h => by
    simp only [Expr.TransformUp, removeUnnecessaryConvertsExprFunc,
      Except.ok.injEq] at h
    rw [← h]
    rfl
  | .UnresolvedColumn tbl n, e', h => by
    simp only [Expr.TransformUp, removeUnnecessaryConvertsExprFunc,
      Except.ok.injEq] at h
    rw [← h]
    rfl
  | .And l r, e', h => by
    simp only [Expr.TransformUp] at h
    cases hl : l.TransformUp removeUnnecessaryConvertsExprFunc with
    | error err => simp [hl] at h
    | ok l' =>
      cases hr : r.TransformUp removeUnnecessaryConvertsExprFunc with
      | error err => simp [hl, hr] at h
      | ok r' =>
        simp only [hl, hr, removeUnnecessaryConvertsExprFunc,
          Except.ok.injEq] at h
        rw [← h]
        simp [hasRedundantConvert, removeConverts_clean l l' hl, removeConverts_clean r r' hr]
  | .Or l r, e', h => by
    simp only [Expr.TransformUp] at h
    cases hl : l.TransformUp removeUnnecessaryConvertsExprFunc with
    | error err => simp [hl] at h
    | ok l' =>
      cases hr : r.TransformUp removeUnnecessaryConvertsExprFunc with
      | error err => simp [hl, hr] at h
      | ok r' =>
        simp only [hl, hr, removeUnnecessaryConvertsExprFunc,
          Except.ok.injEq] at h
        rw [← h]
        simp [hasRedundantConvert, removeConverts_clean l l' hl, removeConverts_clean r r' hr]
  | .Convert c t, e', h => by
    simp only [Expr.TransformUp] at h
    cases hc : c.TransformUp removeUnnecessaryConvertsExprFunc with
    | error err => simp [hc] at h
    | ok c' =>
      simp only [hc, removeConvertsExprFunc_convert, Except.ok.injEq] at h
      rw [← h]
      split
      · exact removeConverts_clean c c' hc
      · rename_i ht
        simp [hasRedundantConvert, removeConverts_clean c c' hc, ht]
  | .Tuple es, e', h => by
    simp only [Expr.TransformUp] at h
    cases hes : Expr.TransformUpList removeUnnecessaryConvertsExprFunc es with
    | error err => simp [hes] at h
    | ok es' =>
      simp only [hes, removeUnnecessaryConvertsExprFunc,
        Except.ok.injEq] at h
      rw [← h]
      simp [hasRedundantConvert, removeConvertsList_clean es es' hes]
  | .Interval c u, e', h => by
    simp only [Expr.TransformUp] at h
    cases hc : c.TransformUp removeUnnecessaryConvertsExprFunc with
    | error err => simp [hc] at h
    | ok c' =>
      simp only [hc, removeUnnecessaryConvertsExprFunc,
        Except.ok.injEq] at h
      rw [← h]
      simp [hasRedundantConvert, removeConverts_clean c c' hc]
  | .Call n t args, e', h => by
    simp only [Expr.TransformUp] at h
    cases hes : Expr.TransformUpList removeUnnecessaryConvertsExprFunc args with
    | error err => simp [hes] at h
    | ok es' =>
      simp only [hes, removeUnnecessaryConvertsExprFunc,
        Except.ok.injEq] at h
      rw [← h]
      simp [hasRedundantConvert, removeConvertsList_clean args es' hes]
/-- The list version of `removeConverts_clean`. -/
theorem removeConvertsList_clean : ∀ es es' : List Expr,
    Expr.TransformUpList removeUnnecessaryConvertsExprFunc es = .ok es' →
    hasRedundantConvertList es' = false
  | [], es', h => by
    simp only [Expr.TransformUpList, Except.ok.injEq] at h
    rw [← h]
    rfl
  | e :: es, es', h => by
    simp only [Expr.TransformUpList] at h
    cases he : e.TransformUp removeUnnecessaryConvertsExprFunc with
    | error err => simp [he] at h
    | ok e1 =>
      cases hes : Expr.TransformUpList removeUnnecessaryConvertsExprFunc es with
      | error err => simp [he, hes] at h
      | ok es1 =>
        simp only [he, hes, Except.ok.injEq] at h
        rw [← h]
        simp [hasRedundantConvertList, removeConverts_clean e e1 he,
          removeConvertsList_clean es es1 hes]
end

/-- A list without unnecessary cast has none in its members. -/
theorem hasRedundantConvertList_mem : ∀ es : List Expr, hasRedundantConvertList es = false →
    ∀ e ∈ es, hasRedundantConvert e = false
  | [], _, e, he => by cases he
  | x :: xs, h, e, he => by
    simp only [hasRedundantConvertList, Bool.or_eq_false_iff] at h
    rcases List.mem_cons.1 he with rfl | hm
    · exact h.1
    · exact hasRedundantConvertList_mem xs h.2 e hm

/-- The rewritten sort fields hold no unnecessary cast. -/
theorem transformSortFields_clean : ∀ fs fs' : List SortField,
    transformSortFields removeUnnecessaryConvertsExprFunc fs = .ok fs' →
    ∀ e ∈ fs'.map SortField.Column, hasRedundantConvert e = false
  | [], fs', h, e, he => by
    simp only [transformSortFields, Except.ok.injEq] at h
    rw [← h] at he
    cases he
  | sf :: rest, fs', h, e, he => by
    simp only [transformSortFields] at h
    cases hc : sf.Column.TransformUp removeUnnecessaryConvertsExprFunc with
    | error err => simp [hc] at h
    | ok c =>
      cases hr : transformSortFields removeUnnecessaryConvertsExprFunc rest with
      | error err => simp [hc, hr] at h
      | ok rest' =>
        simp only [hc, hr, Except.ok.injEq] at h
        rw [← h] at he
        rcases List.mem_cons.1 he with rfl | hm
        · exact removeConverts_clean _ _ hc
        · exact transformSortFields_clean rest rest' hr e hm

/-- The rewrite of the sort fields never fails when the expression function
never fails. -/
theorem transformSortFields_total (f : Expr → Except Error Expr)
    (hf : ∀ e, ∃ e', f e = .ok e') : ∀ fs : List SortField, ∃ fs', transformSortFields f fs = .ok fs'
  | [] => ⟨[], rfl⟩
  | sf :: rest => by
    obtain ⟨c, hc⟩ := exprTransformUp_total f hf sf.Column
    obtain ⟨rest', hr⟩ := transformSortFields_total f hf rest
    simp only [transformSortFields, hc, hr]
    exact ⟨_, rfl⟩

/-- The rewrite of the expressions of a node never fails when the expression
function never fails. -/
theorem transformExpressions_total (f : Expr → Except Error Expr)
    (hf : ∀ e, ∃ e', f e = .ok e') (n : Node) : ∃ n', Node.TransformExpressions f n = .ok n' := by
  rcases n with ⟨n, s⟩ | n | _ | ⟨e, c⟩ | ⟨es, c⟩ | ⟨l, r, cond⟩ | ⟨l, r⟩ | c | c | ⟨fs, c⟩
  case Filter =>
    obtain ⟨e', he⟩ := exprTransformUp_total f hf e
    simp only [Node.TransformExpressions, he]
    exact ⟨_, rfl⟩
  case Project =>
    obtain ⟨es', hes⟩ := exprTransformUpList_total f hf es
    simp only [Node.TransformExpressions, hes]
    exact ⟨_, rfl⟩
  case InnerJoin =>
    obtain ⟨e', he⟩ := exprTransformUp_total f hf cond
    simp only [Node.TransformExpressions, he]
    exact ⟨_, rfl⟩
  all_goals first
    | exact ⟨_, rfl⟩
    | (obtain ⟨fs', hfs⟩ := transformSortFields_total f hf fs
       simp only [Node.TransformExpressions, hfs]
       exact ⟨_, rfl⟩)

/-- The rule `removeUnnecessaryConverts` never fails. -/
theorem removeUnnecessaryConverts_total (n : Node) :
    ∃ n', removeUnnecessaryConverts n = .ok n' := by
  unfold removeUnnecessaryConverts
  split
  · exact ⟨_, rfl⟩
  · exact nodeTransformUp_total _
      (transformExpressions_total _ removeConvertsExprFunc_total) n

/-- The bottom-up rewrite of `removeUnnecessaryConverts` leaves no unnecessary
cast in the expressions of the nodes of the plan. -/
theorem removeConverts_transformUp_clean : ∀ n n' : Node,
    n.TransformUp (Node.TransformExpressions removeUnnecessaryConvertsExprFunc) = .ok n' →
    ∀ e ∈ n'.allExpressions, hasRedundantConvert e = false
  | .ResolvedTable n s, n', h, e, he => by
    simp only [Node.TransformUp, Node.TransformExpressions, Except.ok.injEq] at h
    rw [← h] at he
    cases he
  | .UnresolvedTable n, n', h, e, he => by
    simp only [Node.TransformUp, Node.TransformExpressions, Except.ok.injEq] at h
    rw [← h] at he
    cases he
  | .EmptyTable, n', h, e, he => by
    simp only [Node.TransformUp, Node.TransformExpressions, Except.ok.injEq] at h
    rw [← h] at he
    cases he
  | .Filter p c, n', h, e, he => by
    simp only [Node.TransformUp] at h
    cases hc : c.TransformUp (Node.TransformExpressions removeUnnecessaryConvertsExprFunc) with
    | error err => simp [hc] at h
    | ok c' =>
      cases hp : p.TransformUp removeUnnecessaryConvertsExprFunc with
      | error err => simp [hc, Node.TransformExpressions, hp] at h
      | ok p' =>
        simp only [hc, Node.TransformExpressions, hp, Except.ok.injEq] at h
        rw [← h] at he
        rcases List.mem_cons.1 he with rfl | hm
        · exact removeConverts_clean _ _ hp
        · exact removeConverts_transformUp_clean c c' hc e hm
  | .Project es c, n', h, e, he => by
    simp only [Node.TransformUp] at h
    cases hc : c.TransformUp (Node.TransformExpressions removeUnnecessaryConvertsExprFunc) with
    | error err => simp [hc] at h
    | ok c' =>
      cases hp : Expr.TransformUpList removeUnnecessaryConvertsExprFunc es with
      | error err => simp [hc, Node.TransformExpressions, hp] at h
      | ok es' =>
        simp only [hc, Node.TransformExpressions, hp, Except.ok.injEq] at h
        rw [← h] at he
        rcases List.mem_append.1 he with hm | hm
        · exact hasRedundantConvertList_mem es' (removeConvertsList_clean _ _ hp) e hm
        · exact removeConverts_transformUp_clean c c' hc e hm
  | .InnerJoin l r cond, n', h, e, he => by
    simp only [Node.TransformUp] at h
    cases hl : l.TransformUp (Node.TransformExpressions removeUnnecessaryConvertsExprFunc) with
    | error err => simp [hl] at h
    | ok l' =>
      cases hr : r.TransformUp (Node.TransformExpressions removeUnnecessaryConvertsExprFunc) with
      | error err => simp [hl, hr] at h
      | ok r' =>
        cases hp : cond.TransformUp removeUnnecessaryConvertsExprFunc with
        | error err => simp [hl, hr, Node.TransformExpressions, hp] at h
        | ok cond' =>
          simp only [hl, hr, Node.TransformExpressions, hp, Except.ok.injEq] at h
          rw [← h] at he
          rcases List.mem_cons.1 he with rfl | hm
          · exact removeConverts_clean _ _ hp
          · rcases List.mem_append.1 hm with hm | hm
            · exact removeConverts_transformUp_clean l l' hl e hm
            · exact removeConverts_transformUp_clean r r' hr e hm
  | .CrossJoin l r, n', h, e, he => by
    simp only [Node.TransformUp] at h
    cases hl : l.TransformUp (Node.TransformExpressions removeUnnecessaryConvertsExprFunc) with
    | error err => simp [hl] at h
    | ok l' =>
      cases hr : r.TransformUp (Node.TransformExpressions removeUnnecessaryConvertsExprFunc) with
      | error err => simp [hl, hr] at h
      | ok r' =>
        simp only [hl, hr, Node.TransformExpressions, Except.ok.injEq] at h
        rw [← h] at he
        rcases List.mem_append.1 he with hm | hm
        · exact removeConverts_transformUp_clean l l' hl e hm
        · exact removeConverts_transformUp_clean r r' hr e hm
  | .Distinct c, n', h, e, he => by
    simp only [Node.TransformUp] at h
    cases hc : c.TransformUp (Node.TransformExpressions removeUnnecessaryConvertsExprFunc) with
    | error err => simp [hc] at h
    | ok c' =>
      simp only [hc, Node.TransformExpressions, Except.ok.injEq] at h
      rw [← h] at he
      exact removeConverts_transformUp_clean c c' hc e he
  | .OrderedDistinct c, n', h, e, he => by
    simp only [Node.TransformUp] at h
    cases hc : c.TransformUp (Node.TransformExpressions removeUnnecessaryConvertsExprFunc) with
    | error err => simp [hc] at h
    | ok c' =>
      simp only [hc, Node.TransformExpressions, Except.ok.injEq] at h
      rw [← h] at he
      exact removeConverts_transformUp_clean c c' hc e he
  | .Sort fs c, n', h, e, he => by
    simp only [Node.TransformUp] at h
    cases hc : c.TransformUp (Node.TransformExpressions removeUnnecessaryConvertsExprFunc) with
    | error err => simp [hc] at h
    | ok c' =>
      cases hp : transformSortFields removeUnnecessaryConvertsExprFunc fs with
      | error err => simp [hc, Node.TransformExpressions, hp] at h
      | ok fs' =>
        simp only [hc, Node.TransformExpressions, hp, Except.ok.injEq] at h
        rw [← h] at he
        rcases List.mem_append.1 he with hm | hm
        · exact transformSortFields_clean fs fs' hp e hm
        · exact removeConverts_transformUp_clean c c' hc e hm

/-- C16. For a resolved plan, `removeUnnecessaryConverts` returns a plan, and
no expression of a node of that plan contains a cast whose child has the
target type of the cast as its static type.  The rewrite of a cast over a
child of the target type is the rewrite of the child; the rewrite of a cast
over a child of another type is the cast, with the same target type, over the
rewrite of the child, which has the static type of the child. -/
theorem removeUnnecessaryConverts_clean (n : Node) (hres : n.Resolved = true) :
    (∃ n', removeUnnecessaryConverts n = .ok n' ∧
      ∀ e ∈ n'.allExpressions, hasRedundantConvert e = false) ∧
    (∀ (c : Expr) (t : Typ), ∃ c',
      c.TransformUp removeUnnecessaryConvertsExprFunc = .ok c' ∧
      c'.staticType = c.staticType ∧
      (c.staticType = t →
        (Expr.Convert c t).TransformUp removeUnnecessaryConvertsExprFunc = .ok c') ∧
      (c.staticType ≠ t →
        (Expr.Convert c t).TransformUp removeUnnecessaryConvertsExprFunc =
          .ok (.Convert c' t))) := by
  constructor
  · obtain ⟨n', hn⟩ := removeUnnecessaryConverts_total n
    refine ⟨n', hn, ?_⟩
    simp only [removeUnnecessaryConverts, hres, Bool.not_true, Bool.false_eq_true, ↓reduceIte,
      Node.TransformExpressionsUp] at hn
    exact removeConverts_transformUp_clean n n' hn
  · intro c t
    obtain ⟨c', hc⟩ := exprTransformUp_total _ removeConvertsExprFunc_total c
    have ht := removeConverts_type c c' hc
    refine ⟨c', hc, ht, ?_, ?_⟩
    · intro h
      simp [Expr.TransformUp, hc, removeConvertsExprFunc_convert, ht, h]
    · intro h
      simp [Expr.TransformUp, hc, removeConvertsExprFunc_convert, ht, h]

/-- C16 witness: in `Project([CAST(CAST(a AS Int64) AS Int64), CAST(a AS
Text)], Filter(CAST(b AS Int64) = 1, T1))` the nested casts of `a` to its own
type and the cast of `b` are removed in the one pass, and the cast of `a` to
`Text` is kept. -/
theorem removeUnnecessaryConverts_clean_witness :
    removeUnnecessaryConverts
      (.Project [.Convert (.Convert (.GetField 0 .Int64 "T1" "a") .Int64) .Int64,
          .Convert (.GetField 0 .Int64 "T1" "a") .Text]
        (.Filter (compare2 "=" (.Convert (.GetField 1 .Int64 "T1" "b") .Int64) (intLit 1))
          tableT1)) =
      .ok (.Project [.GetField 0 .Int64 "T1" "a",
          .Convert (.GetField 0 .Int64 "T1" "a") .Text]
        (.Filter (compare2 "=" (.GetField 1 .Int64 "T1" "b") (intLit 1)) tableT1)) ∧
    ∃ n', removeUnnecessaryConverts
      (.Project [.Convert (.Convert (.GetField 0 .Int64 "T1" "a") .Int64) .Int64,
          .Convert (.GetField 0 .Int64 "T1" "a") .Text]
        (.Filter (compare2 "=" (.Convert (.GetField 1 .Int64 "T1" "b") .Int64) (intLit 1))
          tableT1)) = .ok n' ∧
      ∀ e ∈ n'.allExpressions, hasRedundantConvert e = false :=
  ⟨rfl, (removeUnnecessaryConverts_clean
    (.Project [.Convert (.Convert (.GetField 0 .Int64 "T1" "a") .Int64) .Int64,
        .Convert (.GetField 0 .Int64 "T1" "a") .Text]
      (.Filter (compare2 "=" (.Convert (.GetField 1 .Int64 "T1" "b") .Int64) (intLit 1))
        tableT1)) rfl).1⟩

/-! ## Schema of the plan returned by `evalFilter` -/

/-- The bottom-up rewrite of `evalFilter` keeps the schema of a plan in which
no `Filter` has a predicate that is rewritten to a literal false. -/
theorem evalFilter_transformUp_schema (b : Builtins) : ∀ n n' : Node,
    (∀ p ∈ n.filters, ∀ p', p.TransformUp (evalFilterExprFunc b) = .ok p' → isFalse p' = false) →
    n.TransformUp (evalFilterNodeFunc b) = .ok n' → n'.Schema = n.Schema
  | .ResolvedTable n s, n', _, h => by
    simp only [Node.TransformUp, evalFilterNodeFunc, Except.ok.injEq] at h
    rw [← h]
  | .UnresolvedTable n, n', _, h => by
    simp only [Node.TransformUp, evalFilterNodeFunc, Except.ok.injEq] at h
    rw [← h]
  | .EmptyTable, n', _, h => by
    simp only [Node.TransformUp, evalFilterNodeFunc, Except.ok.injEq] at h
    rw [← h]
  | .Filter p c, n', hno, h => by
    simp only [Node.TransformUp] at h
    cases hc : c.TransformUp (evalFilterNodeFunc b) with
    | error err => simp [hc] at h
    | ok c' =>
      have ih := evalFilter_transformUp_schema b c c'
        (fun q hq => hno q (by simp [Node.filters, hq])) hc
      cases hp : p.TransformUp (evalFilterExprFunc b) with
      | error err => simp [hc, evalFilterNodeFunc, hp] at h
      | ok p' =>
        have hf := hno p (by simp [Node.filters]) p' hp
        simp only [hc, evalFilterNodeFunc, hp, hf, Bool.false_eq_true, ↓reduceIte] at h
        split at h
        · simp only [Except.ok.injEq] at h
          rw [← h, ih]
          rfl
        · simp only [Except.ok.injEq] at h
          rw [← h]
          simp [Node.Schema, ih]
  | .Project es c, n', hno, h => by
    simp only [Node.TransformUp] at h
    cases hc : c.TransformUp (evalFilterNodeFunc b) with
    | error err => simp [hc] at h
    | ok c' =>
      simp only [hc, evalFilterNodeFunc, Except.ok.injEq] at h
      rw [← h]
      rfl
  | .InnerJoin l r cond, n', hno, h => by
    simp only [Node.TransformUp] at h
    cases hl : l.TransformUp (evalFilterNodeFunc b) with
    | error err => simp [hl] at h
    | ok l' =>
      cases hr : r.TransformUp (evalFilterNodeFunc b) with
      | error err => simp [hl, hr] at h
      | ok r' =>
        have ihl := evalFilter_transformUp_schema b l l'
          (fun q hq => hno q (by simp [Node.filters, hq])) hl
        have ihr := evalFilter_transformUp_schema b r r'
          (fun q hq => hno q (by simp [Node.filters, hq])) hr
        simp only [hl, hr, evalFilterNodeFunc, Except.ok.injEq] at h
        rw [← h]
        simp [Node.Schema, ihl, ihr]
  | .CrossJoin l r, n', hno, h => by
    simp only [Node.TransformUp] at h
    cases hl : l.TransformUp (evalFilterNodeFunc b) with
    | error err => simp [hl] at h
    | ok l' =>
      cases hr : r.TransformUp (evalFilterNodeFunc b) with
      | error err => simp [hl, hr] at h
      | ok r' =>
        have ihl := evalFilter_transformUp_schema b l l'
          (fun q hq => hno q (by simp [Node.filters, hq])) hl
        have ihr := evalFilter_transformUp_schema b r r'
          (fun q hq => hno q (by simp [Node.filters, hq])) hr
        simp only [hl, hr, evalFilterNodeFunc, Except.ok.injEq] at h
        rw [← h]
        simp [Node.Schema, ihl, ihr]
  | .Distinct c, n', hno, h => by
    simp only [Node.TransformUp] at h
    cases hc : c.TransformUp (evalFilterNodeFunc b) with
    | error err => simp [hc] at h
    | ok c' =>
      have ih := evalFilter_transformUp_schema b c c'
        (fun q hq => hno q (by simpa [Node.filters] using hq)) hc
      simp only [hc, evalFilterNodeFunc, Except.ok.injEq] at h
      rw [← h]
      simp [Node.Schema, ih]
  | .OrderedDistinct c, n', hno, h => by
    simp only [Node.TransformUp] at h
    cases hc : c.TransformUp (evalFilterNodeFunc b) with
    | error err => simp [hc] at h
    | ok c' =>
      have ih := evalFilter_transformUp_schema b c c'
        (fun q hq => hno q (by simpa [Node.filters] using hq)) hc
      simp only [hc, evalFilterNodeFunc, Except.ok.injEq] at h
      rw [← h]
      simp [Node.Schema, ih]
  | .Sort fs c, n', hno, h => by
    simp only [Node.TransformUp] at h
    cases hc : c.TransformUp (evalFilterNodeFunc b) with
    | error err => simp [hc] at h
    | ok c' =>
      have ih := evalFilter_transformUp_schema b c c'
        (fun q hq => hno q (by simpa [Node.filters] using hq)) hc
      simp only [hc, evalFilterNodeFunc, Except.ok.injEq] at h
      rw [← h]
      simp [Node.Schema, ih]

/-- C19 counterexample: the resolved plan `Filter(FALSE, T1)` has the schema
`(a, b)` of `T1`, and `evalFilter` returns `EmptyTable`, whose schema is the
fixed one without columns. -/
theorem evalFilter_schema_counterexample :
    ¬ (∀ (b : Builtins) (n n' : Node), n.Resolved = true → evalFilter b n = .ok n' →
      n'.Schema = n.Schema) := by
  intro h
  have h1 := h sampleBuiltins (.Filter (boolLit false) tableT1) .EmptyTable rfl rfl
  simp [Node.Schema, tableT1] at h1

/-- C19, amended. For a resolved plan in which no `Filter` has a predicate
that the predicate rewrite turns into a literal false, the schema of the plan
returned by `evalFilter` is the schema of the input plan.  A resolved `Filter`
whose rewritten predicate is a literal false is replaced by `EmptyTable`,
whose schema is its own fixed schema, the one without columns, whatever the
schema of the `Filter` was. -/
theorem evalFilter_schema (b : Builtins) :
    (∀ n n' : Node, n.Resolved = true →
      (∀ p ∈ n.filters, ∀ p', p.TransformUp (evalFilterExprFunc b) = .ok p' →
        isFalse p' = false) →
      evalFilter b n = .ok n' → n'.Schema = n.Schema) ∧
    (∀ (p : Expr) (c : Node) (p' : Expr), (Node.Filter p c).Resolved = true →
      p.TransformUp (evalFilterExprFunc b) = .ok p' → isFalse p' = true →
      evalFilter b (.Filter p c) = .ok .EmptyTable ∧ Node.EmptyTable.Schema = []) := by
  constructor
  · intro n n' hres hno h
    rw [evalFilter_of_resolved b n hres] at h
    exact evalFilter_transformUp_schema b n n' hno h
  · intro p c p' hres hp hf
    exact ⟨evalFilter_filter_false b p c p' hres hp hf, rfl⟩

/-- C19 witness: `Filter(a > 5 AND TRUE, Filter(1 = 1, T1))` is rewritten to
`Filter(a > 5, T1)` and keeps the schema `(a, b)`; `Filter(1 = 2, T1)` is
rewritten to `EmptyTable`. -/
theorem evalFilter_schema_witness :
    evalFilter sampleBuiltins
        (.Filter (.And (compare2 ">" (.GetField 0 .Int64 "T1" "a") (intLit 5)) (boolLit true))
          (.Filter (compare2 "=" (intLit 1) (intLit 1)) tableT1)) =
      .ok (.Filter (compare2 ">" (.GetField 0 .Int64 "T1" "a") (intLit 5)) tableT1) ∧
    (Node.Filter (compare2 ">" (.GetField 0 .Int64 "T1" "a") (intLit 5)) tableT1).Schema =
      (Node.Filter (.And (compare2 ">" (.GetField 0 .Int64 "T1" "a") (intLit 5)) (boolLit true))
        (.Filter (compare2 "=" (intLit 1) (intLit 1)) tableT1)).Schema ∧
    (evalFilter sampleBuiltins (.Filter (compare2 "=" (intLit 1) (intLit 2)) tableT1) =
      .ok .EmptyTable ∧ Node.EmptyTable.Schema = []) :=
  ⟨rfl,
   (evalFilter_schema sampleBuiltins).1
     (.Filter (.And (compare2 ">" (.GetField 0 .Int64 "T1" "a") (intLit 5)) (boolLit true))
       (.Filter (compare2 "=" (intLit 1) (intLit 1)) tableT1)) _ rfl
     (by
       intro p hp p' hp'
       simp only [Node.filters, List.mem_cons, List.mem_nil_iff, or_false] at hp
       rcases hp with rfl | rfl
       · cases hp'
         rfl
       · cases hp'
         rfl) rfl,
   (evalFilter_schema sampleBuiltins).2 (compare2 "=" (intLit 1) (intLit 2)) tableT1
     (boolLit false) rfl rfl rfl⟩

/-! ## Idempotence of `evalFilter` -/

/-- The rewrite of a node of the default kind, here a cast: the node is kept
when it is not evaluable or its evaluation fails, and becomes a literal
otherwise. -/
theorem evalFilterExprFunc_keep (b : Builtins) (e e' : Expr)
    (hd : (∃ c t, e = .Convert c t) ∨ (∃ n t args, e = .Call n t args))
    (h : evalFilterExprFunc b e = .ok e') :
    (e' = e ∧ (!isEvaluable e || evalFails b e) = true) ∨ ∃ v ty, e' = .Literal v ty := by
  have hdef : evalFilterExprFunc b e =
      (if !isEvaluable e then .ok e
       else match e.Eval b [] with
        | .error _ => .ok e
        | .ok val => .ok (.Literal val e.staticType)) := by
    rcases hd with ⟨c, t, rfl⟩ | ⟨n, t, args, rfl⟩ <;> rfl
  rw [hdef] at h
  by_cases hev : isEvaluable e = true
  · simp only [hev, Bool.not_true, Bool.false_eq_true, ↓reduceIte] at h
    cases hE : e.Eval b [] with
    | error err =>
      simp only [hE, Except.ok.injEq] at h
      left
      refine ⟨h.symm, ?_⟩
      simp [evalFails, hE]
    | ok v =>
      simp only [hE, Except.ok.injEq] at h
      right
      exact ⟨_, _, h.symm⟩
  · simp only [Bool.not_eq_true] at hev
    simp only [hev, Bool.not_false, ↓reduceIte, Except.ok.injEq] at h
    left
    refine ⟨h.symm, ?_⟩
    simp [hev]

/-- A node of the default kind that is not evaluable, or whose evaluation
fails, is its own rewrite. -/
theorem evalFilterExprFunc_fixed (b : Builtins) (e : Expr)
    (hd : (∃ c t, e = .Convert c t) ∨ (∃ n t args, e = .Call n t args))
    (h : (!isEvaluable e || evalFails b e) = true) :
    evalFilterExprFunc b e = .ok e := by
  have hdef : evalFilterExprFunc b e =
      (if !isEvaluable e then .ok e
       else match e.Eval b [] with
        | .error _ => .ok e
        | .ok val => .ok (.Literal val e.staticType)) := by
    rcases hd with ⟨c, t, rfl⟩ | ⟨n, t, args, rfl⟩ <;> rfl
  rw [hdef]
  by_cases hev : isEvaluable e = true
  · simp only [hev, Bool.not_true, Bool.false_eq_true, ↓reduceIte]
    simp only [hev, Bool.not_true, Bool.false_or, evalFails] at h
    cases hE : e.Eval b [] with
    | error err => rfl
    | ok v => simp [hE] at h
  · simp only [Bool.not_eq_true] at hev
    simp [hev]

/-- A literal has nothing left to simplify. -/
theorem isSimplified_literal (b : Builtins) (e : Expr) (h : ∃ v t, e = .Literal v t) :
    isSimplified b e = true := by
  obtain ⟨v, t, rfl⟩ := h
  rfl

mutual
/-- The predicate rewrite of `evalFilter` returns an expression in which
nothing is left to simplify. -/
theorem evalFilter_rewrite_simplified (b : Builtins) : ∀ e e' : Expr,
    e.TransformUp (evalFilterExprFunc b) = .ok e' → isSimplified b e' = true
  | .Literal v t, e', h => by
    simp only [Expr.TransformUp, evalFilterExprFunc, Except.ok.injEq] at h
    rw [← h]
    rfl
  | .GetField i t tbl n, e', h => by
    have h2 : e' = .GetField i t tbl n := by
      simpa [Expr.TransformUp, evalFilterExprFunc, isEvaluable, containsColumns] using h.symm
    rw [h2]
    rfl
  | .UnresolvedColumn tbl n, e', h => by
    have h2 : e' = .UnresolvedColumn tbl n := by
      simpa [Expr.TransformUp, evalFilterExprFunc, isEvaluable, containsColumns] using h.symm
    rw [h2]
    rfl
  | .And l r, e', h => by
    simp only [Expr.TransformUp] at h
    cases hl : l.TransformUp (evalFilterExprFunc b) with
    | error err => simp [hl] at h
    | ok L =>
      cases hr : r.TransformUp (evalFilterExprFunc b) with
      | error err => simp [hl, hr] at h
      | ok R =>
        have ihl := evalFilter_rewrite_simplified b l L hl
        have ihr := evalFilter_rewrite_simplified b r R hr
        simp only [hl, hr, evalFilterExprFunc_and, Except.ok.injEq] at h
        rw [← h]
        by_cases h1 : isFalse L = true
        · simpa [h1] using ihl
        · by_cases h2 : isFalse R = true
          · simpa [h1, h2] using ihr
          · by_cases h3 : isTrue L = true
            · simpa [h1, h2, h3] using ihr
            · by_cases h4 : isTrue R = true
              · simpa [h1, h2, h3, h4] using ihl
              · simp [h1, h2, h3, h4, isSimplified, ihl, ihr]
  | .Or l r, e', h => by
    simp only [Expr.TransformUp] at h
    cases hl : l.TransformUp (evalFilterExprFunc b) with
    | error err => simp [hl] at h
    | ok L =>
      cases hr : r.TransformUp (evalFilterExprFunc b) with
      | error err => simp [hl, hr] at h
      | ok R =>
        have ihl := evalFilter_rewrite_simplified b l L hl
        have ihr := evalFilter_rewrite_simplified b r R hr
        simp only [hl, hr, evalFilterExprFunc_or, Except.ok.injEq] at h
        rw [← h]
        by_cases h1 : isTrue L = true
        · simpa [h1] using ihl
        · by_cases h2 : isTrue R = true
          · simpa [h1, h2] using ihr
          · by_cases h3 : isFalse L = true
            · simpa [h1, h2, h3] using ihr
            · by_cases h4 : isFalse R = true
              · simpa [h1, h2, h3, h4] using ihl
              · simp [h1, h2, h3, h4, isSimplified, ihl, ihr]
  | .Convert c t, e', h => by
    simp only [Expr.TransformUp] at h
    cases hc : c.TransformUp (evalFilterExprFunc b) with
    | error err => simp [hc] at h
    | ok c' =>
      have ih := evalFilter_rewrite_simplified b c c' hc
      simp only [hc] at h
      rcases evalFilterExprFunc_keep b _ e' (Or.inl ⟨_, _, rfl⟩) h with ⟨h1, h2⟩ | hlit
      · rw [h1]
        simp only [isSimplified, Bool.and_eq_true]
        exact ⟨h2, ih⟩
      · exact isSimplified_literal b e' hlit
  | .Tuple es, e', h => by
    simp only [Expr.TransformUp] at h
    cases hes : Expr.TransformUpList (evalFilterExprFunc b) es with
    | error err => simp [hes] at h
    | ok es' =>
      simp only [hes, evalFilterExprFunc, Except.ok.injEq] at h
      rw [← h]
      simpa [isSimplified] using evalFilter_rewriteList_simplified b es es' hes
  | .Interval c u, e', h => by
    simp only [Expr.TransformUp] at h
    cases hc : c.TransformUp (evalFilterExprFunc b) with
    | error err => simp [hc] at h
    | ok c' =>
      simp only [hc, evalFilterExprFunc, Except.ok.injEq] at h
      rw [← h]
      simpa [isSimplified] using evalFilter_rewrite_simplified b c c' hc
  | .Call n t args, e', h => by
    simp only [Expr.TransformUp] at h
    cases hes : Expr.TransformUpList (evalFilterExprFunc b) args with
    | error err => simp [hes] at h
    | ok es' =>
      have ih := evalFilter_rewriteList_simplified b args es' hes
      simp only [hes] at h
      rcases evalFilterExprFunc_keep b _ e' (Or.inr ⟨_, _, _, rfl⟩) h with ⟨h1, h2⟩ | hlit
      · rw [h1]
        simp only [isSimplified, Bool.and_eq_true]
        exact ⟨h2, ih⟩
      · exact isSimplified_literal b e' hlit
/-- The list version of `evalFilter_rewrite_simplified`. -/
theorem evalFilter_rewriteList_simplified (b : Builtins) : ∀ es es' : List Expr,
    Expr.TransformUpList (evalFilterExprFunc b) es = .ok es' → isSimplifiedList b es' = true
  | [], es', h => by
    simp only [Expr.TransformUpList, Except.ok.injEq] at h
    rw [← h]
    rfl
  | e :: es, es', h => by
    simp only [Expr.TransformUpList] at h
    cases he : e.TransformUp (evalFilterExprFunc b) with
    | error err => simp [he] at h
    | ok e1 =>
      cases hes : Expr.TransformUpList (evalFilterExprFunc b) es with
      | error err => simp [he, hes] at h
      | ok es1 =>
        simp only [he, hes, Except.ok.injEq] at h
        rw [← h]
        simp [isSimplifiedList, evalFilter_rewrite_simplified b e e1 he,
          evalFilter_rewriteList_simplified b es es1 hes]
end

mutual
/-- An expression in which nothing is left to simplify is its own rewrite. -/
theorem evalFilter_rewrite_fixed (b : Builtins) : ∀ e : Expr,
    isSimplified b e = true → e.TransformUp (evalFilterExprFunc b) = .ok e
  | .Literal v t, _ => by simp [Expr.TransformUp, evalFilterExprFunc]
  | .GetField i t tbl n, _ => by
    simp [Expr.TransformUp, evalFilterExprFunc, isEvaluable, containsColumns]
  | .UnresolvedColumn tbl n, _ => by
    simp [Expr.TransformUp, evalFilterExprFunc, isEvaluable, containsColumns]
  | .And l r, h => by
    simp only [isSimplified, Bool.and_eq_true, Bool.not_eq_true'] at h
    obtain ⟨⟨⟨⟨⟨h1, h2⟩, h3⟩, h4⟩, h5⟩, h6⟩ := h
    simp [Expr.TransformUp, evalFilter_rewrite_fixed b l h5, evalFilter_rewrite_fixed b r h6,
      evalFilterExprFunc_and, h1, h2, h3, h4]
  | .Or l r, h => by
    simp only [isSimplified, Bool.and_eq_true, Bool.not_eq_true'] at h
    obtain ⟨⟨⟨⟨⟨h1, h2⟩, h3⟩, h4⟩, h5⟩, h6⟩ := h
    simp [Expr.TransformUp, evalFilter_rewrite_fixed b l h5, evalFilter_rewrite_fixed b r h6,
      evalFilterExprFunc_or, h1, h2, h3, h4]
  | .Convert c t, h => by
    simp only [isSimplified, Bool.and_eq_true] at h
    simp only [Expr.TransformUp, evalFilter_rewrite_fixed b c h.2]
    exact evalFilterExprFunc_fixed b _ (Or.inl ⟨_, _, rfl⟩) h.1
  | .Tuple es, h => by
    simp only [isSimplified] at h
    simp [Expr.TransformUp, evalFilter_rewriteList_fixed b es h, evalFilterExprFunc]
  | .Interval c u, h => by
    simp only [isSimplified] at h
    simp [Expr.TransformUp, evalFilter_rewrite_fixed b c h, evalFilterExprFunc]
  | .Call n t args, h => by
    simp only [isSimplified, Bool.and_eq_true] at h
    simp only [Expr.TransformUp, evalFilter_rewriteList_fixed b args h.2]
    exact evalFilterExprFunc_fixed b _ (Or.inr ⟨_, _, _, rfl⟩) h.1
/-- The list version of `evalFilter_rewrite_fixed`. -/
theorem evalFilter_rewriteList_fixed (b : Builtins) : ∀ es : List Expr,
    isSimplifiedList b es = true → Expr.TransformUpList (evalFilterExprFunc b) es = .ok es
  | [], _ => rfl
  | e :: es, h => by
    simp only [isSimplifiedList, Bool.and_eq_true] at h
    simp [Expr.TransformUpList, evalFilter_rewrite_fixed b e h.1,
      evalFilter_rewriteList_fixed b es h.2]
end

/-- The bottom-up rewrite of `evalFilter` returns a plan in which nothing is
left to simplify in the `Filter` nodes. -/
theorem evalFilter_transformUp_simplified (b : Builtins) : ∀ n n' : Node,
    n.TransformUp (evalFilterNodeFunc b) = .ok n' → n'.filtersSimplified b = true
  | .ResolvedTable n s, n', h => by
    simp only [Node.TransformUp, evalFilterNodeFunc, Except.ok.injEq] at h
    rw [← h]
    rfl
  | .UnresolvedTable n, n', h => by
    simp only [Node.TransformUp, evalFilterNodeFunc, Except.ok.injEq] at h
    rw [← h]
    rfl
  | .EmptyTable, n', h => by
    simp only [Node.TransformUp, evalFilterNodeFunc, Except.ok.injEq] at h
    rw [← h]
    rfl
  | .Filter p c, n', h => by
    simp only [Node.TransformUp] at h
    cases hc : c.TransformUp (evalFilterNodeFunc b) with
    | error err => simp [hc] at h
    | ok c' =>
      have ih := evalFilter_transformUp_simplified b c c' hc
      cases hp : p.TransformUp (evalFilterExprFunc b) with
      | error err => simp [hc, evalFilterNodeFunc, hp] at h
      | ok p' =>
        have hs := evalFilter_rewrite_simplified b p p' hp
        simp only [hc, evalFilterNodeFunc, hp] at h
        by_cases h1 : isFalse p' = true
        · simp only [h1, ↓reduceIte, Except.ok.injEq] at h
          rw [← h]
          rfl
        · by_cases h2 : isTrue p' = true
          · simp only [h1, h2, Bool.false_eq_true, ↓reduceIte, Except.ok.injEq] at h
            rw [← h]
            exact ih
          · simp only [h1, h2, Bool.false_eq_true, ↓reduceIte, Except.ok.injEq] at h
            rw [← h]
            simp [Node.filtersSimplified, h1, h2, hs, ih]
  | .Project es c, n', h => by
    simp only [Node.TransformUp] at h
    cases hc : c.TransformUp (evalFilterNodeFunc b) with
    | error err => simp [hc] at h
    | ok c' =>
      simp only [hc, evalFilterNodeFunc, Except.ok.injEq] at h
      rw [← h]
      simpa [Node.filtersSimplified] using evalFilter_transformUp_simplified b c c' hc
  | .InnerJoin l r cond, n', h => by
    simp only [Node.TransformUp] at h
    cases hl : l.TransformUp (evalFilterNodeFunc b) with
    | error err => simp [hl] at h
    | ok l' =>
      cases hr : r.TransformUp (evalFilterNodeFunc b) with
      | error err => simp [hl, hr] at h
      | ok r' =>
        simp only [hl, hr, evalFilterNodeFunc, Except.ok.injEq] at h
        rw [← h]
        simp [Node.filtersSimplified, evalFilter_transformUp_simplified b l l' hl,
          evalFilter_transformUp_simplified b r r' hr]
  | .CrossJoin l r, n', h => by
    simp only [Node.TransformUp] at h
    cases hl : l.TransformUp (evalFilterNodeFunc b) with
    | error err => simp [hl] at h
    | ok l' =>
      cases hr : r.TransformUp (evalFilterNodeFunc b) with
      | error err => simp [hl, hr] at h
      | ok r' =>
        simp only [hl, hr, evalFilterNodeFunc, Except.ok.injEq] at h
        rw [← h]
        simp [Node.filtersSimplified, evalFilter_transformUp_simplified b l l' hl,
          evalFilter_transformUp_simplified b r r' hr]
  | .Distinct c, n', h => by
    simp only [Node.TransformUp] at h
    cases hc : c.TransformUp (evalFilterNodeFunc b) with
    | error err => simp [hc] at h
    | ok c' =>
      simp only [hc, evalFilterNodeFunc, Except.ok.injEq] at h
      rw [← h]
      simpa [Node.filtersSimplified] using evalFilter_transformUp_simplified b c c' hc
  | .OrderedDistinct c, n', h => by
    simp only [Node.TransformUp] at h
    cases hc : c.TransformUp (evalFilterNodeFunc b) with
    | error err => simp [hc] at h
    | ok c' =>
      simp only [hc, evalFilterNodeFunc, Except.ok.injEq] at h
      rw [← h]
      simpa [Node.filtersSimplified] using evalFilter_transformUp_simplified b c c' hc
  | .Sort fs c, n', h => by
    simp only [Node.TransformUp] at h
    cases hc : c.TransformUp (evalFilterNodeFunc b) with
    | error err => simp [hc] at h
    | ok c' =>
      simp only [hc, evalFilterNodeFunc, Except.ok.injEq] at h
      rw [← h]
      simpa [Node.filtersSimplified] using evalFilter_transformUp_simplified b c c' hc

/-- A plan in which nothing is left to simplify in the `Filter` nodes is its
own bottom-up rewrite. -/
theorem evalFilter_transformUp_fixed (b : Builtins) : ∀ n : Node,
    n.filtersSimplified b = true → n.TransformUp (evalFilterNodeFunc b) = .ok n
  | .ResolvedTable n s, _ => rfl
  | .UnresolvedTable n, _ => rfl
  | .EmptyTable, _ => rfl
  | .Filter p c, h => by
    simp only [Node.filtersSimplified, Bool.and_eq_true, Bool.not_eq_true'] at h
    obtain ⟨⟨⟨h1, h2⟩, h3⟩, h4⟩ := h
    simp [Node.TransformUp, evalFilter_transformUp_fixed b c h4, evalFilterNodeFunc,
      evalFilter_rewrite_fixed b p h3, h1, h2]
  | .Project es c, h => by
    simp only [Node.filtersSimplified] at h
    simp [Node.TransformUp, evalFilter_transformUp_fixed b c h, evalFilterNodeFunc]
  | .InnerJoin l r cond, h => by
    simp only [Node.filtersSimplified, Bool.and_eq_true] at h
    simp [Node.TransformUp, evalFilter_transformUp_fixed b l h.1,
      evalFilter_transformUp_fixed b r h.2, evalFilterNodeFunc]
  | .CrossJoin l r, h => by
    simp only [Node.filtersSimplified, Bool.and_eq_true] at h
    simp [Node.TransformUp, evalFilter_transformUp_fixed b l h.1,
      evalFilter_transformUp_fixed b r h.2, evalFilterNodeFunc]
  | .Distinct c, h => by
    simp only [Node.filtersSimplified] at h
    simp [Node.TransformUp, evalFilter_transformUp_fixed b c h, evalFilterNodeFunc]
  | .OrderedDistinct c, h => by
    simp only [Node.filtersSimplified] at h
    simp [Node.TransformUp, evalFilter_transformUp_fixed b c h, evalFilterNodeFunc]
  | .Sort fs c, h => by
    simp only [Node.filtersSimplified] at h
    simp [Node.TransformUp, evalFilter_transformUp_fixed b c h, evalFilterNodeFunc]

/-- C20. `evalFilter` is idempotent: for a resolved plan `p` on which it
returns `p'`, it returns `p'` on `p'`.  Nothing is left to simplify in `p'`:
no `Filter` has a predicate that is a literal true or a literal false, and in
the predicate of a `Filter` no `And` or `Or` has an operand that is a literal
true or a literal false, and no node of a kind that the rule folds (a node
other than `And`, `Or`, a literal, a tuple and an interval) is evaluable with
an evaluation that succeeds.  The evaluation of an expression is a function
of the expression. -/
theorem evalFilter_idempotent (b : Builtins) (p p' : Node) (hres : p.Resolved = true)
    (h : evalFilter b p = .ok p') :
    evalFilter b p' = .ok p' ∧ p'.filtersSimplified b = true := by
  rw [evalFilter_of_resolved b p hres] at h
  have hs := evalFilter_transformUp_simplified b p p' h
  refine ⟨?_, hs⟩
  unfold evalFilter
  split
  · rfl
  · exact evalFilter_transformUp_fixed b p' hs

/-- C20 witness: `Filter((a > 5 AND TRUE) OR 1 = 2, Filter(1 = 1,
Filter(1 + 1 = a, T1)))`, with `+` unknown to the sample functions, is
rewritten in one pass to `Filter(a > 5, Filter(1 + 1 = a, T1))`, which
`evalFilter` returns as it is. -/
theorem evalFilter_idempotent_witness :
    evalFilter sampleBuiltins
      (.Filter (.Or (.And (compare2 ">" (.GetField 0 .Int64 "T1" "a") (intLit 5)) (boolLit true))
          (compare2 "=" (intLit 1) (intLit 2)))
        (.Filter (compare2 "=" (intLit 1) (intLit 1))
          (.Filter (compare2 "=" (.Call "+" .Int64 [intLit 1, intLit 1])
            (.GetField 0 .Int64 "T1" "a")) tableT1))) =
      .ok (.Filter (compare2 ">" (.GetField 0 .Int64 "T1" "a") (intLit 5))
        (.Filter (compare2 "=" (.Call "+" .Int64 [intLit 1, intLit 1])
          (.GetField 0 .Int64 "T1" "a")) tableT1)) ∧
    (evalFilter sampleBuiltins
      (.Filter (compare2 ">" (.GetField 0 .Int64 "T1" "a") (intLit 5))
        (.Filter (compare2 "=" (.Call "+" .Int64 [intLit 1, intLit 1])
          (.GetField 0 .Int64 "T1" "a")) tableT1)) =
      .ok (.Filter (compare2 ">" (.GetField 0 .Int64 "T1" "a") (intLit 5))
        (.Filter (compare2 "=" (.Call "+" .Int64 [intLit 1, intLit 1])
          (.GetField 0 .Int64 "T1" "a")) tableT1)) ∧
     (Node.Filter (compare2 ">" (.GetField 0 .Int64 "T1" "a") (intLit 5))
        (.Filter (compare2 "=" (.Call "+" .Int64 [intLit 1, intLit 1])
          (.GetField 0 .Int64 "T1" "a")) tableT1)).filtersSimplified sampleBuiltins = true) :=
  ⟨rfl, evalFilter_idempotent sampleBuiltins
    (.Filter (.Or (.And (compare2 ">" (.GetField 0 .Int64 "T1" "a") (intLit 5)) (boolLit true))
        (compare2 "=" (intLit 1) (intLit 2)))
      (.Filter (compare2 "=" (intLit 1) (intLit 1))
        (.Filter (compare2 "=" (.Call "+" .Int64 [intLit 1, intLit 1])
          (.GetField 0 .Int64 "T1" "a")) tableT1))) _ rfl rfl⟩

/-! ## Source sets -/

/-- The members of `firstOccurrences xs` are the members of `xs`. -/
theorem mem_firstOccurrences (s : String) : ∀ xs : List String,
    s ∈ firstOccurrences xs ↔ s ∈ xs
  | [] => by simp [firstOccurrences]
  | x :: xs => by
    simp only [firstOccurrences, List.mem_cons, List.mem_filter, mem_firstOccurrences s xs,
      decide_eq_true_eq]
    constructor
    · rintro (h | ⟨h, _⟩)
      · exact Or.inl h
      · exact Or.inr h
    · rintro (h | h)
      · exact Or.inl h
      · by_cases hx : s = x
        · exact Or.inl hx
        · exact Or.inr ⟨h, hx⟩

/-- No member of `firstOccurrences xs` is listed twice. -/
theorem nodup_firstOccurrences : ∀ xs : List String, (firstOccurrences xs).Nodup
  | [] => by simp [firstOccurrences]
  | x :: xs => by
    simp only [firstOccurrences, List.nodup_cons, List.mem_filter, decide_eq_true_eq]
    exact ⟨fun h => h.2 rfl, (nodup_firstOccurrences xs).filter _⟩

/-- The loop that appends the sources not seen before lists the sources in the
order of their first occurrence. -/
theorem foldl_addSource (xs : List String) : ∀ acc : List String,
    xs.foldl addSource acc =
      acc ++ (firstOccurrences xs).filter (fun y => decide (y ∉ acc)) := by
  induction xs with
  | nil => intro acc; simp [firstOccurrences]
  | cons x xs ih =>
    intro acc
    rw [List.foldl_cons, ih]
    simp only [addSource, firstOccurrences]
    by_cases hx : x ∈ acc
    · simp only [hx, ↓reduceIte, List.filter_cons, not_true_eq_false, decide_False,
        Bool.false_eq_true, List.filter_filter, List.append_cancel_left_eq]
      apply List.filter_congr
      intro y _
      by_cases hy : y ∈ acc
      · simp [hy]
      · have : y ≠ x := fun h => hy (h ▸ hx)
        simp [hy, this]
    · simp only [hx, ↓reduceIte, List.filter_cons, not_false_eq_true, decide_True,
        List.filter_filter, List.append_assoc, List.singleton_append, List.append_cancel_left_eq,
        List.cons.injEq, true_and]
      apply List.filter_congr
      intro y _
      by_cases hy : y ∈ acc
      · simp [hy]
      · by_cases hyx : y = x
        · simp [hyx]
        · simp [hy, hyx]

/-- The loop of `nodeSources` is the loop over the sources of the columns. -/
theorem foldl_addSource_schema (S : Schema) (acc : List String) :
    S.foldl (fun result col => addSource result col.Source) acc =
      (S.map Column.Source).foldl addSource acc := by
  rw [List.foldl_map]

mutual
/-- The visit of `expressionSources` is the loop over the tables of the column
references of the expression, in the order of the visit. -/
theorem expressionSourcesVisit_eq : ∀ (e : Expr) (result : List String),
    expressionSourcesVisit result e =
      ((exprFields e).map (fun f => f.2.1)).foldl addSource result
  | .Literal v t, result => by simp [expressionSourcesVisit, exprFields]
  | .GetField i t tbl n, result => by simp [expressionSourcesVisit, exprFields]
  | .UnresolvedColumn tbl n, result => by simp [expressionSourcesVisit, exprFields]
  | .And l r, result => by
    simp [expressionSourcesVisit, exprFields, expressionSourcesVisit_eq l,
      expressionSourcesVisit_eq r]
  | .Or l r, result => by
    simp [expressionSourcesVisit, exprFields, expressionSourcesVisit_eq l,
      expressionSourcesVisit_eq r]
  | .Convert c t, result => by
    simp [expressionSourcesVisit, exprFields, expressionSourcesVisit_eq c]
  | .Tuple es, result => by
    simp [expressionSourcesVisit, exprFields, expressionSourcesVisitList_eq es]
  | .Interval c u, result => by
    simp [expressionSourcesVisit, exprFields, expressionSourcesVisit_eq c]
  | .Call n t args, result => by
    simp [expressionSourcesVisit, exprFields, expressionSourcesVisitList_eq args]
/-- The list version of `expressionSourcesVisit_eq`. -/
theorem expressionSourcesVisitList_eq : ∀ (es : List Expr) (result : List String),
    expressionSourcesVisitList result es =
      ((exprFieldsList es).map (fun f => f.2.1)).foldl addSource result
  | [], result => by simp [expressionSourcesVisitList, exprFieldsList]
  | e :: es, result => by
    simp [expressionSourcesVisitList, exprFieldsList, expressionSourcesVisit_eq e,
      expressionSourcesVisitList_eq es]
end

/-- C22. The function `nodeSources` returns the source set of the schema of
the node, and `expressionSources` the source set of the column references
(`GetField`) inside the expression: the table qualifiers of the columns, and
of the column references in the order in which the visit meets them, each
listed once and in the order of first occurrence.  A source set has exactly
the qualifiers of the list it is taken from, and none twice. -/
theorem sources_spec :
    (∀ n : Node, nodeSources n = firstOccurrences (n.Schema.map Column.Source)) ∧
    (∀ e : Expr, expressionSources e = firstOccurrences ((exprFields e).map (fun f => f.2.1))) ∧
    (∀ xs : List String, (firstOccurrences xs).Nodup ∧ ∀ s, s ∈ firstOccurrences xs ↔ s ∈ xs) := by
  refine ⟨?_, ?_, ?_⟩
  · intro n
    simp [nodeSources, foldl_addSource_schema, foldl_addSource]
  · intro e
    simp [expressionSources, expressionSourcesVisit_eq, foldl_addSource]
  · intro xs
    exact ⟨nodup_firstOccurrences xs, fun s => mem_firstOccurrences s xs⟩

/-- C22 witness: the sources of `CrossJoin(T2, CrossJoin(T1, T2))`, whose
schema is `(c, d, a, b, c, d)`, are `T2, T1`; the sources of `T1.a > 5 AND
T2.c < 10 AND T1.b = T2.d` are `T1, T2`. -/
theorem sources_spec_witness :
    nodeSources (.CrossJoin tableT2 (.CrossJoin tableT1 tableT2)) = ["T2", "T1"] ∧
    expressionSources sampleCond = ["T1", "T2"] ∧
    nodeSources (.CrossJoin tableT2 (.CrossJoin tableT1 tableT2)) =
      firstOccurrences ["T2", "T2", "T1", "T1", "T2", "T2"] ∧
    expressionSources sampleCond = firstOccurrences ["T1", "T2", "T1", "T2"] :=
  ⟨by decide, by decide, sources_spec.1 _, sources_spec.2.1 sampleCond⟩

/-! ## Static types under the removal of unnecessary casts -/

/-- The type of the output column of a projected expression is the static
type of the expression. -/
theorem ExpressionToColumn_typ (e : Expr) : (ExpressionToColumn e).Typ = e.staticType := by
  cases e <;> rfl

/-- Expressions that have pairwise the same static type have the same list of
static types. -/
theorem map_staticType_of_forall₂ {es es' : List Expr}
    (h : List.Forall₂ (fun a b => b.staticType = a.staticType) es es') :
    es'.map Expr.staticType = es.map Expr.staticType := by
  induction h with
  | nil => rfl
  | cons h1 _ ih => simp [h1, ih]

/-- The rewritten sort fields have the static types of the sort fields. -/
theorem transformSortFields_type : ∀ fs fs' : List SortField,
    transformSortFields removeUnnecessaryConvertsExprFunc fs = .ok fs' →
    (fs'.map SortField.Column).map Expr.staticType = (fs.map SortField.Column).map Expr.staticType
  | [], fs', h => by
    simp only [transformSortFields, Except.ok.injEq] at h
    rw [← h]
  | sf :: rest, fs', h => by
    simp only [transformSortFields] at h
    cases hc : sf.Column.TransformUp removeUnnecessaryConvertsExprFunc with
    | error err => simp [hc] at h
    | ok c =>
      cases hr : transformSortFields removeUnnecessaryConvertsExprFunc rest with
      | error err => simp [hc, hr] at h
      | ok rest' =>
        simp only [hc, hr, Except.ok.injEq] at h
        rw [← h]
        simp only [List.map_cons, removeConverts_type _ _ hc, List.cons.injEq, true_and]
        exact transformSortFields_type rest rest' hr

/-- The bottom-up rewrite of `removeUnnecessaryConverts` keeps the column types
of the schema of the plan and of each of its nodes, and the static types of the
expressions of the nodes. -/
theorem removeConverts_transformUp_types : ∀ n n' : Node,
    n.TransformUp (Node.TransformExpressions removeUnnecessaryConvertsExprFunc) = .ok n' →
    n'.schemaTypes = n.schemaTypes ∧
    n'.subplans.map Node.schemaTypes = n.subplans.map Node.schemaTypes ∧
    n'.allExpressions.map Expr.staticType = n.allExpressions.map Expr.staticType
  | .ResolvedTable n s, n', h => by
    simp only [Node.TransformUp, Node.TransformExpressions, Except.ok.injEq] at h
    rw [← h]
    exact ⟨rfl, rfl, rfl⟩
  | .UnresolvedTable n, n', h => by
    simp only [Node.TransformUp, Node.TransformExpressions, Except.ok.injEq] at h
    rw [← h]
    exact ⟨rfl, rfl, rfl⟩
  | .EmptyTable, n', h => by
    simp only [Node.TransformUp, Node.TransformExpressions, Except.ok.injEq] at h
    rw [← h]
    exact ⟨rfl, rfl, rfl⟩
  | .Filter p c, n', h => by
    simp only [Node.TransformUp] at h
    cases hc : c.TransformUp (Node.TransformExpressions removeUnnecessaryConvertsExprFunc) with
    | error err => simp [hc] at h
    | ok c' =>
      obtain ⟨i1, i2, i3⟩ := removeConverts_transformUp_types c c' hc
      cases hp : p.TransformUp removeUnnecessaryConvertsExprFunc with
      | error err => simp [hc, Node.TransformExpressions, hp] at h
      | ok p' =>
        simp only [hc, Node.TransformExpressions, hp, Except.ok.injEq] at h
        rw [← h]
        have hroot : (Node.Filter p' c').schemaTypes = (Node.Filter p c).schemaTypes := i1
        refine ⟨hroot, ?_, ?_⟩
        · simp only [Node.subplans, List.map_cons, hroot, i2]
        · simp only [Node.allExpressions, List.map_cons, removeConverts_type _ _ hp, i3]
  | .Project es c, n', h => by
    simp only [Node.TransformUp] at h
    cases hc : c.TransformUp (Node.TransformExpressions removeUnnecessaryConvertsExprFunc) with
    | error err => simp [hc] at h
    | ok c' =>
      obtain ⟨i1, i2, i3⟩ := removeConverts_transformUp_types c c' hc
      cases hp : Expr.TransformUpList removeUnnecessaryConvertsExprFunc es with
      | error err => simp [hc, Node.TransformExpressions, hp] at h
      | ok es' =>
        simp only [hc, Node.TransformExpressions, hp, Except.ok.injEq] at h
        rw [← h]
        have hty := map_staticType_of_forall₂ (removeConvertsList_type es es' hp)
        have hroot : (Node.Project es' c').schemaTypes = (Node.Project es c).schemaTypes := by
          simp only [Node.schemaTypes, Node.Schema, List.map_map]
          have hfun : (Column.Typ ∘ ExpressionToColumn) = Expr.staticType := by
            funext e
            exact ExpressionToColumn_typ e
          rw [hfun, hty]
        refine ⟨hroot, ?_, ?_⟩
        · simp only [Node.subplans, List.map_cons, hroot, i2]
        · simp only [Node.allExpressions, List.map_append, hty, i3]
  | .InnerJoin l r cond, n', h => by
    simp only [Node.TransformUp] at h
    cases hl : l.TransformUp (Node.TransformExpressions removeUnnecessaryConvertsExprFunc) with
    | error err => simp [hl] at h
    | ok l' =>
      cases hr : r.TransformUp (Node.TransformExpressions removeUnnecessaryConvertsExprFunc) with
      | error err => simp [hl, hr] at h
      | ok r' =>
        obtain ⟨l1, l2, l3⟩ := removeConverts_transformUp_types l l' hl
        obtain ⟨r1, r2, r3⟩ := removeConverts_transformUp_types r r' hr
        cases hp : cond.TransformUp removeUnnecessaryConvertsExprFunc with
        | error err => simp [hl, hr, Node.TransformExpressions, hp] at h
        | ok cond' =>
          simp only [hl, hr, Node.TransformExpressions, hp, Except.ok.injEq] at h
          rw [← h]
          have hroot : (Node.InnerJoin l' r' cond').schemaTypes =
              (Node.InnerJoin l r cond).schemaTypes := by
            simp only [Node.schemaTypes, Node.Schema, List.map_append] at l1 r1 ⊢
            rw [l1, r1]
          refine ⟨hroot, ?_, ?_⟩
          · simp only [Node.subplans, List.map_cons, List.map_append, hroot, l2, r2]
          · simp only [Node.allExpressions, List.map_cons, List.map_append,
              removeConverts_type _ _ hp, l3, r3]
  | .CrossJoin l r, n', h => by
    simp only [Node.TransformUp] at h
    cases hl : l.TransformUp (Node.TransformExpressions removeUnnecessaryConvertsExprFunc) with
    | error err => simp [hl] at h
    | ok l' =>
      cases hr : r.TransformUp (Node.TransformExpressions removeUnnecessaryConvertsExprFunc) with
      | error err => simp [hl, hr] at h
      | ok r' =>
        obtain ⟨l1, l2, l3⟩ := removeConverts_transformUp_types l l' hl
        obtain ⟨r1, r2, r3⟩ := removeConverts_transformUp_types r r' hr
        simp only [hl, hr, Node.TransformExpressions, Except.ok.injEq] at h
        rw [← h]
        have hroot : (Node.CrossJoin l' r').schemaTypes = (Node.CrossJoin l r).schemaTypes := by
          simp only [Node.schemaTypes, Node.Schema, List.map_append] at l1 r1 ⊢
          rw [l1, r1]
        refine ⟨hroot, ?_, ?_⟩
        · simp only [Node.subplans, List.map_cons, List.map_append, hroot, l2, r2]
        · simp only [Node.allExpressions, List.map_append, l3, r3]
  | .Distinct c, n', h => by
    simp only [Node.TransformUp] at h
    cases hc : c.TransformUp (Node.TransformExpressions removeUnnecessaryConvertsExprFunc) with
    | error err => simp [hc] at h
    | ok c' =>
      obtain ⟨i1, i2, i3⟩ := removeConverts_transformUp_types c c' hc
      simp only [hc, Node.TransformExpressions, Except.ok.injEq] at h
      rw [← h]
      have hroot : (Node.Distinct c').schemaTypes = (Node.Distinct c).schemaTypes := i1
      refine ⟨hroot, ?_, i3⟩
      simp only [Node.subplans, List.map_cons, hroot, i2]
  | .OrderedDistinct c, n', h => by
    simp only [Node.TransformUp] at h
    cases hc : c.TransformUp (Node.TransformExpressions removeUnnecessaryConvertsExprFunc) with
    | error err => simp [hc] at h
    | ok c' =>
      obtain ⟨i1, i2, i3⟩ := removeConverts_transformUp_types c c' hc
      simp only [hc, Node.TransformExpressions, Except.ok.injEq] at h
      rw [← h]
      have hroot : (Node.OrderedDistinct c').schemaTypes =
          (Node.OrderedDistinct c).schemaTypes := i1
      refine ⟨hroot, ?_, i3⟩
      simp only [Node.subplans, List.map_cons, hroot, i2]
  | .Sort fs c, n', h => by
    simp only [Node.TransformUp] at h
    cases hc : c.TransformUp (Node.TransformExpressions removeUnnecessaryConvertsExprFunc) with
    | error err => simp [hc] at h
    | ok c' =>
      obtain ⟨i1, i2, i3⟩ := removeConverts_transformUp_types c c' hc
      cases hp : transformSortFields removeUnnecessaryConvertsExprFunc fs with
      | error err => simp [hc, Node.TransformExpressions, hp] at h
      | ok fs' =>
        simp only [hc, Node.TransformExpressions, hp, Except.ok.injEq] at h
        rw [← h]
        have hroot : (Node.Sort fs' c').schemaTypes = (Node.Sort fs c).schemaTypes := i1
        refine ⟨hroot, ?_, ?_⟩
        · simp only [Node.subplans, List.map_cons, hroot, i2]
        · simp only [Node.allExpressions, List.map_append, transformSortFields_type fs fs' hp, i3]

/-- C26. The rule `removeUnnecessaryConverts` keeps static types.  The static
type of a node other than a cast depends only on its own parameters and on
the static types of its operands, so the rewrite of an expression has the
static type of the expression, a cast that is removed being replaced by an
operand of its own type.  For a resolved plan the rule returns a plan in which
each expression of each node has the static type of the expression it
replaces, and the schema of each node of the plan, the root included, has the
column types it had. -/
theorem removeUnnecessaryConverts_types (n : Node) (hres : n.Resolved = true) :
    (∀ e : Expr, ∃ e', e.TransformUp removeUnnecessaryConvertsExprFunc = .ok e' ∧
      e'.staticType = e.staticType) ∧
    ∃ n', removeUnnecessaryConverts n = .ok n' ∧
      n'.allExpressions.map Expr.staticType = n.allExpressions.map Expr.staticType ∧
      n'.schemaTypes = n.schemaTypes ∧
      n'.subplans.map Node.schemaTypes = n.subplans.map Node.schemaTypes := by
  constructor
  · intro e
    obtain ⟨e', he⟩ := exprTransformUp_total _ removeConvertsExprFunc_total e
    exact ⟨e', he, removeConverts_type e e' he⟩
  · obtain ⟨n', hn⟩ := removeUnnecessaryConverts_total n
    refine ⟨n', hn, ?_⟩
    simp only [removeUnnecessaryConverts, hres, Bool.not_true, Bool.false_eq_true, ↓reduceIte,
      Node.TransformExpressionsUp] at hn
    obtain ⟨h1, h2, h3⟩ := removeConverts_transformUp_types n n' hn
    exact ⟨h3, h1, h2⟩

/-- C26 witness: `Project([CAST(CAST(a AS Int64) AS Int64), CAST(a AS Text)],
Filter(CAST(b AS Int64) = 1, T1))` is rewritten to `Project([a, CAST(a AS
Text)], Filter(b = 1, T1))`; the column types of the projection are `Int64,
Text` before and after. -/
theorem removeUnnecessaryConverts_types_witness :
    (Node.Project [.Convert (.Convert (.GetField 0 .Int64 "T1" "a") .Int64) .Int64,
          .Convert (.GetField 0 .Int64 "T1" "a") .Text]
        (.Filter (compare2 "=" (.Convert (.GetField 1 .Int64 "T1" "b") .Int64) (intLit 1))
          tableT1)).schemaTypes = [.Int64, .Text] ∧
    (Node.Project [.GetField 0 .Int64 "T1" "a", .Convert (.GetField 0 .Int64 "T1" "a") .Text]
        (.Filter (compare2 "=" (.GetField 1 .Int64 "T1" "b") (intLit 1))
          tableT1)).schemaTypes = [.Int64, .Text] ∧
    ∃ n', removeUnnecessaryConverts
        (.Project [.Convert (.Convert (.GetField 0 .Int64 "T1" "a") .Int64) .Int64,
            .Convert (.GetField 0 .Int64 "T1" "a") .Text]
          (.Filter (compare2 "=" (.Convert (.GetField 1 .Int64 "T1" "b") .Int64) (intLit 1))
            tableT1)) = .ok n' ∧
      n'.allExpressions.map Expr.staticType =
        (Node.Project [.Convert (.Convert (.GetField 0 .Int64 "T1" "a") .Int64) .Int64,
            .Convert (.GetField 0 .Int64 "T1" "a") .Text]
          (.Filter (compare2 "=" (.Convert (.GetField 1 .Int64 "T1" "b") .Int64) (intLit 1))
            tableT1)).allExpressions.map Expr.staticType ∧
      n'.schemaTypes =
        (Node.Project [.Convert (.Convert (.GetField 0 .Int64 "T1" "a") .Int64) .Int64,
            .Convert (.GetField 0 .Int64 "T1" "a") .Text]
          (.Filter (compare2 "=" (.Convert (.GetField 1 .Int64 "T1" "b") .Int64) (intLit 1))
            tableT1)).schemaTypes ∧
      n'.subplans.map Node.schemaTypes =
        (Node.Project [.Convert (.Convert (.GetField 0 .Int64 "T1" "a") .Int64) .Int64,
            .Convert (.GetField 0 .Int64 "T1" "a") .Text]
          (.Filter (compare2 "=" (.Convert (.GetField 1 .Int64 "T1" "b") .Int64) (intLit 1))
            tableT1)).subplans.map Node.schemaTypes :=
  ⟨rfl, rfl, (removeUnnecessaryConverts_types
    (.Project [.Convert (.Convert (.GetField 0 .Int64 "T1" "a") .Int64) .Int64,
        .Convert (.GetField 0 .Int64 "T1" "a") .Text]
      (.Filter (compare2 "=" (.Convert (.GetField 1 .Int64 "T1" "b") .Int64) (intLit 1))
        tableT1)) rfl).2⟩

/-! ## Conjuncts without column reference -/

/-- An expression with an empty source set has no column reference
(`GetField`). -/
theorem exprFields_of_sources_nil (e : Expr) (h : expressionSources e = []) :
    exprFields e = [] := by
  rw [expressionSources, expressionSourcesVisit_eq, foldl_addSource] at h
  cases hf : exprFields e with
  | nil => rfl
  | cons f fs => simp [hf, firstOccurrences] at h

mutual
/-- The re-indexing of an expression without column reference returns the
expression. -/
theorem fixFieldIndexes_of_noFields (S : Schema) : ∀ e : Expr, exprFields e = [] →
    e.TransformUp (fixFieldIndex S) = .ok e
  | .Literal v t, _ => rfl
  | .GetField i t tbl n, h => by simp [exprFields] at h
  | .UnresolvedColumn tbl n, _ => rfl
  | .And l r, h => by
    simp only [exprFields, List.append_eq_nil] at h
    simp [Expr.TransformUp, fixFieldIndexes_of_noFields S l h.1,
      fixFieldIndexes_of_noFields S r h.2, fixFieldIndex]
  | .Or l r, h => by
    simp only [exprFields, List.append_eq_nil] at h
    simp [Expr.TransformUp, fixFieldIndexes_of_noFields S l h.1,
      fixFieldIndexes_of_noFields S r h.2, fixFieldIndex]
  | .Convert c t, h => by
    simp only [exprFields] at h
    simp [Expr.TransformUp, fixFieldIndexes_of_noFields S c h, fixFieldIndex]
  | .Tuple es, h => by
    simp only [exprFields] at h
    simp [Expr.TransformUp, fixFieldIndexesList_of_noFields S es h, fixFieldIndex]
  | .Interval c u, h => by
    simp only [exprFields] at h
    simp [Expr.TransformUp, fixFieldIndexes_of_noFields S c h, fixFieldIndex]
  | .Call n t args, h => by
    simp only [exprFields] at h
    simp [Expr.TransformUp, fixFieldIndexesList_of_noFields S args h, fixFieldIndex]
/-- The list version of `fixFieldIndexes_of_noFields`. -/
theorem fixFieldIndexesList_of_noFields (S : Schema) : ∀ es : List Expr,
    exprFieldsList es = [] → Expr.TransformUpList (fixFieldIndex S) es = .ok es
  | [], _ => rfl
  | e :: es, h => by
    simp only [exprFieldsList, List.append_eq_nil] at h
    simp [Expr.TransformUpList, fixFieldIndexes_of_noFields S e h.1,
      fixFieldIndexesList_of_noFields S es h.2]
end

/-- A member of a list that is re-indexed member by member, and that has no
column reference, is a member of the re-indexed list. -/
theorem mem_of_forall₂_fixed (S : Schema) (e : Expr) (he : exprFields e = []) :
    ∀ (xs ys : List Expr), List.Forall₂ (fun x y => FixFieldIndexes S x = .ok y) xs ys →
      e ∈ xs → e ∈ ys := by
  intro xs ys h
  induction h with
  | nil => intro hm; cases hm
  | cons h1 _ ih =>
    intro hm
    rcases List.mem_cons.1 hm with rfl | hm
    · rw [FixFieldIndexes, fixFieldIndexes_of_noFields S e he] at h1
      cases h1
      exact List.mem_cons_self _ _
    · exact List.mem_cons_of_mem _ (ih hm)

/-- C25. `containsSources(haystack, needle)` is true for every haystack when
the needle is empty.  The loop of `moveJoinConditionsToFilter` puts a conjunct
in both the left and the right list exactly when its source set is contained
in the source sets of both children, and a conjunct with an empty source set
is in both lists and not in the list kept for the join condition.  In the
rewrite of a resolved inner join, a conjunct without column reference is a
member of the conjunction held by the `Filter` around the left child and of
the one held by the `Filter` around the right child, and is not among the
conjuncts of the join condition of the result, if one is left. -/
theorem containsSources_nil :
    (∀ haystack : List String, containsSources haystack [] = true) ∧
    (∀ (ls rs : List String) (cs : List Expr) (e : Expr),
      ((e ∈ (cs.foldl (classifyConjunct ls rs)
            { leftFilters := [], rightFilters := [], condFilters := [] }).leftFilters ∧
        e ∈ (cs.foldl (classifyConjunct ls rs)
            { leftFilters := [], rightFilters := [], condFilters := [] }).rightFilters) ↔
       (e ∈ cs ∧ containsSources ls (expressionSources e) = true ∧
        containsSources rs (expressionSources e) = true)) ∧
      (e ∈ cs → expressionSources e = [] →
        e ∈ (cs.foldl (classifyConjunct ls rs)
            { leftFilters := [], rightFilters := [], condFilters := [] }).leftFilters ∧
        e ∈ (cs.foldl (classifyConjunct ls rs)
            { leftFilters := [], rightFilters := [], condFilters := [] }).rightFilters ∧
        e ∉ (cs.foldl (classifyConjunct ls rs)
            { leftFilters := [], rightFilters := [], condFilters := [] }).condFilters)) ∧
    (∀ (L R : Node) (cond : Expr) (n' : Node) (e : Expr),
      (Node.InnerJoin L R cond).Resolved = true →
      moveJoinConditionsToFilter (.InnerJoin L R cond) = .ok n' →
      e ∈ splitConjunction cond → expressionSources e = [] →
      ∃ L' R' ls' cl rs' cr,
        moveJoinConditionsToFilter L = .ok L' ∧ moveJoinConditionsToFilter R = .ok R' ∧
        List.Forall₂ (fun x y => FixFieldIndexes L.Schema x = .ok y)
          ((splitConjunction cond).filter
            (fun x => containsSources (nodeSources L) (expressionSources x))) ls' ∧
        e ∈ ls' ∧ JoinAnd ls' = some cl ∧
        List.Forall₂ (fun x y => FixFieldIndexes R.Schema x = .ok y)
          ((splitConjunction cond).filter
            (fun x => containsSources (nodeSources R) (expressionSources x))) rs' ∧
        e ∈ rs' ∧ JoinAnd rs' = some cr ∧
        e ∉ (splitConjunction cond).filter
          (fun x => !containsSources (nodeSources L) (expressionSources x) &&
            !containsSources (nodeSources R) (expressionSources x)) ∧
        (n' = .CrossJoin (.Filter cl L') (.Filter cr R') ∨
         ∃ c, JoinAnd ((splitConjunction cond).filter
            (fun x => !containsSources (nodeSources L) (expressionSources x) &&
              !containsSources (nodeSources R) (expressionSources x))) = some c ∧
          n' = .InnerJoin (.Filter cl L') (.Filter cr R') c)) := by
  refine ⟨fun _ => rfl, ?_, ?_⟩
  · intro ls rs cs e
    rw [classifyConjunct_foldl]
    simp only [List.nil_append, List.mem_filter, canMove, Bool.and_eq_true, Bool.not_eq_true',
      not_and]
    refine ⟨?_, ?_⟩
    · constructor
      · rintro ⟨⟨h1, h2⟩, _, h3⟩
        exact ⟨h1, h2, h3⟩
      · rintro ⟨h1, h2, h3⟩
        exact ⟨⟨h1, h2⟩, h1, h3⟩
    · intro hm hs
      rw [hs]
      simp [hm, containsSources]
  · intro L R cond n' e hres h hm hs
    have hnf := exprFields_of_sources_nil e hs
    obtain ⟨L', R', left, right, hL, hR, hl, hr, hk⟩ := moveJoin_innerJoin_parts L R cond n' hres h
    have hml : e ∈ (splitConjunction cond).filter
        (fun x => containsSources (nodeSources L) (expressionSources x)) := by
      simp [List.mem_filter, hm, hs, containsSources]
    have hmr : e ∈ (splitConjunction cond).filter
        (fun x => containsSources (nodeSources R) (expressionSources x)) := by
      simp [List.mem_filter, hm, hs, containsSources]
    rcases hl with ⟨hnil, _⟩ | ⟨ls', cl, hfl, hjl, hleft⟩
    · rw [hnil] at hml
      cases hml
    rcases hr with ⟨hnil, _⟩ | ⟨rs', cr, hfr, hjr, hright⟩
    · rw [hnil] at hmr
      cases hmr
    refine ⟨L', R', ls', cl, rs', cr, hL, hR, hfl, mem_of_forall₂_fixed _ e hnf _ _ hfl hml, hjl,
      hfr, mem_of_forall₂_fixed _ e hnf _ _ hfr hmr, hjr, ?_, ?_⟩
    · simp [List.mem_filter, hs, containsSources]
    · subst hleft hright
      rcases hk with ⟨_, hn⟩ | ⟨c, hc, hn⟩
      · exact Or.inl hn
      · exact Or.inr ⟨c, hc, hn⟩

/-- C25 witness: in `InnerJoin(T1, T2, 1 = 1 AND T1.a = T2.c)` the conjunct
`1 = 1` has no column reference; the join is rewritten to
`InnerJoin(Filter(1 = 1, T1), Filter(1 = 1, T2), T1.a = T2.c)`. -/
theorem containsSources_nil_witness :
    moveJoinConditionsToFilter (.InnerJoin tableT1 tableT2
        (.And (compare2 "=" (intLit 1) (intLit 1))
          (compare2 "=" (.GetField 0 .Int64 "T1" "a") (.GetField 2 .Int64 "T2" "c")))) =
      .ok (.InnerJoin (.Filter (compare2 "=" (intLit 1) (intLit 1)) tableT1)
        (.Filter (compare2 "=" (intLit 1) (intLit 1)) tableT2)
        (compare2 "=" (.GetField 0 .Int64 "T1" "a") (.GetField 2 .Int64 "T2" "c"))) ∧
    containsSources (nodeSources tableT1) [] = true ∧
    (compare2 "=" (intLit 1) (intLit 1)) ∈
      ((splitConjunction (.And (compare2 "=" (intLit 1) (intLit 1))
          (compare2 "=" (.GetField 0 .Int64 "T1" "a") (.GetField 2 .Int64 "T2" "c")))).foldl
        (classifyConjunct (nodeSources tableT1) (nodeSources tableT2))
        { leftFilters := [], rightFilters := [], condFilters := [] }).leftFilters :=
  ⟨rfl, containsSources_nil.1 _,
   (containsSources_nil.2.1 (nodeSources tableT1) (nodeSources tableT2)
      (splitConjunction (.And (compare2 "=" (intLit 1) (intLit 1))
        (compare2 "=" (.GetField 0 .Int64 "T1" "a") (.GetField 2 .Int64 "T2" "c"))))
      (compare2 "=" (intLit 1) (intLit 1))).2 (List.mem_cons_self _ _) rfl |>.1⟩

/-! ## The access to the first sort field -/

/-- When the first `Sort` node of a plan has no sort field, the visit of
`optimizeDistinct` fails on the access to `SortFields[0]`. -/
theorem optimizeDistinct_inspect_empty :
    ∀ n : Node, n.firstSort = some [] →
      Node.Inspect optimizeDistinctVisit none n = .error "index out of range"
  | .ResolvedTable name s, h => by simp [Node.firstSort] at h
  | .UnresolvedTable name, h => by simp [Node.firstSort] at h
  | .EmptyTable, h => by simp [Node.firstSort] at h
  | .Filter e c, h => by
    simp only [Node.firstSort] at h
    simp [Node.Inspect, optimizeDistinctVisit, optimizeDistinct_inspect_empty c h]
  | .Project es c, h => by
    simp only [Node.firstSort] at h
    simp [Node.Inspect, optimizeDistinctVisit, optimizeDistinct_inspect_empty c h]
  | .InnerJoin l r cond, h => by
    simp only [Node.firstSort] at h
    split at h
    · rename_i fs' hl
      cases h
      simp [Node.Inspect, optimizeDistinctVisit, optimizeDistinct_inspect_empty l hl]
    · rename_i hl
      simp [Node.Inspect, optimizeDistinctVisit, optimizeDistinct_inspect_noSort l hl,
        optimizeDistinct_inspect_empty r h]
  | .CrossJoin l r, h => by
    simp only [Node.firstSort] at h
    split at h
    · rename_i fs' hl
      cases h
      simp [Node.Inspect, optimizeDistinctVisit, optimizeDistinct_inspect_empty l hl]
    · rename_i hl
      simp [Node.Inspect, optimizeDistinctVisit, optimizeDistinct_inspect_noSort l hl,
        optimizeDistinct_inspect_empty r h]
  | .Distinct c, h => by
    simp only [Node.firstSort] at h
    simp [Node.Inspect, optimizeDistinctVisit, optimizeDistinct_inspect_empty c h]
  | .OrderedDistinct c, h => by
    simp only [Node.firstSort] at h
    simp [Node.Inspect, optimizeDistinctVisit, optimizeDistinct_inspect_empty c h]
  | .Sort fs' c, h => by
    simp only [Node.firstSort, Option.some.injEq] at h
    subst h
    simp [Node.Inspect, optimizeDistinctVisit]

/-- The visit of `optimizeDistinct` does not fail on a plan in which every
`Sort` node that is not beneath another `Sort` node has a sort field. -/
theorem optimizeDistinct_inspect_total :
    ∀ (n : Node) (s : Option Expr), (∀ fs ∈ n.topSorts, fs ≠ []) →
      ∃ r, Node.Inspect optimizeDistinctVisit s n = .ok r
  | n, some x, _ => ⟨some x, optimizeDistinct_inspect_some x n⟩
  | .ResolvedTable name sch, none, _ => ⟨none, rfl⟩
  | .UnresolvedTable name, none, _ => ⟨none, rfl⟩
  | .EmptyTable, none, _ => ⟨none, rfl⟩
  | .Filter e c, none, h => by
    obtain ⟨r, hr⟩ := optimizeDistinct_inspect_total c none (by simpa [Node.topSorts] using h)
    exact ⟨r, by simp [Node.Inspect, optimizeDistinctVisit, hr]⟩
  | .Project es c, none, h => by
    obtain ⟨r, hr⟩ := optimizeDistinct_inspect_total c none (by simpa [Node.topSorts] using h)
    exact ⟨r, by simp [Node.Inspect, optimizeDistinctVisit, hr]⟩
  | .InnerJoin l r cond, none, h => by
    obtain ⟨r1, hr1⟩ := optimizeDistinct_inspect_total l none
      (fun fs hfs => h fs (by simp [Node.topSorts, hfs]))
    obtain ⟨r2, hr2⟩ := optimizeDistinct_inspect_total r r1
      (fun fs hfs => h fs (by simp [Node.topSorts, hfs]))
    exact ⟨r2, by simp [Node.Inspect, optimizeDistinctVisit, hr1, hr2]⟩
  | .CrossJoin l r, none, h => by
    obtain ⟨r1, hr1⟩ := optimizeDistinct_inspect_total l none
      (fun fs hfs => h fs (by simp [Node.topSorts, hfs]))
    obtain ⟨r2, hr2⟩ := optimizeDistinct_inspect_total r r1
      (fun fs hfs => h fs (by simp [Node.topSorts, hfs]))
    exact ⟨r2, by simp [Node.Inspect, optimizeDistinctVisit, hr1, hr2]⟩
  | .Distinct c, none, h => by
    obtain ⟨r, hr⟩ := optimizeDistinct_inspect_total c none (by simpa [Node.topSorts] using h)
    exact ⟨r, by simp [Node.Inspect, optimizeDistinctVisit, hr]⟩
  | .OrderedDistinct c, none, h => by
    obtain ⟨r, hr⟩ := optimizeDistinct_inspect_total c none (by simpa [Node.topSorts] using h)
    exact ⟨r, by simp [Node.Inspect, optimizeDistinctVisit, hr]⟩
  | .Sort fs c, none, h => by
    cases fs with
    | nil => exact absurd rfl (h [] (by simp [Node.topSorts]))
    | cons first rest =>
      simp only [Node.Inspect, optimizeDistinctVisit]
      cases first.Column <;> exact ⟨_, rfl⟩

/-- The rule `optimizeDistinct` returns a plan when every `Sort` node of the
plan that is not beneath another `Sort` node has a sort field. -/
theorem optimizeDistinct_total_of_sortFields (n : Node) (h : ∀ fs ∈ n.topSorts, fs ≠ []) :
    ∃ n', optimizeDistinct n = .ok n' := by
  rcases n with ⟨n, s⟩ | n | _ | ⟨e, c⟩ | ⟨es, c⟩ | ⟨l, r, cond⟩ | ⟨l, r⟩ | c | c | ⟨fs, c⟩
  case Distinct =>
    obtain ⟨r, hr⟩ := optimizeDistinct_inspect_total (.Distinct c) none h
    simp only [optimizeDistinct, hr]
    split
    · cases ‹Except.ok r = Except.error _›
    · split <;> exact ⟨_, rfl⟩
    · exact ⟨_, rfl⟩
  all_goals exact ⟨_, rfl⟩

/-- C24, at the failing input. The plan `Distinct(Sort([], T1))` is resolved,
and `optimizeDistinct` returns no plan on it: the visit reads `SortFields[0]`
of the `Sort` node, whose list of sort fields is empty, and the access is out
of range.  The same holds for every root `Distinct` whose first `Sort` node in
top-down order has no sort field. -/
theorem optimizeDistinct_emptySort_fails :
    (Node.Distinct (.Sort [] tableT1)).Resolved = true ∧
    optimizeDistinct (.Distinct (.Sort [] tableT1)) = .error "index out of range" ∧
    (∀ c : Node, (Node.Distinct c).firstSort = some [] →
      optimizeDistinct (.Distinct c) = .error "index out of range") := by
  refine ⟨rfl, rfl, ?_⟩
  intro c h
  simp [optimizeDistinct, optimizeDistinct_inspect_empty (.Distinct c) h]

/-! ## Literals, tuples and intervals in the predicate rewrite -/

/-- A bottom-up rewrite of a list of expressions rewrites each expression of
the list. -/
theorem transformUpList_forall₂ (f : Expr → Except Error Expr) : ∀ es es' : List Expr,
    Expr.TransformUpList f es = .ok es' →
    List.Forall₂ (fun e e' => e.TransformUp f = .ok e') es es'
  | [], es', h => by
    simp only [Expr.TransformUpList, Except.ok.injEq] at h
    rw [← h]
    exact List.Forall₂.nil
  | e :: es, es', h => by
    simp only [Expr.TransformUpList] at h
    cases he : e.TransformUp f with
    | error err => simp [he] at h
    | ok e1 =>
      cases hes : Expr.TransformUpList f es with
      | error err => simp [he, hes] at h
      | ok es1 =>
        simp only [he, hes, Except.ok.injEq] at h
        rw [← h]
        exact List.Forall₂.cons he (transformUpList_forall₂ f es es1 hes)

/-- C23 counterexample: in the predicate `a IN (1 = 1, 2)` the tuple
`(1 = 1, 2)` occurs, and it does not occur in the rewritten predicate
`a IN (TRUE, 2)`: the element `1 = 1` of the tuple has been folded. -/
theorem evalFilter_untouched_counterexample :
    ¬ (∀ (b : Builtins) (p p' x : Expr), p.TransformUp (evalFilterExprFunc b) = .ok p' →
      x ∈ subexprs p →
      ((∃ v t, x = .Literal v t) ∨ (∃ es, x = .Tuple es) ∨ (∃ c u, x = .Interval c u)) →
      x ∈ subexprs p') := by
  intro h
  have h1 := h sampleBuiltins
    (.Call "IN" .Boolean [.GetField 0 .Int64 "T1" "a",
      .Tuple [compare2 "=" (intLit 1) (intLit 1), intLit 2]])
    (.Call "IN" .Boolean [.GetField 0 .Int64 "T1" "a", .Tuple [boolLit true, intLit 2]])
    (.Tuple [compare2 "=" (intLit 1) (intLit 1), intLit 2]) rfl
    (by simp [subexprs, subexprsList]) (Or.inr (Or.inl ⟨_, rfl⟩))
  simp [subexprs, subexprsList, compare2, boolLit, intLit] at h1

/-- C23, amended. The node function of the predicate rewrite of `evalFilter`
returns a `Literal`, a `Tuple` and an `Interval` node as it is, without
evaluating it.  The rewrite is bottom-up: a literal of the predicate is its own
rewrite; a tuple is rewritten to the tuple of its rewritten elements and an
interval to the interval, with the same unit, over its rewritten operand, the
elements and the operand being rewritten like any other expression. -/
theorem evalFilter_untouched (b : Builtins) :
    (∀ v t, evalFilterExprFunc b (.Literal v t) = .ok (.Literal v t)) ∧
    (∀ es, evalFilterExprFunc b (.Tuple es) = .ok (.Tuple es)) ∧
    (∀ c u, evalFilterExprFunc b (.Interval c u) = .ok (.Interval c u)) ∧
    (∀ v t, (Expr.Literal v t).TransformUp (evalFilterExprFunc b) = .ok (.Literal v t)) ∧
    (∀ es : List Expr, ∃ es',
      List.Forall₂ (fun e e' => e.TransformUp (evalFilterExprFunc b) = .ok e') es es' ∧
      (Expr.Tuple es).TransformUp (evalFilterExprFunc b) = .ok (.Tuple es')) ∧
    (∀ (c : Expr) (u : String), ∃ c',
      c.TransformUp (evalFilterExprFunc b) = .ok c' ∧
      (Expr.Interval c u).TransformUp (evalFilterExprFunc b) = .ok (.Interval c' u)) := by
  refine ⟨fun _ _ => rfl, fun _ => rfl, fun _ _ => rfl, fun _ _ => rfl, ?_, ?_⟩
  · intro es
    obtain ⟨es', hes⟩ := exprTransformUpList_total _ (evalFilterExprFunc_total b) es
    refine ⟨es', transformUpList_forall₂ _ es es' hes, ?_⟩
    simp [Expr.TransformUp, hes, evalFilterExprFunc]
  · intro c u
    obtain ⟨c', hc⟩ := evalFilter_rewrite_total b c
    refine ⟨c', hc, ?_⟩
    simp [Expr.TransformUp, hc, evalFilterExprFunc]

/-- C23 witness: the tuple `(1 = 1, 2)` is rewritten to the tuple `(TRUE, 2)`
and the interval `INTERVAL (1 = 1) DAY` to `INTERVAL TRUE DAY`. -/
theorem evalFilter_untouched_witness :
    (Expr.Tuple [compare2 "=" (intLit 1) (intLit 1), intLit 2]).TransformUp
        (evalFilterExprFunc sampleBuiltins) = .ok (.Tuple [boolLit true, intLit 2]) ∧
    (Expr.Interval (compare2 "=" (intLit 1) (intLit 1)) "DAY").TransformUp
        (evalFilterExprFunc sampleBuiltins) = .ok (.Interval (boolLit true) "DAY") ∧
    evalFilterExprFunc sampleBuiltins (.Tuple [compare2 "=" (intLit 1) (intLit 1), intLit 2]) =
      .ok (.Tuple [compare2 "=" (intLit 1) (intLit 1), intLit 2]) :=
  ⟨rfl, rfl, (evalFilter_untouched sampleBuiltins).2.1 _⟩

/-! ## Run-time errors under the predicate rewrite -/

mutual
/-- The value of an expression without column reference does not depend on the
row. -/
theorem eval_of_noColumns (b : Builtins) (row : Row) : ∀ e : Expr,
    containsColumns e = false → e.Eval b row = e.Eval b []
  | .Literal v t, _ => rfl
  | .GetField i t tbl n, h => by simp [containsColumns] at h
  | .UnresolvedColumn tbl n, h => by simp [containsColumns] at h
  | .And l r, h => by
    simp only [containsColumns, Bool.or_eq_false_iff] at h
    simp only [Expr.Eval, eval_of_noColumns b row l h.1, eval_of_noColumns b row r h.2]
  | .Or l r, h => by
    simp only [containsColumns, Bool.or_eq_false_iff] at h
    simp only [Expr.Eval, eval_of_noColumns b row l h.1, eval_of_noColumns b row r h.2]
  | .Convert c t, h => by
    simp only [containsColumns] at h
    simp only [Expr.Eval, eval_of_noColumns b row c h]
  | .Tuple es, h => by
    simp only [containsColumns] at h
    rw [Eval_tuple, Eval_tuple, evalList_of_noColumns b row es h]
  | .Interval c u, _ => rfl
  | .Call n t args, h => by
    simp only [containsColumns] at h
    simp only [Expr.Eval, evalList_of_noColumns b row args h]
/-- The list version of `eval_of_noColumns`. -/
theorem evalList_of_noColumns (b : Builtins) (row : Row) : ∀ es : List Expr,
    containsColumnsList es = false → Expr.EvalList b row es = Expr.EvalList b [] es
  | [], _ => rfl
  | e :: es, h => by
    simp only [containsColumnsList, Bool.or_eq_false_iff] at h
    simp only [Expr.EvalList, eval_of_noColumns b row e h.1, evalList_of_noColumns b row es h.2]
end

/-- The rewrite of a cast or a call over rewritten operands: the node is kept,
or it is evaluable, its evaluation on the empty row gives a value, and it is
replaced by the literal of that value. -/
theorem evalFilterExprFunc_fold (b : Builtins) (e e' : Expr)
    (hd : (∃ c t, e = .Convert c t) ∨ (∃ n t args, e = .Call n t args))
    (h : evalFilterExprFunc b e = .ok e') :
    e' = e ∨ (isEvaluable e = true ∧ ∃ v, e.Eval b [] = .ok v ∧ e' = .Literal v e.staticType) := by
  have hdef : evalFilterExprFunc b e =
      (if !isEvaluable e then .ok e
       else match e.Eval b [] with
        | .error _ => .ok e
        | .ok val => .ok (.Literal val e.staticType)) := by
    rcases hd with ⟨c, t, rfl⟩ | ⟨n, t, args, rfl⟩ <;> rfl
  rw [hdef] at h
  by_cases hev : isEvaluable e = true
  · simp only [hev, Bool.not_true, Bool.false_eq_true, ↓reduceIte] at h
    cases hE : e.Eval b [] with
    | error err =>
      simp only [hE, Except.ok.injEq] at h
      exact Or.inl h.symm
    | ok v =>
      simp only [hE, Except.ok.injEq] at h
      exact Or.inr ⟨hev, v, rfl, h.symm⟩
  · simp only [Bool.not_eq_true] at hev
    simp only [hev, Bool.not_false, ↓reduceIte, Except.ok.injEq] at h
    exact Or.inl h.symm

mutual
/-- The predicate rewrite keeps the outcome of the evaluation, value or error,
of an expression in which no `And` and no `Or` occurs. -/
theorem evalFilter_rewrite_eval (b : Builtins) (row : Row) : ∀ e e' : Expr,
    hasConnective e = false → e.TransformUp (evalFilterExprFunc b) = .ok e' →
    e'.Eval b row = e.Eval b row
  | .Literal v t, e', _, h => by
    simp only [Expr.TransformUp, evalFilterExprFunc, Except.ok.injEq] at h
    rw [← h]
  | .GetField i t tbl n, e', _, h => by
    have h2 : e' = .GetField i t tbl n := by
      simpa [Expr.TransformUp, evalFilterExprFunc, isEvaluable, containsColumns] using h.symm
    rw [h2]
  | .UnresolvedColumn tbl n, e', _, h => by
    have h2 : e' = .UnresolvedColumn tbl n := by
      simpa [Expr.TransformUp, evalFilterExprFunc, isEvaluable, containsColumns] using h.symm
    rw [h2]
  | .And l r, e', hc, _ => by simp [hasConnective] at hc
  | .Or l r, e', hc, _ => by simp [hasConnective] at hc
  | .Convert c t, e', hc, h => by
    simp only [hasConnective] at hc
    simp only [Expr.TransformUp] at h
    cases hr : c.TransformUp (evalFilterExprFunc b) with
    | error err => simp [hr] at h
    | ok c' =>
      have ih := evalFilter_rewrite_eval b row c c' hc hr
      have hkeep : (Expr.Convert c' t).Eval b row = (Expr.Convert c t).Eval b row := by
        simp only [Expr.Eval, ih]
      simp only [hr] at h
      rcases evalFilterExprFunc_fold b _ e' (Or.inl ⟨_, _, rfl⟩) h with h1 | ⟨hev, v, hv, h1⟩
      · rw [h1, hkeep]
      · have hrow := eval_of_noColumns b row (Expr.Convert c' t)
          (by simpa [isEvaluable] using hev)
        rw [h1, ← hkeep, hrow, hv]
        rfl
  | .Tuple es, e', hc, h => by
    simp only [hasConnective] at hc
    simp only [Expr.TransformUp] at h
    cases hr : Expr.TransformUpList (evalFilterExprFunc b) es with
    | error err => simp [hr] at h
    | ok es' =>
      simp only [hr, evalFilterExprFunc, Except.ok.injEq] at h
      rw [← h, Eval_tuple, Eval_tuple, evalFilter_rewriteList_eval b row es es' hc hr]
  | .Interval c u, e', _, h => by
    simp only [Expr.TransformUp] at h
    cases hr : c.TransformUp (evalFilterExprFunc b) with
    | error err => simp [hr] at h
    | ok c' =>
      simp only [hr, evalFilterExprFunc, Except.ok.injEq] at h
      rw [← h]
      rfl
  | .Call n t args, e', hc, h => by
    simp only [hasConnective] at hc
    simp only [Expr.TransformUp] at h
    cases hr : Expr.TransformUpList (evalFilterExprFunc b) args with
    | error err => simp [hr] at h
    | ok args' =>
      have ih := evalFilter_rewriteList_eval b row args args' hc hr
      have hkeep : (Expr.Call n t args').Eval b row = (Expr.Call n t args).Eval b row := by
        simp only [Expr.Eval, ih]
      simp only [hr] at h
      rcases evalFilterExprFunc_fold b _ e' (Or.inr ⟨_, _, _, rfl⟩) h with h1 | ⟨hev, v, hv, h1⟩
      · rw [h1, hkeep]
      · have hrow := eval_of_noColumns b row (Expr.Call n t args')
          (by simpa [isEvaluable] using hev)
        rw [h1, ← hkeep, hrow, hv]
        rfl
/-- The list version of `evalFilter_rewrite_eval`. -/
theorem evalFilter_rewriteList_eval (b : Builtins) (row : Row) : ∀ es es' : List Expr,
    hasConnectiveList es = false → Expr.TransformUpList (evalFilterExprFunc b) es = .ok es' →
    Expr.EvalList b row es' = Expr.EvalList b row es
  | [], es', _, h => by
    simp only [Expr.TransformUpList, Except.ok.injEq] at h
    rw [← h]
  | e :: es, es', hc, h => by
    simp only [hasConnectiveList, Bool.or_eq_false_iff] at hc
    simp only [Expr.TransformUpList] at h
    cases he : e.TransformUp (evalFilterExprFunc b) with
    | error err => simp [he] at h
    | ok e1 =>
      cases hes : Expr.TransformUpList (evalFilterExprFunc b) es with
      | error err => simp [he, hes] at h
      | ok es1 =>
        simp only [he, hes, Except.ok.injEq] at h
        rw [← h]
        simp only [Expr.EvalList, evalFilter_rewrite_eval b row e e1 hc.1 he,
          evalFilter_rewriteList_eval b row es es1 hc.2 hes]
end

/-- An evaluation keeps its own outcome. -/
theorem keepsOutcome_refl (x : Except Error Value) : keepsOutcome x x :=
  ⟨fun h => h, fun v h => ⟨v, h, rfl⟩⟩

/-- Keeping the outcome is transitive. -/
theorem keepsOutcome_trans {x y z : Except Error Value} (h1 : keepsOutcome x y)
    (h2 : keepsOutcome y z) : keepsOutcome x z := by
  refine ⟨fun h => h2.1 (h1.1 h), fun v hv => ?_⟩
  obtain ⟨w, hw, tw⟩ := h1.2 v hv
  obtain ⟨u, hu, tu⟩ := h2.2 w hw
  exact ⟨u, hu, tu.trans tw⟩

/-- An evaluation that does not raise an error gives a value. -/
theorem ok_of_not_raises (x : Except Error Value) (h : raises x = false) : ∃ v, x = .ok v := by
  cases x with
  | error e => simp [raises] at h
  | ok v => exact ⟨v, rfl⟩

/-- A literal false evaluates to a value that is false. -/
theorem isFalse_eval (b : Builtins) (row : Row) (e : Expr) (h : isFalse e = true) :
    ∃ v, e.Eval b row = .ok v ∧ truth v = some false := by
  unfold isFalse at h
  split at h
  · rename_i v
    exact ⟨_, rfl, by simpa [truth] using h⟩
  · rename_i v
    refine ⟨_, rfl, ?_⟩
    simp only [decide_eq_true_eq, sqlFalse] at h
    simp [truth, h]
  · cases h

/-- A literal true evaluates to a value that is true. -/
theorem isTrue_eval (b : Builtins) (row : Row) (e : Expr) (h : isTrue e = true) :
    ∃ v, e.Eval b row = .ok v ∧ truth v = some true := by
  unfold isTrue at h
  split at h
  · rename_i v
    exact ⟨_, rfl, by simpa [truth] using h⟩
  · rename_i v
    refine ⟨_, rfl, ?_⟩
    simp only [decide_eq_true_eq, sqlFalse] at h
    simp [truth, h]
  · cases h

/-- The truth value of the AND of two values is determined by their truth
values. -/
theorem truth_andValues (lv rv : Value) :
    truth (andValues lv rv) =
      (if truth rv = some false then some false
       else if truth lv = none ∨ truth rv = none then none else some true) := by
  unfold andValues
  split
  · rfl
  · split <;> rfl

/-- The truth value of the OR of two values is determined by their truth
values. -/
theorem truth_orValues (lv rv : Value) :
    truth (orValues lv rv) =
      (if truth rv = some true then some true
       else if truth lv = none ∨ truth rv = none then none else some false) := by
  unfold orValues
  split
  · rfl
  · split <;> rfl

/-- The evaluation of an `And` node in terms of the outcomes of its
operands. -/
theorem eval_and (b : Builtins) (row : Row) (l r : Expr) :
    (Expr.And l r).Eval b row =
      (match l.Eval b row with
       | .error err => .error err
       | .ok lval =>
         if truth lval = some false then .ok (.bool false)
         else
           match r.Eval b row with
           | .error err => .error err
           | .ok rval => .ok (andValues lval rval)) := by
  simp only [Expr.Eval]

/-- The evaluation of an `Or` node in terms of the outcomes of its
operands. -/
theorem eval_or (b : Builtins) (row : Row) (l r : Expr) :
    (Expr.Or l r).Eval b row =
      (match l.Eval b row with
       | .error err => .error err
       | .ok lval =>
         if truth lval = some true then .ok (.bool true)
         else
           match r.Eval b row with
           | .error err => .error err
           | .ok rval => .ok (orValues lval rval)) := by
  simp only [Expr.Eval]

/-- An `And` over operands that keep the outcome of the operands of another
`And` keeps the outcome of that `And`. -/
theorem keepsOutcome_and (b : Builtins) (row : Row) (l r L R : Expr)
    (hl : keepsOutcome (l.Eval b row) (L.Eval b row))
    (hr : keepsOutcome (r.Eval b row) (R.Eval b row)) :
    keepsOutcome ((Expr.And l r).Eval b row) ((Expr.And L R).Eval b row) := by
  rw [eval_and, eval_and]
  cases hlv : l.Eval b row with
  | error e =>
    have h1 := hl.1 (by simp [hlv, raises])
    cases hLv : L.Eval b row with
    | error e2 => exact ⟨fun _ => rfl, fun v hv => by cases hv⟩
    | ok w => simp [hLv, raises] at h1
  | ok lv =>
    obtain ⟨Lv, hLv, tL⟩ := hl.2 lv hlv
    simp only [hLv, tL]
    by_cases hf : truth lv = some false
    · simp only [hf, ↓reduceIte]
      exact keepsOutcome_refl _
    · simp only [hf, ↓reduceIte]
      cases hrv : r.Eval b row with
      | error e =>
        have h1 := hr.1 (by simp [hrv, raises])
        cases hRv : R.Eval b row with
        | error e2 => exact ⟨fun _ => rfl, fun v hv => by cases hv⟩
        | ok w => simp [hRv, raises] at h1
      | ok rv =>
        obtain ⟨Rv, hRv, tR⟩ := hr.2 rv hrv
        simp only [hRv]
        refine ⟨fun h => by simp [raises] at h, fun v hv => ⟨_, rfl, ?_⟩⟩
        cases hv
        rw [truth_andValues, truth_andValues, tL, tR]

/-- An `Or` over operands that keep the outcome of the operands of another
`Or` keeps the outcome of that `Or`. -/
theorem keepsOutcome_or (b : Builtins) (row : Row) (l r L R : Expr)
    (hl : keepsOutcome (l.Eval b row) (L.Eval b row))
    (hr : keepsOutcome (r.Eval b row) (R.Eval b row)) :
    keepsOutcome ((Expr.Or l r).Eval b row) ((Expr.Or L R).Eval b row) := by
  rw [eval_or, eval_or]
  cases hlv : l.Eval b row with
  | error e =>
    have h1 := hl.1 (by simp [hlv, raises])
    cases hLv : L.Eval b row with
    | error e2 => exact ⟨fun _ => rfl, fun v hv => by cases hv⟩
    | ok w => simp [hLv, raises] at h1
  | ok lv =>
    obtain ⟨Lv, hLv, tL⟩ := hl.2 lv hlv
    simp only [hLv, tL]
    by_cases hf : truth lv = some true
    · simp only [hf, ↓reduceIte]
      exact keepsOutcome_refl _
    · simp only [hf, ↓reduceIte]
      cases hrv : r.Eval b row with
      | error e =>
        have h1 := hr.1 (by simp [hrv, raises])
        cases hRv : R.Eval b row with
        | error e2 => exact ⟨fun _ => rfl, fun v hv => by cases hv⟩
        | ok w => simp [hRv, raises] at h1
      | ok rv =>
        obtain ⟨Rv, hRv, tR⟩ := hr.2 rv hrv
        simp only [hRv]
        refine ⟨fun h => by simp [raises] at h, fun v hv => ⟨_, rfl, ?_⟩⟩
        cases hv
        rw [truth_orValues, truth_orValues, tL, tR]

/-- `And(L, R)` with a literal false `L` is replaced by `L`, which keeps its
outcome. -/
theorem keepsOutcome_and_leftFalse (b : Builtins) (row : Row) (L R : Expr)
    (h : isFalse L = true) :
    keepsOutcome ((Expr.And L R).Eval b row) (L.Eval b row) := by
  obtain ⟨lv, hlv, tl⟩ := isFalse_eval b row L h
  rw [eval_and]
  simp only [hlv, tl, ↓reduceIte]
  refine ⟨fun h => by simp [raises] at h, fun v hv => ⟨lv, rfl, ?_⟩⟩
  cases hv
  rw [tl]
  rfl

/-- `And(L, R)` with a literal false `R` is replaced by `R`, which keeps its
outcome when the evaluation of `L` does not fail. -/
theorem keepsOutcome_and_rightFalse (b : Builtins) (row : Row) (L R : Expr)
    (h : isFalse R = true) (hL : raises (L.Eval b row) = false) :
    keepsOutcome ((Expr.And L R).Eval b row) (R.Eval b row) := by
  obtain ⟨rv, hrv, tr⟩ := isFalse_eval b row R h
  obtain ⟨lv, hlv⟩ := ok_of_not_raises _ hL
  rw [eval_and]
  simp only [hlv, hrv]
  refine ⟨fun h => ?_, fun v hv => ⟨rv, rfl, ?_⟩⟩
  · split at h <;> simp [raises] at h
  · split at hv
    · cases hv
      rw [tr]
      rfl
    · cases hv
      simp [truth_andValues, tr]

/-- `And(L, R)` with a literal true `L` is replaced by `R`, which keeps its
outcome. -/
theorem keepsOutcome_and_leftTrue (b : Builtins) (row : Row) (L R : Expr)
    (h : isTrue L = true) :
    keepsOutcome ((Expr.And L R).Eval b row) (R.Eval b row) := by
  obtain ⟨lv, hlv, tl⟩ := isTrue_eval b row L h
  rw [eval_and]
  simp only [hlv, tl]
  cases hrv : R.Eval b row with
  | error e => exact ⟨fun _ => rfl, fun v hv => by simp at hv⟩
  | ok rv =>
    refine ⟨fun h => by simp [raises] at h, fun v hv => ⟨rv, rfl, ?_⟩⟩
    simp only [Option.some.injEq, Bool.true_eq_false, ↓reduceIte, Except.ok.injEq] at hv
    rw [← hv, truth_andValues, tl]
    rcases truth_cases rv with h2 | h2 | h2 <;> simp [h2]

/-- `And(L, R)` with a literal true `R` is replaced by `L`, which keeps its
outcome. -/
theorem keepsOutcome_and_rightTrue (b : Builtins) (row : Row) (L R : Expr)
    (h : isTrue R = true) :
    keepsOutcome ((Expr.And L R).Eval b row) (L.Eval b row) := by
  obtain ⟨rv, hrv, tr⟩ := isTrue_eval b row R h
  rw [eval_and]
  simp only [hrv]
  cases hlv : L.Eval b row with
  | error e => exact ⟨fun _ => rfl, fun v hv => by simp at hv⟩
  | ok lv =>
    refine ⟨fun h => ?_, fun v hv => ⟨lv, rfl, ?_⟩⟩
    · simp only at h
      split at h <;> simp [raises] at h
    · simp only at hv
      split at hv
      · rename_i hf
        cases hv
        rw [hf]
        rfl
      · rename_i hf
        cases hv
        rw [truth_andValues, tr]
        rcases truth_cases lv with h2 | h2 | h2 <;> simp [h2] at hf ⊢

/-- `Or(L, R)` with a literal true `L` is replaced by `L`, which keeps its
outcome. -/
theorem keepsOutcome_or_leftTrue (b : Builtins) (row : Row) (L R : Expr)
    (h : isTrue L = true) :
    keepsOutcome ((Expr.Or L R).Eval b row) (L.Eval b row) := by
  obtain ⟨lv, hlv, tl⟩ := isTrue_eval b row L h
  rw [eval_or]
  simp only [hlv, tl, ↓reduceIte]
  refine ⟨fun h => by simp [raises] at h, fun v hv => ⟨lv, rfl, ?_⟩⟩
  cases hv
  rw [tl]
  rfl

/-- `Or(L, R)` with a literal true `R` is replaced by `R`, which keeps its
outcome when the evaluation of `L` does not fail. -/
theorem keepsOutcome_or_rightTrue (b : Builtins) (row : Row) (L R : Expr)
    (h : isTrue R = true) (hL : raises (L.Eval b row) = false) :
    keepsOutcome ((Expr.Or L R).Eval b row) (R.Eval b row) := by
  obtain ⟨rv, hrv, tr⟩ := isTrue_eval b row R h
  obtain ⟨lv, hlv⟩ := ok_of_not_raises _ hL
  rw [eval_or]
  simp only [hlv, hrv]
  refine ⟨fun h => ?_, fun v hv => ⟨rv, rfl, ?_⟩⟩
  · split at h <;> simp [raises] at h
  · split at hv
    · cases hv
      rw [tr]
      rfl
    · cases hv
      simp [truth_orValues, tr]

/-- `Or(L, R)` with a literal false `L` is replaced by `R`, which keeps its
outcome. -/
theorem keepsOutcome_or_leftFalse (b : Builtins) (row : Row) (L R : Expr)
    (h : isFalse L = true) :
    keepsOutcome ((Expr.Or L R).Eval b row) (R.Eval b row) := by
  obtain ⟨lv, hlv, tl⟩ := isFalse_eval b row L h
  rw [eval_or]
  simp only [hlv, tl]
  cases hrv : R.Eval b row with
  | error e => exact ⟨fun _ => rfl, fun v hv => by simp at hv⟩
  | ok rv =>
    refine ⟨fun h => by simp [raises] at h, fun v hv => ⟨rv, rfl, ?_⟩⟩
    simp only [Option.some.injEq, Bool.false_eq_true, ↓reduceIte, Except.ok.injEq] at hv
    rw [← hv, truth_orValues, tl]
    rcases truth_cases rv with h2 | h2 | h2 <;> simp [h2]

/-- `Or(L, R)` with a literal false `R` is replaced by `L`, which keeps its
outcome. -/
theorem keepsOutcome_or_rightFalse (b : Builtins) (row : Row) (L R : Expr)
    (h : isFalse R = true) :
    keepsOutcome ((Expr.Or L R).Eval b row) (L.Eval b row) := by
  obtain ⟨rv, hrv, tr⟩ := isFalse_eval b row R h
  rw [eval_or]
  simp only [hrv]
  cases hlv : L.Eval b row with
  | error e => exact ⟨fun _ => rfl, fun v hv => by simp at hv⟩
  | ok lv =>
    refine ⟨fun h => ?_, fun v hv => ⟨lv, rfl, ?_⟩⟩
    · simp only at h
      split at h <;> simp [raises] at h
    · simp only at hv
      split at hv
      · rename_i hf
        cases hv
        rw [hf]
        rfl
      · rename_i hf
        cases hv
        rw [truth_orValues, tr]
        rcases truth_cases lv with h2 | h2 | h2 <;> simp [h2] at hf ⊢

/-- The predicate rewrite keeps the outcome of the evaluation of a combination
on a row on which it drops no failing operand. -/
theorem evalFilter_rewrite_keepsOutcome (b : Builtins) (row : Row) : ∀ p p' : Expr,
    isCombination p = true → dropsFailing b row p = false →
    p.TransformUp (evalFilterExprFunc b) = .ok p' →
    keepsOutcome (p.Eval b row) (p'.Eval b row)
  | .And l r, p', hc, hd, h => by
    simp only [isCombination, Bool.and_eq_true] at hc
    simp only [Expr.TransformUp] at h
    cases hl : l.TransformUp (evalFilterExprFunc b) with
    | error err => simp [hl] at h
    | ok L =>
      cases hr : r.TransformUp (evalFilterExprFunc b) with
      | error err => simp [hl, hr] at h
      | ok R =>
        simp only [dropsFailing, hl, hr, Bool.or_eq_false_iff] at hd
        have kl := evalFilter_rewrite_keepsOutcome b row l L hc.1 hd.1.1 hl
        have kr := evalFilter_rewrite_keepsOutcome b row r R hc.2 hd.1.2 hr
        have kc := keepsOutcome_and b row l r L R kl kr
        simp only [hl, hr, evalFilterExprFunc_and, Except.ok.injEq] at h
        rw [← h]
        by_cases h1 : isFalse L = true
        · simp only [h1, ↓reduceIte]
          exact keepsOutcome_trans kc (keepsOutcome_and_leftFalse b row L R h1)
        · by_cases h2 : isFalse R = true
          · simp only [h1, h2, Bool.false_eq_true, ↓reduceIte]
            have hnr : raises (l.Eval b row) = false := by simpa [h1, h2] using hd.2
            obtain ⟨lv, hlv⟩ := ok_of_not_raises _ hnr
            obtain ⟨Lv, hLv, _⟩ := kl.2 lv hlv
            exact keepsOutcome_trans kc
              (keepsOutcome_and_rightFalse b row L R h2 (by simp [hLv, raises]))
          · by_cases h3 : isTrue L = true
            · simp only [h1, h2, h3, Bool.false_eq_true, ↓reduceIte]
              exact keepsOutcome_trans kc (keepsOutcome_and_leftTrue b row L R h3)
            · by_cases h4 : isTrue R = true
              · simp only [h1, h2, h3, h4, Bool.false_eq_true, ↓reduceIte]
                exact keepsOutcome_trans kc (keepsOutcome_and_rightTrue b row L R h4)
              · simp only [h1, h2, h3, h4, Bool.false_eq_true, ↓reduceIte]
                exact kc
  | .Or l r, p', hc, hd, h => by
    simp only [isCombination, Bool.and_eq_true] at hc
    simp only [Expr.TransformUp] at h
    cases hl : l.TransformUp (evalFilterExprFunc b) with
    | error err => simp [hl] at h
    | ok L =>
      cases hr : r.TransformUp (evalFilterExprFunc b) with
      | error err => simp [hl, hr] at h
      | ok R =>
        simp only [dropsFailing, hl, hr, Bool.or_eq_false_iff] at hd
        have kl := evalFilter_rewrite_keepsOutcome b row l L hc.1 hd.1.1 hl
        have kr := evalFilter_rewrite_keepsOutcome b row r R hc.2 hd.1.2 hr
        have kc := keepsOutcome_or b row l r L R kl kr
        simp only [hl, hr, evalFilterExprFunc_or, Except.ok.injEq] at h
        rw [← h]
        by_cases h1 : isTrue L = true
        · simp only [h1, ↓reduceIte]
          exact keepsOutcome_trans kc (keepsOutcome_or_leftTrue b row L R h1)
        · by_cases h2 : isTrue R = true
          · simp only [h1, h2, Bool.false_eq_true, ↓reduceIte]
            have hnr : raises (l.Eval b row) = false := by simpa [h1, h2] using hd.2
            obtain ⟨lv, hlv⟩ := ok_of_not_raises _ hnr
            obtain ⟨Lv, hLv, _⟩ := kl.2 lv hlv
            exact keepsOutcome_trans kc
              (keepsOutcome_or_rightTrue b row L R h2 (by simp [hLv, raises]))
          · by_cases h3 : isFalse L = true
            · simp only [h1, h2, h3, Bool.false_eq_true, ↓reduceIte]
              exact keepsOutcome_trans kc (keepsOutcome_or_leftFalse b row L R h3)
            · by_cases h4 : isFalse R = true
              · simp only [h1, h2, h3, h4, Bool.false_eq_true, ↓reduceIte]
                exact keepsOutcome_trans kc (keepsOutcome_or_rightFalse b row L R h4)
              · simp only [h1, h2, h3, h4, Bool.false_eq_true, ↓reduceIte]
                exact kc
  | .Literal v t, p', hc, _, h => by
    simp only [isCombination, Bool.not_eq_true'] at hc
    rw [evalFilter_rewrite_eval b row _ p' hc h]
    exact keepsOutcome_refl _
  | .GetField i t tbl n, p', hc, _, h => by
    simp only [isCombination, Bool.not_eq_true'] at hc
    rw [evalFilter_rewrite_eval b row _ p' hc h]
    exact keepsOutcome_refl _
  | .UnresolvedColumn tbl n, p', hc, _, h => by
    simp only [isCombination, Bool.not_eq_true'] at hc
    rw [evalFilter_rewrite_eval b row _ p' hc h]
    exact keepsOutcome_refl _
  | .Convert c t, p', hc, _, h => by
    simp only [isCombination, Bool.not_eq_true'] at hc
    rw [evalFilter_rewrite_eval b row _ p' hc h]
    exact keepsOutcome_refl _
  | .Tuple es, p', hc, _, h => by
    simp only [isCombination, Bool.not_eq_true'] at hc
    rw [evalFilter_rewrite_eval b row _ p' hc h]
    exact keepsOutcome_refl _
  | .Interval c u, p', hc, _, h => by
    simp only [isCombination, Bool.not_eq_true'] at hc
    rw [evalFilter_rewrite_eval b row _ p' hc h]
    exact keepsOutcome_refl _
  | .Call n t args, p', hc, _, h => by
    simp only [isCombination, Bool.not_eq_true'] at hc
    rw [evalFilter_rewrite_eval b row _ p' hc h]
    exact keepsOutcome_refl _

/-- C21 counterexample: the predicate `1 / 0 AND FALSE`, in which the
evaluation of `1 / 0` fails (the sample functions have no division), raises
an error on every row, since `And` evaluates its left operand first; its
rewrite is the literal `FALSE`, whose evaluation raises no error. -/
theorem evalFilter_keeps_errors_counterexample :
    ¬ (∀ (b : Builtins) (p : Expr) (c : Node) (p' : Expr) (row : Row),
      (Node.Filter p c).Resolved = true →
      p.TransformUp (evalFilterExprFunc b) = .ok p' →
      raises (p.Eval b row) = true → raises (p'.Eval b row) = true) := by
  intro h
  have h1 := h sampleBuiltins
    (.And (.Call "/" .Int64 [intLit 1, intLit 0]) (boolLit false)) tableT1 (boolLit false)
    [.int64 1, .int64 2] rfl rfl rfl
  simp [boolLit, Expr.Eval, raises] at h1

/-- C21, amended. Let the predicate `p` of a resolved `Filter(p, c)` be a
combination, by `And` and `Or`, of expressions in which no `And` and no `Or`
occurs, and let `p'` be its rewrite.  For a row on which the evaluation of `p`
raises an error, the evaluation of `p'` raises an error too, and `evalFilter`
keeps the `Filter`, with the predicate `p'`, provided the rewrite drops no
failing operand on that row: no `And` node is replaced by a literal-false
right operand, and no `Or` node by a literal-true right operand, while the
evaluation of its left operand fails on the row.  An `And` whose rewritten
right operand is a literal false, the left one not being one, is replaced by
that literal, and an `Or` whose rewritten right operand is a literal true, the
left one not being one, is replaced by that literal: the literal raises no
error, whatever the left operand does. -/
theorem evalFilter_keeps_errors (b : Builtins) (row : Row) :
    (∀ (p : Expr) (c : Node) (p' : Expr), (Node.Filter p c).Resolved = true →
      isCombination p = true → dropsFailing b row p = false →
      p.TransformUp (evalFilterExprFunc b) = .ok p' →
      raises (p.Eval b row) = true →
      raises (p'.Eval b row) = true ∧
      ∃ c', evalFilter b c = .ok c' ∧ evalFilter b (.Filter p c) = .ok (.Filter p' c')) ∧
    (∀ l r L R : Expr, l.TransformUp (evalFilterExprFunc b) = .ok L →
      r.TransformUp (evalFilterExprFunc b) = .ok R → isFalse L = false → isFalse R = true →
      (Expr.And l r).TransformUp (evalFilterExprFunc b) = .ok R ∧
      raises (R.Eval b row) = false) ∧
    (∀ l r L R : Expr, l.TransformUp (evalFilterExprFunc b) = .ok L →
      r.TransformUp (evalFilterExprFunc b) = .ok R → isTrue L = false → isTrue R = true →
      (Expr.Or l r).TransformUp (evalFilterExprFunc b) = .ok R ∧
      raises (R.Eval b row) = false) := by
  refine ⟨?_, ?_, ?_⟩
  · intro p c p' hres hc hd hp herr
    have hk := evalFilter_rewrite_keepsOutcome b row p p' hc hd hp
    have hr := hk.1 herr
    refine ⟨hr, ?_⟩
    obtain ⟨c', hc'⟩ := evalFilter_total b c
    refine ⟨c', hc', ?_⟩
    rw [evalFilter_filter b p c p' c' hres hp hc']
    have h1 : isFalse p' = false := by
      cases hf : isFalse p'
      · rfl
      · obtain ⟨v, hv, _⟩ := isFalse_eval b row p' hf
        simp [hv, raises] at hr
    have h2 : isTrue p' = false := by
      cases hf : isTrue p'
      · rfl
      · obtain ⟨v, hv, _⟩ := isTrue_eval b row p' hf
        simp [hv, raises] at hr
    simp [h1, h2]
  · intro l r L R hl hr h1 h2
    refine ⟨?_, ?_⟩
    · simp [Expr.TransformUp, hl, hr, evalFilterExprFunc_and, h1, h2]
    · obtain ⟨v, hv, _⟩ := isFalse_eval b row R h2
      simp [hv, raises]
  · intro l r L R hl hr h1 h2
    refine ⟨?_, ?_⟩
    · simp [Expr.TransformUp, hl, hr, evalFilterExprFunc_or, h1, h2]
    · obtain ⟨v, hv, _⟩ := isTrue_eval b row R h2
      simp [hv, raises]

/-- C21 witness: the predicate `(1 / 0 AND TRUE) OR a > 5` raises an error on
the row `(1, 2)`; so does its rewrite `1 / 0 OR a > 5`, and the `Filter` over
`T1` is kept with that predicate.  The predicate `1 / 0 AND FALSE` is rewritten
to `FALSE`. -/
theorem evalFilter_keeps_errors_witness :
    (Expr.Or (.And (.Call "/" .Int64 [intLit 1, intLit 0]) (boolLit true))
        (compare2 ">" (.GetField 0 .Int64 "T1" "a") (intLit 5))).TransformUp
      (evalFilterExprFunc sampleBuiltins) =
      .ok (.Or (.Call "/" .Int64 [intLit 1, intLit 0])
        (compare2 ">" (.GetField 0 .Int64 "T1" "a") (intLit 5))) ∧
    (raises ((Expr.Or (.Call "/" .Int64 [intLit 1, intLit 0])
        (compare2 ">" (.GetField 0 .Int64 "T1" "a") (intLit 5))).Eval sampleBuiltins
        [.int64 1, .int64 2]) = true ∧
     ∃ c', evalFilter sampleBuiltins tableT1 = .ok c' ∧
      evalFilter sampleBuiltins
        (.Filter (.Or (.And (.Call "/" .Int64 [intLit 1, intLit 0]) (boolLit true))
          (compare2 ">" (.GetField 0 .Int64 "T1" "a") (intLit 5))) tableT1) =
        .ok (.Filter (.Or (.Call "/" .Int64 [intLit 1, intLit 0])
          (compare2 ">" (.GetField 0 .Int64 "T1" "a") (intLit 5))) c')) ∧
    ((Expr.And (.Call "/" .Int64 [intLit 1, intLit 0]) (boolLit false)).TransformUp
        (evalFilterExprFunc sampleBuiltins) = .ok (boolLit false) ∧
     raises ((boolLit false).Eval sampleBuiltins [.int64 1, .int64 2]) = false) :=
  ⟨rfl,
   (evalFilter_keeps_errors sampleBuiltins [.int64 1, .int64 2]).1
     (.Or (.And (.Call "/" .Int64 [intLit 1, intLit 0]) (boolLit true))
       (compare2 ">" (.GetField 0 .Int64 "T1" "a") (intLit 5))) tableT1
     (.Or (.Call "/" .Int64 [intLit 1, intLit 0])
       (compare2 ">" (.GetField 0 .Int64 "T1" "a") (intLit 5))) rfl rfl rfl rfl rfl,
   (evalFilter_keeps_errors sampleBuiltins [.int64 1, .int64 2]).2.1
     (.Call "/" .Int64 [intLit 1, intLit 0]) (boolLit false)
     (.Call "/" .Int64 [intLit 1, intLit 0]) (boolLit false) rfl rfl rfl rfl⟩

end GMS
